import Mathlib

/-!
# boost::histogram::adaptive_storage

A shallow embedding of `include/boost/histogram/adaptive_storage.hpp`: the tagged buffer
`buffer_type`, the `apply` dispatch and the functors `incrementor`, `adder`, `setter`,
`buffer_adder`, `multiplier`, `getter` and `comparer`, the copy and move operations, and
the properties proved about them. The store `detail::nstore` of `src/nstore.cpp` follows in
the namespace `detail`.

Conventions of the embedding.
* A typed pointer `T*` into a buffer of `size` cells is the list of the cells.
  The fields `type` and `ptr` of `buffer_type` are always written together by
  `buffer_type::set`, so the embedding keeps one field `ptr` that carries its element type.
* Fixed-width unsigned cells are natural numbers; every conversion to a fixed-width type
  is an explicit reduction modulo `2 ^ digits`.
* `mp_int` cells are integers, `double` cells are `Float`.
* Allocation succeeds, except in the definitions named `fallible`, where the allocator
  grants a given number of allocations and fails afterwards.
-/

namespace adaptive_storage

/-- The fixed-width unsigned cell types `uint8_t`, `uint16_t`, `uint32_t`, `uint64_t`. -/
inductive uint_t
  | uint8_t
  | uint16_t
  | uint32_t
  | uint64_t
  deriving DecidableEq, Repr

/-- The member `std::numeric_limits<T>::digits` of an unsigned cell type. -/
def uint_t.digits : uint_t → Nat
  | .uint8_t => 8
  | .uint16_t => 16
  | .uint32_t => 32
  | .uint64_t => 64

/-- The value `std::numeric_limits<T>::max()`. -/
def numeric_limits_max (T : uint_t) : Nat := 2 ^ T.digits - 1

/-- The conversion `static_cast<T>(n)` of a non-negative integer to the unsigned type `T`. -/
def static_cast (T : uint_t) (n : Nat) : Nat := n % 2 ^ T.digits

/-- The list `types = mp_list<void, uint8_t, uint16_t, uint32_t, uint64_t, mp_int, double>`.
In the words of the specification these are the tags Empty, U8, U16, U32, U64, BigInt, F64. -/
inductive types
  | void
  | uint (T : uint_t)
  | mp_int
  | double
  deriving DecidableEq, Repr

/-- The position `type_index<T>()` of a type in `types`. -/
def type_index : types → Nat
  | .void => 0
  | .uint .uint8_t => 1
  | .uint .uint16_t => 2
  | .uint .uint32_t => 3
  | .uint .uint64_t => 4
  | .mp_int => 5
  | .double => 6

/-- The type `mp11::mp_at_c<types, n>` at position `n` of `types`. -/
def mp_at_c : Nat → types
  | 0 => .void
  | 1 => .uint .uint8_t
  | 2 => .uint .uint16_t
  | 3 => .uint .uint32_t
  | 4 => .uint .uint64_t
  | 5 => .mp_int
  | _ => .double

/-- A typed view of `buffer_type::ptr`: the null pointer of an untouched storage, or the
cells of the buffer at the element type recorded in `buffer_type::type`. -/
inductive pointer
  | void
  | uint (T : uint_t) (tp : List Nat)
  | mp_int (tp : List Int)
  | double (tp : List Float)

/-- The element type of a typed pointer: the value of `buffer_type::type`. -/
def pointer.type : pointer → types
  | .void => .void
  | .uint T _ => .uint T
  | .mp_int _ => .mp_int
  | .double _ => .double

/-- The struct `adaptive_storage::buffer_type`: allocator, number of cells, and the
typed pointer (fields `type` and `ptr`). -/
structure buffer_type where
  alloc : Nat
  size : Nat
  ptr : pointer

/-- The field `buffer_type::type`. -/
def buffer_type.type (b : buffer_type) : types := b.ptr.type

/-- Modelled from the spec: `detail::create_buffer` and `detail::create_buffer_from_iter`
of `detail/buffer.hpp`, reached through `buffer_type::create<T>(init)`. Without `init` the
new buffer holds `size` zero cells; with `init` it holds the cells of `init` converted to
`T` (copy with widening). `create<void>` returns the null pointer. Only same-type and
widening copies are instantiated by the storage; a copy from `mp_int` or `double` cells
into a narrower integer type is never instantiated and is given the null pointer here. -/
def buffer_type.create (b : buffer_type) (T : types) (init : pointer) : pointer :=
  match T, init with
  | .void, _ => .void
  | .uint T, .void => .uint T (List.replicate b.size 0)
  | .uint T, .uint _ tp => .uint T (tp.map (static_cast T))
  | .uint _, _ => .void
  | .mp_int, .void => .mp_int (List.replicate b.size 0)
  | .mp_int, .uint _ tp => .mp_int (tp.map Int.ofNat)
  | .mp_int, .mp_int tp => .mp_int tp
  | .mp_int, .double _ => .void
  | .double, .void => .double (List.replicate b.size 0)
  | .double, .uint _ tp => .double (tp.map Float.ofNat)
  | .double, .mp_int tp => .double (tp.map Float.ofInt)
  | .double, .double tp => .double tp

/-- The call `buffer_type::set(p)`: installs the pointer together with its type index.
The old buffer has been released by `destroyer` just before. -/
def buffer_type.set (b : buffer_type) (p : pointer) : buffer_type := { b with ptr := p }

/-- Construction `adaptive_storage(const allocator_type& a)`: no cells, null pointer. -/
def init (a : Nat) : buffer_type := { alloc := a, size := 0, ptr := .void }

/-- The method `adaptive_storage::reset(s)`: destroys the buffer, sets the size and
installs `create<void>()`. -/
def reset (b : buffer_type) (s : Nat) : buffer_type :=
  let b := { b with size := s }
  b.set (b.create .void .void)

/-- The function `detail::safe_increment(T& t)`: the returned flag and the value of `t`
after the call. -/
def safe_increment (T : uint_t) (t : Nat) : Bool × Nat :=
  if t < numeric_limits_max T then (true, static_cast T (t + 1)) else (false, t)

/-- The statement `++reinterpret_cast<U*>(b.ptr)[i]` at the element type of the pointer. -/
def pointer.pre_increment (p : pointer) (i : Nat) : pointer :=
  match p with
  | .void => .void
  | .uint U tp => .uint U (tp.set i (static_cast U (tp.getD i 0 + 1)))
  | .mp_int tp => .mp_int (tp.set i (tp.getD i 0 + 1))
  | .double tp => .double (tp.set i (tp.getD i 0 + 1))

/-- The functor `adaptive_storage::incrementor` under `apply`: one case for each overload of
`operator()`, selected by the type of the buffer. -/
def incrementor (b : buffer_type) (i : Nat) : buffer_type :=
  match b.ptr with
  | .uint T tp =>
    let r := safe_increment T (tp.getD i 0)
    let b := { b with ptr := .uint T (tp.set i r.2) }
    if r.1 then b
    else
      let ptr := b.create (mp_at_c (type_index (.uint T) + 1)) b.ptr
      let b := b.set ptr
      { b with ptr := b.ptr.pre_increment i }
  | .void =>
    let b := b.set (b.create (mp_at_c 1) .void)
    { b with ptr := b.ptr.pre_increment i }
  | .mp_int tp => { b with ptr := .mp_int (tp.set i (tp.getD i 0 + 1)) }
  | .double tp => { b with ptr := .double (tp.set i (tp.getD i 0 + 1)) }

/-- An addend `x` with `std::is_integral<U>` or `U = mp_int`. A fixed-width addend is
given by its value, which `safe_radd` asserts to be non-negative, so that the conversion
`static_cast<make_unsigned<U>>(u)` does not change it. -/
inductive integer_addend
  | integral (u : Nat)
  | mp_int (u : Int)

/-- The mathematical value of an integer addend: `static_cast<mp_int>(x)`. -/
def integer_addend.value : integer_addend → Int
  | .integral u => Int.ofNat u
  | .mp_int u => u

/-- An addend of `adder`: of integer kind, or floating. -/
inductive addend
  | integer (x : integer_addend)
  | floating (x : Float)

/-- The conversion of an addend to `double` in `tp[i] += x` on a `double` buffer. -/
def addend.to_double : addend → Float
  | .integer (.integral u) => Float.ofNat u
  | .integer (.mp_int u) => Float.ofInt u
  | .floating x => x

/-- The two overloads of `detail::safe_radd(T& t, const U& u)`, for a fixed-width `U` and
for a multiprecision number: the returned flag and the value of `t` after the call. -/
def safe_radd (T : uint_t) (t : Nat) : integer_addend → Bool × Nat
  | .integral u =>
    if static_cast T (numeric_limits_max T - t) < u then (false, t)
    else (true, static_cast T (t + static_cast T u))
  | .mp_int u =>
    if Int.ofNat (static_cast T (numeric_limits_max T - t)) < u then (false, t)
    else (true, static_cast T (t + (u % 2 ^ T.digits).toNat))

/-- The overloads of `adder::if_U_is_integral(std::true_type, ...)` for `mp_int*` and for
`T*`, selected by the type of the buffer. The overload for `T*` calls the instantiation for
the next type of `types` when `safe_radd` fails; `n` bounds the depth of that chain of
instantiations, which ends at `mp_int`. -/
def adder.if_U_is_integral_true : Nat → buffer_type → Nat → integer_addend → buffer_type
  | 0, b, _, _ => b
  | n + 1, b, i, x =>
    match b.ptr with
    | .mp_int tp => { b with ptr := .mp_int (tp.set i (tp.getD i 0 + x.value)) }
    | .uint T tp =>
      let r := safe_radd T (tp.getD i 0) x
      let b := { b with ptr := .uint T (tp.set i r.2) }
      if r.1 then b
      else
        let ptr := b.create (mp_at_c (type_index (.uint T) + 1)) b.ptr
        let b := b.set ptr
        adder.if_U_is_integral_true n b i x
    | _ => b

/-- The overload `adder::operator()(double* tp, Buffer&, i, x)`: `tp[i] += x`. -/
def adder.operator_double (b : buffer_type) (i : Nat) (x : addend) : buffer_type :=
  match b.ptr with
  | .double tp => { b with ptr := .double (tp.set i (tp.getD i 0 + x.to_double)) }
  | _ => b

/-- The overload `adder::if_U_is_integral(std::false_type, T* tp, ...)`: converts the buffer
to `double` and adds there. -/
def adder.if_U_is_integral_false (b : buffer_type) (i : Nat) (x : addend) : buffer_type :=
  let ptr := b.create .double b.ptr
  let b := b.set ptr
  adder.operator_double b i x

/-- The overloads `adder::operator()(T* tp, ...)` and `adder::operator()(double* tp, ...)`
on an allocated buffer. The bound `5` is the number of integer types of `types`, the length
of the longest chain of instantiations of `if_U_is_integral`, from `uint8_t` to `mp_int`. -/
def adder.operator_T (b : buffer_type) (i : Nat) (x : addend) : buffer_type :=
  match b.ptr with
  | .double _ => adder.operator_double b i x
  | _ =>
    match x with
    | .integer u => adder.if_U_is_integral_true 5 b i u
    | .floating _ => adder.if_U_is_integral_false b i x

/-- The functor `adaptive_storage::adder` under `apply`. The overload for `void*` installs a
zero `uint8_t` buffer and calls the overload for `uint8_t*`. -/
def adder (b : buffer_type) (i : Nat) (x : addend) : buffer_type :=
  match b.ptr with
  | .void =>
    let b := b.set (b.create (mp_at_c 1) .void)
    adder.operator_T b i x
  | _ => adder.operator_T b i x

/-- The cell overloads of `adaptive_storage::setter` under `apply`, reached from
`reference::operator=`: `tp[i] = 0` followed by `adder`; on `void*` only `adder`. -/
def setter (b : buffer_type) (i : Nat) (x : addend) : buffer_type :=
  match b.ptr with
  | .void => adder b i x
  | .uint T tp => adder { b with ptr := .uint T (tp.set i 0) } i x
  | .mp_int tp => adder { b with ptr := .mp_int (tp.set i 0) } i x
  | .double tp => adder { b with ptr := .double (tp.set i 0) } i x

/-- The cell `tp[i]` of the source buffer as the addend handed to `adder` by
`buffer_adder`; `none` for the overload on `void*`, which adds nothing. -/
def pointer.addend_at (p : pointer) (i : Nat) : Option addend :=
  match p with
  | .void => none
  | .uint _ tp => some (.integer (.integral (tp.getD i 0)))
  | .mp_int tp => some (.integer (.mp_int (tp.getD i 0)))
  | .double tp => some (.floating (tp.getD i 0))

/-- The functor `adaptive_storage::buffer_adder` under `apply` on the source buffer `o`:
`for (i = 0; i < b.size; ++i) apply(adder(), b, i, tp[i])`. -/
def buffer_adder (o : buffer_type) (b : buffer_type) : buffer_type :=
  (List.range b.size).foldl
    (fun b i => match o.ptr.addend_at i with
      | some x => adder b i x
      | none => b) b

/-- The operator `adaptive_storage::operator+=(const adaptive_storage& o)` for `this != &o`:
the pair of `*this` and `o` after the call. -/
def add_assign (self o : buffer_type) : buffer_type × buffer_type :=
  (buffer_adder o self, o)

/-- The functor `adaptive_storage::multiplier` under `apply`, reached from `operator*=`. -/
def multiplier (b : buffer_type) (x : Float) : buffer_type :=
  match b.ptr with
  | .void => b
  | .double tp => { b with ptr := .double (tp.map (· * x)) }
  | _ =>
    let ptr := b.create .double b.ptr
    let b := b.set ptr
    match b.ptr with
    | .double tp => { b with ptr := .double (tp.map (· * x)) }
    | _ => b

/-- The logical integer values of the cells of a buffer with an integer type; an untouched
storage has the value zero in each of its `size` cells. -/
def buffer_type.values (b : buffer_type) : List Int :=
  match b.ptr with
  | .void => List.replicate b.size 0
  | .uint _ tp => tp.map Int.ofNat
  | .mp_int tp => tp
  | .double _ => []

/-- The logical integer value of cell `i`. -/
def buffer_type.value (b : buffer_type) (i : Nat) : Int := b.values.getD i 0

/-- The representation invariant of a buffer: an allocated buffer has `size` cells, and a
cell of type `T` holds a value of `T`. -/
def buffer_type.wf (b : buffer_type) : Prop :=
  match b.ptr with
  | .void => True
  | .uint T tp => tp.length = b.size ∧ ∀ t ∈ tp, t ≤ numeric_limits_max T
  | .mp_int tp => tp.length = b.size
  | .double tp => tp.length = b.size

instance buffer_type.decidable_wf : (b : buffer_type) → Decidable b.wf
  | ⟨_, _, .void⟩ => inferInstanceAs (Decidable True)
  | ⟨_, s, .uint T tp⟩ =>
    inferInstanceAs (Decidable (tp.length = s ∧ ∀ t ∈ tp, t ≤ numeric_limits_max T))
  | ⟨_, s, .mp_int tp⟩ => inferInstanceAs (Decidable (tp.length = s))
  | ⟨_, s, .double tp⟩ => inferInstanceAs (Decidable (tp.length = s))

/-- The promotion order of the integer representations, in the words of the specification
U8, U16, U32, U64, BigInt. -/
def promotion_order : List types :=
  [.uint .uint8_t, .uint .uint16_t, .uint .uint32_t, .uint .uint64_t, .mp_int]

/-- The range of a representation contains the integer `v`: `0 ≤ v ≤ max()` for a
fixed-width type, every integer for `mp_int`. -/
def types.in_range (W : types) (v : Int) : Bool :=
  match W with
  | .uint U => decide (0 ≤ v ∧ v ≤ Int.ofNat (numeric_limits_max U))
  | .mp_int => true
  | _ => false

/-- The first representation in the promotion order, at or after `T`, whose range contains
`v`. -/
def first_in_range (T : types) (v : Int) : Option types :=
  (promotion_order.filter (fun W => decide (type_index T ≤ type_index W))).find?
    (fun W => W.in_range v)

/-- The largest logical cell value of a buffer (zero when it has no cells). -/
def buffer_type.largest_value (b : buffer_type) : Int := b.values.foldr max 0

/-- A mutating operation on a storage: `++s[i]`, `s[i] += x`, `s[i] = x`, `s += o` and
`s *= x`. -/
inductive operation
  | increment (i : Nat)
  | add (i : Nat) (x : addend)
  | assign (i : Nat) (x : addend)
  | bulk_add (o : buffer_type)
  | scale (x : Float)

/-- The storage after an operation. -/
def operation.run (b : buffer_type) : operation → buffer_type
  | .increment i => incrementor b i
  | .add i x => adder b i x
  | .assign i x => setter b i x
  | .bulk_add o => (add_assign b o).1
  | .scale x => multiplier b x

/-- An operation is an increment or the addition of a non-negative integer, at a cell
index below `N`. -/
def operation.integer_fill (N : Nat) : operation → Prop
  | .increment i => i < N
  | .add i (.integer x) => i < N ∧ 0 ≤ x.value
  | _ => False

/-- A default-constructed allocator, `allocator_type()`. -/
def allocator_type : Nat := 0

/-- The call `std::copy(optr, optr + n, reinterpret_cast<T*>(b.ptr))` of `n` cells into an
existing buffer of the same element type. -/
def pointer.copy (n : Nat) (optr p : pointer) : pointer :=
  match optr, p with
  | .uint _ optr, .uint T tp => .uint T (optr.take n ++ tp.drop n)
  | .mp_int optr, .mp_int tp => .mp_int (optr.take n ++ tp.drop n)
  | .double optr, .double tp => .double (optr.take n ++ tp.drop n)
  | _, p => p

/-- The buffer overloads of `adaptive_storage::setter` under `apply(setter(), ob, b)`, selected
by the type of the source `ob`. The overload for `void*` destroys the destination and writes
`b.type = 0` and `b.size = ob.size`; the overload for `T*` copies in place when size and type
agree, and otherwise destroys the destination, takes `ob.alloc` and `ob.size` and installs
`create<T>(optr)`. -/
def setter.buffer (ob b : buffer_type) : buffer_type :=
  match ob.ptr with
  | .void => { b with size := ob.size, ptr := .void }
  | optr =>
    if b.size = ob.size ∧ b.type = ob.type then
      { b with ptr := pointer.copy ob.size optr b.ptr }
    else
      let b := { b with alloc := ob.alloc, size := ob.size }
      b.set (b.create optr.type optr)

/-- The copy constructor `adaptive_storage(const adaptive_storage& o)`: the member `buffer`
is default-initialised (no cells, default allocator) and `setter` is applied to it. -/
def copy_construct (o : buffer_type) : buffer_type :=
  setter.buffer o { alloc := allocator_type, size := 0, ptr := .void }

/-- The copy assignment `operator=(const adaptive_storage& o)` for `this != &o`: the pair of
`*this` and `o` after the call. For `this == &o` nothing is done. -/
def copy_assign (self o : buffer_type) : buffer_type × buffer_type :=
  (setter.buffer o self, o)

/-- The move constructor `adaptive_storage(adaptive_storage&& o)`: the pair of the new
storage, whose buffer is moved from `o.buffer` member by member, and of `o` after
`o.buffer.size = 0` and `o.buffer.set(nullptr)`. -/
def move_construct (o : buffer_type) : buffer_type × buffer_type :=
  (o, ({ o with size := 0 } : buffer_type).set .void)

/-- The operator `adaptive_storage::operator+=(const adaptive_storage& o)` for `this == &o`:
the source is copied first, `const auto copy = o`, and the copy is added. -/
def add_assign_self (self : buffer_type) : buffer_type :=
  let copy := copy_construct self
  buffer_adder copy self

/-- The functor `adaptive_storage::getter` under `apply`: the cell converted to `double`,
`0.0` on `void*`. -/
def getter (b : buffer_type) (i : Nat) : Float :=
  match b.ptr with
  | .void => 0.0
  | .uint _ tp => Float.ofNat (tp.getD i 0)
  | .mp_int tp => Float.ofInt (tp.getD i 0)
  | .double tp => tp.getD i 0

/-- A cell read through a typed pointer: a value of a fixed-width type, of `mp_int` or of
`double`. -/
inductive cell
  | uint (t : Nat)
  | mp_int (t : Int)
  | double (t : Float)

/-- The overloads of `adaptive_storage::cmp::operator()(t, u)`. The generic overload
compares with `t == u`, converting a fixed-width value to the type of the other side; the
overload for `(T, mp_int)` swaps the arguments; `(mp_int, double)` compares as `double`. -/
def cmp : cell → cell → Bool
  | .mp_int t, .mp_int u => u == t
  | .mp_int t, .double u => Float.ofInt t == u
  | .mp_int t, .uint u => t == Int.ofNat u
  | .uint t, .mp_int u => u == Int.ofNat t
  | .double t, .mp_int u => Float.ofInt u == t
  | .uint t, .uint u => t == u
  | .uint t, .double u => Float.ofNat t == u
  | .double t, .uint u => t == Float.ofNat u
  | .double t, .double u => t == u

/-- The test `x == 0` of `comparer::inner` on a cell. -/
def cell.is_zero : cell → Bool
  | .uint t => t == 0
  | .mp_int t => t == 0
  | .double t => t == 0

/-- Indexing through a typed pointer; `none` for `void*`. -/
def pointer.deref : pointer → Option (Nat → cell)
  | .void => none
  | .uint _ tp => some fun k => .uint (tp.getD k 0)
  | .mp_int tp => some fun k => .mp_int (tp.getD k 0)
  | .double tp => some fun k => .double (tp.getD k 0)

/-- The four overloads of `comparer::inner::operator()(optr, ob, tp)` under
`apply(inner(), ob, tp)`: `std::equal` with `cmp` over `ob.size` cells for two typed
pointers, `std::all_of` with `x == 0` when one side is `void*`, `true` when both are. -/
def comparer.inner (ob : buffer_type) (tp : pointer) : Bool :=
  match ob.ptr.deref, tp.deref with
  | some optr, some tp => (List.range ob.size).all fun k => cmp (optr k) (tp k)
  | some optr, none => (List.range ob.size).all fun k => (optr k).is_zero
  | none, some tp => (List.range ob.size).all fun k => (tp k).is_zero
  | none, none => true

/-- The operator `adaptive_storage::operator==(const adaptive_storage& o)`: `false` on
different sizes, `apply(comparer(), buffer, o.buffer)` otherwise. -/
def operator_eq (self o : buffer_type) : Bool :=
  if self.size ≠ o.size then false else comparer.inner o self.ptr

/-- Cell `k` of a buffer is zero; every cell of an untouched storage is. -/
def buffer_type.cell_is_zero (b : buffer_type) (k : Nat) : Prop :=
  match b.ptr with
  | .void => True
  | .uint _ tp => tp.getD k 0 = 0
  | .mp_int tp => tp.getD k 0 = 0
  | .double tp => (tp.getD k 0 == 0) = true

/-- The move assignment `operator=(adaptive_storage&& o)` for `this != &o`,
`std::swap(buffer, o.buffer)`: the pair of `*this` and `o` after the call. -/
def move_assign (self o : buffer_type) : buffer_type × buffer_type :=
  (o, self)

/-- The move assignment `operator=(adaptive_storage&& o)` for `this == &o`: the guard
`this != &o` skips the swap. -/
def move_assign_self (self : buffer_type) : buffer_type :=
  self

/-- An error reported to the caller of a comparison. -/
inductive error
  | size_mismatch

/-- The two overloads of `adaptive_storage::comparer_extern` under `apply`, on a foreign
sequence `u` of cells: the loop returns `false` at the first index with `!cmp(ptr[i], u[i])`,
or with `!(0 == u[i])` on `void*`. -/
def comparer_extern (b : buffer_type) (u : List cell) : Bool :=
  match b.ptr.deref with
  | some ptr => (List.range b.size).all fun i => cmp (ptr i) (u.getD i (.uint 0))
  | none => (List.range b.size).all fun i => (u.getD i (.uint 0)).is_zero

/-- The operator `adaptive_storage::operator==(const T& o)` against a foreign sequence:
`if (size() != o.size()) return false;` and `apply(comparer_extern(), buffer, o)`
otherwise. The function has no path that raises an error. -/
def operator_eq_extern (self : buffer_type) (o : List cell) : Except error Bool :=
  if self.size ≠ o.length then .ok false else .ok ( comparer_extern self o)

/-- The function `detail::safe_radd(T& t, const U& u)` for a fixed-width integer type `U` of
`bits` bits, signed or unsigned, with `u` the mathematical value of the addend:
`V = make_unsigned<U>` has the same `bits`, `static_cast<V>(u)` and `static_cast<T>(u)` reduce
`u` modulo `2 ^ bits` and modulo `2 ^ digits`, and the comparison of a `T` with a `V` converts
both unsigned values to a common type without changing them. -/
def safe_radd_fixed (T : uint_t) (t : Nat) (bits : Nat) (u : Int) : Bool × Nat :=
  if static_cast T (numeric_limits_max T - t) < (u % 2 ^ bits).toNat then (false, t)
  else (true, static_cast T (t + (u % 2 ^ T.digits).toNat))

/-- The effect of a call on a storage when allocation can fail: the call returns, or
`std::bad_alloc` propagates to the caller; in both cases the buffer as the call leaves
it. -/
inductive outcome
  | returned (b : buffer_type)
  | bad_alloc (b : buffer_type)

/-- The buffer that a call leaves behind. -/
def outcome.buffer : outcome → buffer_type
  | .returned b => b
  | .bad_alloc b => b

/-- The call ended with `std::bad_alloc`. -/
def outcome.failed : outcome → Bool
  | .returned _ => false
  | .bad_alloc _ => true

/-- The functor `adaptive_storage::incrementor` with an allocator that grants `n` more
allocations and fails afterwards. Every call of `create<T>` for a type other than `void`
is one allocation; `create` throws before anything is written. -/
def incrementor.fallible (n : Nat) (b : buffer_type) (i : Nat) : outcome :=
  match b.ptr with
  | .uint T tp =>
    let r := safe_increment T (tp.getD i 0)
    let b := { b with ptr := .uint T (tp.set i r.2) }
    if r.1 then .returned b
    else
      match n with
      | 0 => .bad_alloc b
      | _ + 1 =>
        let ptr := b.create (mp_at_c (type_index (.uint T) + 1)) b.ptr
        let b := b.set ptr
        .returned { b with ptr := b.ptr.pre_increment i }
  | .void =>
    match n with
    | 0 => .bad_alloc b
    | _ + 1 =>
      let b := b.set (b.create (mp_at_c 1) .void)
      .returned { b with ptr := b.ptr.pre_increment i }
  | .mp_int tp => .returned { b with ptr := .mp_int (tp.set i (tp.getD i 0 + 1)) }
  | .double tp => .returned { b with ptr := .double (tp.set i (tp.getD i 0 + 1)) }

/-- The overloads of `adder::if_U_is_integral(std::true_type, ...)` with an allocator that
grants `n` more allocations; `k` bounds the chain of instantiations as in
`adder.if_U_is_integral_true`. Each promotion step allocates, destroys the old buffer and
installs the new one before the next instantiation is called. -/
def adder.if_U_is_integral_true_fallible :
    Nat → Nat → buffer_type → Nat → integer_addend → outcome
  | 0, _, b, _, _ => .returned b
  | k + 1, n, b, i, x =>
    match b.ptr with
    | .mp_int tp => .returned { b with ptr := .mp_int (tp.set i (tp.getD i 0 + x.value)) }
    | .uint T tp =>
      let r := safe_radd T (tp.getD i 0) x
      let b := { b with ptr := .uint T (tp.set i r.2) }
      if r.1 then .returned b
      else
        match n with
        | 0 => .bad_alloc b
        | n + 1 =>
          let ptr := b.create (mp_at_c (type_index (.uint T) + 1)) b.ptr
          let b := b.set ptr
          adder.if_U_is_integral_true_fallible k n b i x
    | _ => .returned b

/-- The overload `adder::if_U_is_integral(std::false_type, T* tp, ...)` with an allocator
that grants `n` more allocations. -/
def adder.if_U_is_integral_false_fallible (n : Nat) (b : buffer_type) (i : Nat)
    (x : addend) : outcome :=
  match n with
  | 0 => .bad_alloc b
  | _ + 1 =>
    let ptr := b.create .double b.ptr
    let b := b.set ptr
    .returned (adder.operator_double b i x)

/-- The overloads `adder::operator()(T* tp, ...)` and `adder::operator()(double* tp, ...)`
with an allocator that grants `n` more allocations. -/
def adder.operator_T_fallible (n : Nat) (b : buffer_type) (i : Nat) (x : addend) : outcome :=
  match b.ptr with
  | .double _ => .returned (adder.operator_double b i x)
  | _ =>
    match x with
    | .integer u => adder.if_U_is_integral_true_fallible 5 n b i u
    | .floating _ => adder.if_U_is_integral_false_fallible n b i x

/-- The functor `adaptive_storage::adder` under `apply` with an allocator that grants `n`
more allocations. -/
def adder.fallible (n : Nat) (b : buffer_type) (i : Nat) (x : addend) : outcome :=
  match b.ptr with
  | .void =>
    match n with
    | 0 => .bad_alloc b
    | n + 1 =>
      let b := b.set (b.create (mp_at_c 1) .void)
      adder.operator_T_fallible n b i x
  | _ => adder.operator_T_fallible n b i x

/-- The cell overloads of `adaptive_storage::setter` under `apply` with an allocator that
grants `n` more allocations: `tp[i] = 0` is written before `adder` is called. -/
def setter.fallible (n : Nat) (b : buffer_type) (i : Nat) (x : addend) : outcome :=
  match b.ptr with
  | .void => adder.fallible n b i x
  | .uint T tp => adder.fallible n { b with ptr := .uint T (tp.set i 0) } i x
  | .mp_int tp => adder.fallible n { b with ptr := .mp_int (tp.set i 0) } i x
  | .double tp => adder.fallible n { b with ptr := .double (tp.set i 0) } i x

/-- The storages reached from `reset(n)` by increments, by adds and sets with non-negative
integer operands at indices below the size, and by bulk adds, aliased or not, of storages of
the same size that are reached in the same way. -/
inductive reachable : buffer_type → Prop
  | reset (b : buffer_type) (n : Nat) : reachable (reset b n)
  | increment (b : buffer_type) (i : Nat) :
      reachable b → i < b.size → reachable (incrementor b i)
  | add (b : buffer_type) (i : Nat) (x : integer_addend) :
      reachable b → i < b.size → 0 ≤ x.value → reachable (adder b i (.integer x))
  | assign (b : buffer_type) (i : Nat) (x : integer_addend) :
      reachable b → i < b.size → 0 ≤ x.value → reachable (setter b i (.integer x))
  | bulk_add (b o : buffer_type) :
      reachable b → reachable o → b.size = o.size → reachable (add_assign b o).1
  | bulk_add_self (b : buffer_type) : reachable b → reachable (add_assign_self b)

end adaptive_storage

/-! ## The store `detail::nstore` of nstore.cpp

The buffer of an `nstore` is raw memory that the code reads and writes through casts of
`buffer_` to pointers to `uint8_t`, `uint16_t`, `uint32_t`, `uint64_t` and `wtype`. The
embedding keeps this level: a buffer is a list of bytes, an unsigned integer of `n` bytes is
stored least significant byte first, and an access outside the allocated bytes is an outcome
of its own. Allocation is taken to succeed. The two operands of `operator+=` and of
`operator==` are distinct objects. -/

namespace detail

/-- The class `wtype` (a weighted count with the members `w` and `w2`). Its header is not
among the sources, so the type is a parameter of the embedding: the size of an object and
the operations that nstore.cpp applies, each on object representations (lists of `sizeof`
bytes). -/
structure wtype where
  /-- The constant `sizeof(wtype)`. -/
  sizeof : Nat
  /-- The conversion of an unsigned integer to `wtype`. -/
  from_uint64 : Nat → List Nat
  /-- The operator `wtype::operator+=(const wtype&)`: the new left operand. -/
  add_assign : List Nat → List Nat → List Nat
  /-- The statements `b.w += oi; b.w2 += oi;`: the new `b`. -/
  add_count : List Nat → Nat → List Nat

/-- The constant `sizeof(T)` of the unsigned integer types. -/
def sizeof : adaptive_storage.uint_t → Nat
  | .uint8_t => 1
  | .uint16_t => 2
  | .uint32_t => 4
  | .uint64_t => 8

/-- The object representation of the unsigned integer `v` in `n` bytes. -/
def to_bytes : Nat → Nat → List Nat
  | 0, _ => []
  | n + 1, v => v % 256 :: to_bytes n (v / 256)

/-- The unsigned integer that a list of bytes represents. -/
def of_bytes : List Nat → Nat
  | [] => 0
  | b :: bs => b % 256 + 256 * of_bytes bs

/-- The class `nstore`: the data members `size_`, `depth_` and `buffer_`. The buffer is the
list of the allocated bytes, `none` for the null pointer. -/
structure nstore where
  size_ : Nat
  depth_ : Nat
  buffer_ : Option (List Nat)
deriving DecidableEq, Repr

/-- The ways in which a member function ends: it returns, it throws `std::logic_error`
(with the state of the receiver at the throw), a `BOOST_ASSERT` fails, or it accesses
memory outside the allocated bytes. -/
inductive outcome (α : Type)
  | returned (a : α)
  | logic_error (self : nstore)
  | assertion_failed
  | out_of_bounds
deriving DecidableEq, Repr

/-- Sequencing of two steps of a member function. -/
def outcome.bind {α β : Type} (x : outcome α) (f : α → outcome β) : outcome β :=
  match x with
  | .returned a => f a
  | .logic_error s => .logic_error s
  | .assertion_failed => .assertion_failed
  | .out_of_bounds => .out_of_bounds

/-- A read of `n` bytes at the byte offset `off` of the buffer. -/
def load (buffer : Option (List Nat)) (off n : Nat) : outcome (List Nat) :=
  match buffer with
  | none => if n = 0 then .returned [] else .out_of_bounds
  | some m => if off + n ≤ m.length then .returned ((m.drop off).take n) else .out_of_bounds

/-- A write of the bytes `bs` at the byte offset `off` of the buffer: the new bytes. -/
def store (buffer : Option (List Nat)) (off : Nat) (bs : List Nat) : outcome (List Nat) :=
  match buffer with
  | none => .out_of_bounds
  | some m =>
    if off + bs.length ≤ m.length then
      .returned (m.take off ++ bs ++ m.drop (off + bs.length))
    else .out_of_bounds

/-- The function `std::calloc(n, d)`: `n * d` zero bytes. -/
def calloc (n d : Nat) : Option (List Nat) := some (List.replicate (n * d) 0)

/-- The function `std::realloc(buffer, n)`: the first bytes are those of the old buffer,
the bytes beyond them are indeterminate and are given the value 0 here. -/
def realloc (buffer : Option (List Nat)) (n : Nat) : Option (List Nat) :=
  some ((buffer.getD []).take n ++ List.replicate (n - (buffer.getD []).length) 0)

/-- The constructor `nstore::nstore()`. -/
def nstore.default : nstore := { size_ := 0, depth_ := sizeof .uint8_t, buffer_ := none }

/-- The constructor `nstore::nstore(size_type s, unsigned d)`; `create(0)` is
`std::calloc(size_, depth_)`. -/
def nstore.make (w : wtype) (s d : Nat) : outcome nstore :=
  if d = sizeof .uint8_t ∨ d = sizeof .uint16_t ∨ d = sizeof .uint32_t ∨
      d = sizeof .uint64_t ∨ d = w.sizeof then
    .returned { size_ := s, depth_ := d, buffer_ := calloc s d }
  else .assertion_failed

/-- The function `nstore::ivalue(size_type i)`: `((T*)buffer_)[i]` for the integer type `T`
with `sizeof(T) = depth_`. -/
def nstore.ivalue (self : nstore) (i : Nat) : outcome Nat :=
  if self.depth_ = sizeof .uint8_t ∨ self.depth_ = sizeof .uint16_t ∨
      self.depth_ = sizeof .uint32_t ∨ self.depth_ = sizeof .uint64_t then
    (load self.buffer_ (i * self.depth_) self.depth_).bind fun bs => .returned (of_bytes bs)
  else .assertion_failed

/-- The loop `while (i--) ((T1*)buffer_)[i] = ((T0*)buffer_)[i];` of `grow` and `wconvert`,
started with `i` on the bytes `m`: `d0` is `sizeof(T0)`, `d1` is `sizeof(T1)` and `conv`
gives the object representation in `T1` of a value of `T0`. -/
def widen (d0 d1 : Nat) (conv : Nat → List Nat) : Nat → List Nat → outcome (List Nat)
  | 0, m => .returned m
  | i + 1, m =>
    (load (some m) (i * d0) d0).bind fun bs =>
    (store (some m) (i * d1) (conv (of_bytes bs))).bind fun m =>
    widen d0 d1 conv i m

/-- The function `nstore::grow()`. -/
def nstore.grow (w : wtype) (self : nstore) : outcome nstore :=
  if self.size_ = 0 then .assertion_failed
  else if self.depth_ = sizeof .uint8_t then
    (widen (sizeof .uint8_t) (sizeof .uint16_t) (to_bytes (sizeof .uint16_t)) self.size_
      ((realloc self.buffer_ (self.size_ * sizeof .uint16_t)).getD [])).bind fun m =>
    .returned { self with depth_ := sizeof .uint16_t, buffer_ := some m }
  else if self.depth_ = sizeof .uint16_t then
    (widen (sizeof .uint16_t) (sizeof .uint32_t) (to_bytes (sizeof .uint32_t)) self.size_
      ((realloc self.buffer_ (self.size_ * sizeof .uint32_t)).getD [])).bind fun m =>
    .returned { self with depth_ := sizeof .uint32_t, buffer_ := some m }
  else if self.depth_ = sizeof .uint32_t then
    (widen (sizeof .uint32_t) (sizeof .uint64_t) (to_bytes (sizeof .uint64_t)) self.size_
      ((realloc self.buffer_ (self.size_ * sizeof .uint64_t)).getD [])).bind fun m =>
    .returned { self with depth_ := sizeof .uint64_t, buffer_ := some m }
  else if self.depth_ = sizeof .uint64_t then
    (widen (sizeof .uint64_t) w.sizeof w.from_uint64 self.size_
      ((realloc self.buffer_ (self.size_ * w.sizeof)).getD [])).bind fun m =>
    .returned { self with depth_ := w.sizeof, buffer_ := some m }
  else .assertion_failed

/-- The function `nstore::wconvert()`. -/
def nstore.wconvert (w : wtype) (self : nstore) : outcome nstore :=
  if ¬ self.depth_ < w.sizeof then .assertion_failed
  else if self.depth_ = sizeof .uint8_t ∨ self.depth_ = sizeof .uint16_t ∨
      self.depth_ = sizeof .uint32_t ∨ self.depth_ = sizeof .uint64_t then
    (widen self.depth_ w.sizeof w.from_uint64 self.size_
      ((realloc self.buffer_ (self.size_ * w.sizeof)).getD [])).bind fun m =>
    .returned { self with depth_ := w.sizeof, buffer_ := some m }
  else .assertion_failed

/-- The loop `while (depth_ < o.depth_) grow();` of `operator+=`. Each call of `grow`
either fails or moves `depth_` one step along 1, 2, 4, 8, `sizeof(wtype)`, so four rounds
exhaust the loop; the count is the first argument. -/
def nstore.grow_to (w : wtype) : Nat → Nat → nstore → outcome nstore
  | 0, _, self => .returned self
  | k + 1, depth, self =>
    if self.depth_ < depth then (self.grow w).bind (nstore.grow_to w k depth)
    else .returned self

/-- The body of the `switch (depth_)` of `operator+=` for the cell `i` and the operand
value `oi`, entered at the first of the listed `case sizeof(T)` labels: a cell that cannot
take `oi` makes the store grow and control fall through to the next label; after the last
integer label comes `case sizeof(wtype)`. -/
def nstore.add_switch (w : wtype) (oi i : Nat) : List adaptive_storage.uint_t → nstore →
    outcome nstore
  | [], self =>
    (load self.buffer_ (i * w.sizeof) w.sizeof).bind fun b =>
    (store self.buffer_ (i * w.sizeof) (w.add_count b oi)).bind fun m =>
    .returned { self with buffer_ := some m }
  | T :: labels, self =>
    (load self.buffer_ (i * sizeof T) (sizeof T)).bind fun bs =>
    if oi ≤ adaptive_storage.static_cast T
        (adaptive_storage.numeric_limits_max T - of_bytes bs) then
      (store self.buffer_ (i * sizeof T)
        (to_bytes (sizeof T)
          (adaptive_storage.static_cast T ((of_bytes bs + oi) % 2 ^ 64)))).bind fun m =>
      .returned { self with buffer_ := some m }
    else (self.grow w).bind (nstore.add_switch w oi i labels)

/-- One round of the loop `while (i < size_)` of `operator+=`: the operand value
`o.ivalue(i)` is added to the cell `i`. Every path through the `switch` that returns ends
in `++i; break;`. -/
def nstore.add_cell (w : wtype) (self o : nstore) (i : Nat) : outcome nstore :=
  (o.ivalue i).bind fun oi =>
  if self.depth_ = sizeof .uint8_t then
    self.add_switch w oi i [.uint8_t, .uint16_t, .uint32_t, .uint64_t]
  else if self.depth_ = sizeof .uint16_t then
    self.add_switch w oi i [.uint16_t, .uint32_t, .uint64_t]
  else if self.depth_ = sizeof .uint32_t then
    self.add_switch w oi i [.uint32_t, .uint64_t]
  else if self.depth_ = sizeof .uint64_t then
    self.add_switch w oi i [.uint64_t]
  else if self.depth_ = w.sizeof then
    self.add_switch w oi i []
  else .assertion_failed

/-- One round of the loop `((wtype*)buffer_)[i] += ((wtype*)o.buffer_)[i];` of
`operator+=`. -/
def nstore.add_wcell (w : wtype) (self o : nstore) (i : Nat) : outcome nstore :=
  (load self.buffer_ (i * w.sizeof) w.sizeof).bind fun b =>
  (load o.buffer_ (i * w.sizeof) w.sizeof).bind fun ob =>
  (store self.buffer_ (i * w.sizeof) (w.add_assign b ob)).bind fun m =>
  .returned { self with buffer_ := some m }

/-- The function `nstore::operator+=(const nstore& o)`. -/
def nstore.operator_add_assign (w : wtype) (self o : nstore) : outcome nstore :=
  if self.size_ ≠ o.size_ then .logic_error self
  else
    (if self.depth_ ≠ o.depth_ then
      if o.depth_ = w.sizeof then self.wconvert w
      else self.grow_to w 4 o.depth_
    else .returned self).bind fun self =>
    if self.depth_ = w.sizeof then
      (List.range self.size_).foldl
        (fun s i => s.bind fun self => self.add_wcell w o i) (.returned self)
    else
      (List.range self.size_).foldl
        (fun s i => s.bind fun self => self.add_cell w o i) (.returned self)

/-- The function `nstore::operator==(const nstore& o)`; `std::memcmp` compares the first
`size_ * depth_` bytes of the two buffers. -/
def nstore.operator_eq (self o : nstore) : outcome Bool :=
  if self.size_ ≠ o.size_ ∨ self.depth_ ≠ o.depth_ then .returned false
  else
    (load self.buffer_ 0 (self.size_ * self.depth_)).bind fun a =>
    (load o.buffer_ 0 (self.size_ * self.depth_)).bind fun b =>
    .returned (decide (a = b))

/-- A stand-in for `wtype` to evaluate the embedding with: 16 bytes that hold two 64-bit
counts, where the class holds two doubles. -/
def wtype.counts : wtype where
  sizeof := 16
  from_uint64 v := to_bytes 8 v ++ to_bytes 8 v
  add_assign a b :=
    to_bytes 8 (of_bytes (a.take 8) + of_bytes (b.take 8)) ++
    to_bytes 8 (of_bytes (a.drop 8) + of_bytes (b.drop 8))
  add_count a oi :=
    to_bytes 8 (of_bytes (a.take 8) + oi) ++ to_bytes 8 (of_bytes (a.drop 8) + oi)

/-- The class invariant of `nstore`: the buffer holds `size_ * depth_` bytes, each a value
below 256; the null pointer goes with no cells. The constructors establish it. -/
def nstore.wf (self : nstore) : Prop :=
  match self.buffer_ with
  | none => self.size_ = 0
  | some m => m.length = self.size_ * self.depth_ ∧ ∀ b ∈ m, b < 256

instance nstore.decidable_wf (self : nstore) : Decidable self.wf := by
  unfold nstore.wf
  cases self.buffer_ <;> exact inferInstance

/-- The depth is the size of one of the unsigned integer types. -/
def nstore.integral (self : nstore) : Prop :=
  self.depth_ = sizeof .uint8_t ∨ self.depth_ = sizeof .uint16_t ∨
    self.depth_ = sizeof .uint32_t ∨ self.depth_ = sizeof .uint64_t

instance nstore.decidable_integral (self : nstore) : Decidable self.integral := by
  unfold nstore.integral
  exact inferInstance

end detail

namespace adaptive_storage

/-! ## Arithmetic of the cell types and list lemmas -/

theorem max_uint8 : numeric_limits_max .uint8_t = 255 := by decide
theorem max_uint16 : numeric_limits_max .uint16_t = 65535 := by decide
theorem max_uint32 : numeric_limits_max .uint32_t = 4294967295 := by decide
theorem max_uint64 : numeric_limits_max .uint64_t = 18446744073709551615 := by decide

theorem two_pow_digits (T : uint_t) : 2 ^ T.digits = numeric_limits_max T + 1 := by
  cases T <;> decide

theorem static_cast_of_le (T : uint_t) (n : Nat) (h : n ≤ numeric_limits_max T) :
    static_cast T n = n := by
  unfold static_cast
  rw [two_pow_digits]
  exact Nat.mod_eq_of_lt (by omega)

theorem getD_le_of_forall (tp : List Nat) (m i : Nat) (h : ∀ t ∈ tp, t ≤ m) :
    tp.getD i 0 ≤ m := by
  rw [List.getD_eq_getElem?_getD]
  cases hi : tp[i]? with
  | none => simp
  | some t => simpa using h t (List.getElem?_mem hi)

theorem set_getD_self {α : Type} (l : List α) (i : Nat) (d : α) : l.set i (l.getD i d) = l := by
  induction l generalizing i with
  | nil => rfl
  | cons a l ih => cases i with
    | zero => rfl
    | succ i => simp only [List.getD_cons_succ, List.set_cons_succ, ih]

theorem getD_set_eq {α : Type} (l : List α) (i j : Nat) (a d : α) (h : i < l.length) :
    (l.set i a).getD j d = if j = i then a else l.getD j d := by
  rw [List.getD_eq_getElem?_getD, List.getD_eq_getElem?_getD, List.getElem?_set]
  by_cases hij : i = j
  · subst hij; simp [h]
  · have : ¬ j = i := fun h => hij h.symm
    simp [hij, this]

theorem map_static_cast (T : uint_t) (tp : List Nat) (h : ∀ t ∈ tp, t ≤ numeric_limits_max T) :
    tp.map (static_cast T) = tp := by
  induction tp with
  | nil => rfl
  | cons a l ih =>
    simp only [List.map_cons]
    rw [static_cast_of_le T a (h a (List.mem_cons_self a l)),
      ih (fun t ht => h t (List.mem_cons_of_mem a ht))]

theorem forall_mem_set {α : Type} (P : α → Prop) (l : List α) (i : Nat) (a : α)
    (hl : ∀ t ∈ l, P t) (ha : P a) : ∀ t ∈ l.set i a, P t := by
  intro t ht
  rcases List.mem_or_eq_of_mem_set ht with h | h
  · exact hl t h
  · exact h ▸ ha

theorem getD_map_ofNat (tp : List Nat) (i : Nat) :
    (tp.map Int.ofNat).getD i 0 = Int.ofNat (tp.getD i 0) :=
  List.getD_map (l := tp) (d := 0) (n := i) Int.ofNat

theorem value_uint (a s : Nat) (T : uint_t) (tp : List Nat) (i : Nat) :
    (buffer_type.mk a s (.uint T tp)).value i = Int.ofNat (tp.getD i 0) := by
  simp only [buffer_type.value, buffer_type.values]
  exact getD_map_ofNat tp i

/-- Promotion of a `T` buffer to the next type of `types` keeps the cells. -/
theorem promote_spec (a s : Nat) (T : uint_t) (tp : List Nat)
    (hall : ∀ t ∈ tp, t ≤ numeric_limits_max T) :
    (buffer_type.mk a s (.uint T tp)).create (mp_at_c (type_index (.uint T) + 1)) (.uint T tp)
      = (if T = .uint64_t then .mp_int (tp.map Int.ofNat)
         else if T = .uint32_t then .uint .uint64_t tp
         else if T = .uint16_t then .uint .uint32_t tp
         else .uint .uint16_t tp) := by
  cases T <;> simp only [type_index, mp_at_c, buffer_type.create] <;> simp
  · rw [map_static_cast]; intro t ht; have := hall t ht; rw [max_uint8] at this; rw [max_uint16]; omega
  · rw [map_static_cast]; intro t ht; have := hall t ht; rw [max_uint16] at this; rw [max_uint32]; omega
  · rw [map_static_cast]; intro t ht; have := hall t ht; rw [max_uint32] at this; rw [max_uint64]; omega

/-- Characterisation of `incrementor` on a `T` buffer. -/
theorem incrementor_uint (a s : Nat) (T : uint_t) (tp : List Nat) (i : Nat)
    (hall : ∀ t ∈ tp, t ≤ numeric_limits_max T) :
    incrementor (buffer_type.mk a s (.uint T tp)) i =
      if tp.getD i 0 < numeric_limits_max T then
        buffer_type.mk a s (.uint T (tp.set i (tp.getD i 0 + 1)))
      else if T = .uint64_t then
        buffer_type.mk a s (.mp_int ((tp.map Int.ofNat).set i (Int.ofNat (tp.getD i 0) + 1)))
      else if T = .uint32_t then
        buffer_type.mk a s (.uint .uint64_t (tp.set i (tp.getD i 0 + 1)))
      else if T = .uint16_t then
        buffer_type.mk a s (.uint .uint32_t (tp.set i (tp.getD i 0 + 1)))
      else buffer_type.mk a s (.uint .uint16_t (tp.set i (tp.getD i 0 + 1))) := by
  have hle := getD_le_of_forall tp _ i hall
  by_cases hlt : tp.getD i 0 < numeric_limits_max T
  · have h1 : static_cast T (tp.getD i 0 + 1) = tp.getD i 0 + 1 :=
      static_cast_of_le T _ (by omega)
    simp only [incrementor, safe_increment, hlt, if_true, h1]
  · have hp := promote_spec a s T tp hall
    simp only [incrementor, safe_increment, hlt, if_false, buffer_type.set]
    simp only [Bool.false_eq_true, if_false]
    rw [set_getD_self, hp]
    have hmax : tp.getD i 0 = numeric_limits_max T := by omega
    cases T
    · simp only [pointer.pre_increment, reduceCtorEq, if_false]
      rw [static_cast_of_le]; rw [hmax]; decide
    · simp only [pointer.pre_increment, reduceCtorEq, if_false, if_true]
      rw [static_cast_of_le]; rw [hmax]; decide
    · simp only [pointer.pre_increment, reduceCtorEq, if_false, if_true]
      rw [static_cast_of_le]; rw [hmax]; decide
    · simp only [pointer.pre_increment, if_true]
      rw [getD_map_ofNat]

theorem first_in_range_uint (T : uint_t) (v : Int) (h0 : 0 ≤ v) :
    first_in_range (.uint T) v =
      if v ≤ (numeric_limits_max T : Nat) then some (.uint T)
      else if T = .uint64_t then some .mp_int
      else first_in_range (mp_at_c (type_index (.uint T) + 1)) v := by
  cases T <;>
    simp [first_in_range, promotion_order, List.filter, type_index, mp_at_c, List.find?,
      types.in_range, h0, max_uint8, max_uint16, max_uint32, max_uint64] 
  all_goals (split_ifs with h <;> simp [h])

theorem safe_radd_eq (T : uint_t) (t : Nat) (x : integer_addend)
    (ht : t ≤ numeric_limits_max T) (hx : 0 ≤ x.value) :
    safe_radd T t x =
      if (t : Int) + x.value ≤ (numeric_limits_max T : Nat)
      then (true, t + x.value.toNat) else (false, t) := by
  cases x with
  | integral u =>
    simp only [safe_radd, integer_addend.value, Int.ofNat_eq_coe]
    rw [static_cast_of_le T _ (Nat.sub_le _ _)]
    by_cases h : numeric_limits_max T - t < u
    · have : ¬ ((t : Int) + (u : Int) ≤ (numeric_limits_max T : Nat)) := by omega
      rw [if_pos h, if_neg this]
    · have h2 : ((t : Int) + (u : Int) ≤ (numeric_limits_max T : Nat)) := by omega
      rw [if_neg h, if_pos h2, static_cast_of_le T u (by omega),
        static_cast_of_le T (t + u) (by omega)]
      simp
  | mp_int u =>
    simp only [safe_radd, integer_addend.value, Int.ofNat_eq_coe] at hx ⊢
    rw [static_cast_of_le T _ (Nat.sub_le _ _)]
    by_cases h : ((numeric_limits_max T - t : Nat) : Int) < u
    · have : ¬ ((t : Int) + u ≤ (numeric_limits_max T : Nat)) := by omega
      rw [if_pos h, if_neg this]
    · have h2 : ((t : Int) + u ≤ (numeric_limits_max T : Nat)) := by omega
      have h3 : u % 2 ^ T.digits = u := by
        apply Int.emod_eq_of_lt hx
        have := two_pow_digits T
        have h4 : ((2 : Int) ^ T.digits) = ((2 ^ T.digits : Nat) : Int) := by push_cast; rfl
        rw [h4, this]
        omega
      rw [if_neg h, if_pos h2, h3, static_cast_of_le T _ (by omega)]

theorem if_U_is_integral_true_mp_int (n a s : Nat) (tp : List Int) (i : Nat)
    (x : integer_addend) :
    adder.if_U_is_integral_true (n + 1) (buffer_type.mk a s (.mp_int tp)) i x
      = buffer_type.mk a s (.mp_int (tp.set i (tp.getD i 0 + x.value))) := by
  simp only [adder.if_U_is_integral_true]

/-- One instantiation of `if_U_is_integral(std::true_type, T*, ...)`: the addition in place
when the sum fits, the promotion and the next instantiation otherwise. -/
theorem if_U_is_integral_true_step (n a s : Nat) (T : uint_t) (tp : List Nat) (i : Nat)
    (x : integer_addend) (hall : ∀ t ∈ tp, t ≤ numeric_limits_max T) (hx : 0 ≤ x.value) :
    adder.if_U_is_integral_true (n + 1) (buffer_type.mk a s (.uint T tp)) i x =
      if ((tp.getD i 0 : Nat) : Int) + x.value ≤ (numeric_limits_max T : Nat) then
        buffer_type.mk a s (.uint T (tp.set i (tp.getD i 0 + x.value.toNat)))
      else adder.if_U_is_integral_true n (buffer_type.mk a s
        (if T = .uint64_t then .mp_int (tp.map Int.ofNat)
         else if T = .uint32_t then .uint .uint64_t tp
         else if T = .uint16_t then .uint .uint32_t tp
         else .uint .uint16_t tp)) i x := by
  have hle := getD_le_of_forall tp _ i hall
  simp only [adder.if_U_is_integral_true]
  rw [safe_radd_eq T _ x hle hx]
  by_cases hfit : ((tp.getD i 0 : Nat) : Int) + x.value ≤ (numeric_limits_max T : Nat)
  · rw [if_pos hfit, if_pos hfit]
    simp only [if_true]
  · rw [if_neg hfit, if_neg hfit]
    simp only [if_false, Bool.false_eq_true, buffer_type.set]
    rw [set_getD_self, promote_spec a s T tp hall]

theorem if_U_is_integral_true_uint (n : Nat) : ∀ (T : uint_t) (tp : List Nat) (a s i : Nat)
    (x : integer_addend), (∀ t ∈ tp, t ≤ numeric_limits_max T) → tp.length = s →
    0 ≤ x.value → 6 ≤ n + type_index (.uint T) →
    (adder.if_U_is_integral_true n (buffer_type.mk a s (.uint T tp)) i x).wf ∧
    (adder.if_U_is_integral_true n (buffer_type.mk a s (.uint T tp)) i x).size = s ∧
    (adder.if_U_is_integral_true n (buffer_type.mk a s (.uint T tp)) i x).alloc = a ∧
    (adder.if_U_is_integral_true n (buffer_type.mk a s (.uint T tp)) i x).values
      = (tp.map Int.ofNat).set i ((tp.getD i 0 : Nat) + x.value) ∧
    some (adder.if_U_is_integral_true n (buffer_type.mk a s (.uint T tp)) i x).type
      = first_in_range (.uint T) ((tp.getD i 0 : Nat) + x.value) := by
  induction n with
  | zero =>
    intro T tp a s i x _ _ _ hn
    cases T <;> simp [type_index] at hn
  | succ n ih =>
    intro T tp a s i x hall hlen hx hn
    have hle := getD_le_of_forall tp _ i hall
    have h0 : (0 : Int) ≤ (tp.getD i 0 : Nat) + x.value := by omega
    rw [first_in_range_uint T _ h0, if_U_is_integral_true_step n a s T tp i x hall hx]
    by_cases hfit : ((tp.getD i 0 : Nat) : Int) + x.value ≤ (numeric_limits_max T : Nat)
    · rw [if_pos hfit, if_pos hfit]
      refine ⟨⟨by simpa using hlen, forall_mem_set _ tp i _ hall (by omega)⟩, rfl, rfl, ?_, rfl⟩
      simp only [buffer_type.values, List.map_set, Int.ofNat_eq_coe]
      congr 1
      rw [Nat.cast_add, Int.toNat_of_nonneg hx]
    · rw [if_neg hfit, if_neg hfit]
      cases T
      · simp only [reduceCtorEq, if_false]
        exact ih .uint16_t tp a s i x
          (fun t ht => by have := hall t ht; rw [max_uint8] at this; rw [max_uint16]; omega)
          hlen hx (by simp only [type_index] at hn ⊢; omega)
      · simp only [reduceCtorEq, if_false, if_true]
        exact ih .uint32_t tp a s i x
          (fun t ht => by have := hall t ht; rw [max_uint16] at this; rw [max_uint32]; omega)
          hlen hx (by simp only [type_index] at hn ⊢; omega)
      · simp only [reduceCtorEq, if_false, if_true]
        exact ih .uint64_t tp a s i x
          (fun t ht => by have := hall t ht; rw [max_uint32] at this; rw [max_uint64]; omega)
          hlen hx (by simp only [type_index] at hn ⊢; omega)
      · simp only [if_true]
        obtain ⟨m, rfl⟩ : ∃ m, n = m + 1 := ⟨n - 1, by simp only [type_index] at hn; omega⟩
        rw [if_U_is_integral_true_mp_int]
        refine ⟨by simpa [buffer_type.wf] using hlen, rfl, rfl, ?_, rfl⟩
        simp only [buffer_type.values, getD_map_ofNat, Int.ofNat_eq_coe]

theorem getD_replicate_zero {α : Type} (n i : Nat) (z : α) :
    (List.replicate n z).getD i z = z := by
  rw [List.getD_eq_getElem?_getD, List.getElem?_replicate]
  split <;> rfl

theorem first_in_range_mp_int (v : Int) : first_in_range .mp_int v = some .mp_int := by
  simp [first_in_range, promotion_order, List.filter, type_index, List.find?, types.in_range]

theorem value_void (a s i : Nat) : (buffer_type.mk a s .void).value i = 0 := by
  simp only [buffer_type.value, buffer_type.values]
  exact getD_replicate_zero s i 0

/-- Characterisation of `adder` for an integer addend on a buffer of integer type. -/
theorem adder_integer_spec (b : buffer_type) (i : Nat) (x : integer_addend)
    (hwf : b.wf) (hd : b.type ≠ .double) (hx : 0 ≤ x.value) :
    (adder b i (.integer x)).wf ∧
    (adder b i (.integer x)).size = b.size ∧
    (adder b i (.integer x)).alloc = b.alloc ∧
    (adder b i (.integer x)).values = b.values.set i (b.value i + x.value) ∧
    some (adder b i (.integer x)).type
      = first_in_range (if b.type = .void then .uint .uint8_t else b.type)
          (b.value i + x.value) := by
  obtain ⟨a, s, p⟩ := b
  cases p with
  | void =>
    have h := if_U_is_integral_true_uint 5 .uint8_t (List.replicate s 0) a s i x
      (fun t ht => by rw [List.eq_of_mem_replicate ht]; exact Nat.zero_le _)
      (List.length_replicate s 0) hx (by decide)
    rw [getD_replicate_zero] at h
    simp only [adder, adder.operator_T, buffer_type.set, buffer_type.create, mp_at_c]
    simp only [buffer_type.type, pointer.type, if_true, value_void]
    simp only [buffer_type.values]
    simpa using h
  | uint T tp =>
    have h := if_U_is_integral_true_uint 5 T tp a s i x hwf.2 hwf.1 hx
      (by cases T <;> simp [type_index])
    simp only [adder, adder.operator_T]
    simp only [buffer_type.type, pointer.type, reduceCtorEq, if_false, value_uint]
    simp only [buffer_type.values]
    simpa using h
  | mp_int tp =>
    simp only [adder, adder.operator_T, if_U_is_integral_true_mp_int]
    simp only [buffer_type.type, pointer.type, reduceCtorEq, if_false, first_in_range_mp_int]
    simp only [buffer_type.wf, buffer_type.values, buffer_type.value, List.length_set,
      and_self, and_true] at hwf ⊢
    exact hwf
  | double tp => exact absurd rfl hd

/-- A buffer of integer type has `size` logical values. -/
theorem values_length (b : buffer_type) (hwf : b.wf) (hd : b.type ≠ .double) :
    b.values.length = b.size := by
  obtain ⟨a, s, p⟩ := b
  cases p with
  | void => simp [buffer_type.values]
  | uint T tp => simpa [buffer_type.values] using hwf.1
  | mp_int tp => simpa [buffer_type.values, buffer_type.wf] using hwf
  | double tp => exact absurd rfl hd

/-- Reading the cells after the logical value of cell `i` has been replaced by `v`. -/
theorem value_of_values_set (b c : buffer_type) (i j : Nat) (v : Int)
    (hwf : b.wf) (hd : b.type ≠ .double) (hi : i < b.size)
    (h : c.values = b.values.set i v) :
    c.value j = if j = i then v else b.value j := by
  simp only [buffer_type.value, h]
  exact getD_set_eq _ _ _ _ _ (by rw [values_length b hwf hd]; exact hi)

theorem first_in_range_ne_double (T : types) (v : Int) (W : types)
    (h : some W = first_in_range T v) : W ≠ .double ∧ W ≠ .void := by
  have hm : W ∈ promotion_order := by
    have := List.mem_of_find?_eq_some h.symm
    exact (List.mem_filter.mp this).1
  constructor <;> intro hW <;> subst hW <;> simp [promotion_order] at hm

theorem first_in_range_self (T : types) (v : Int) (hT : T ∈ promotion_order)
    (hv : T.in_range v = true) : first_in_range T v = some T := by
  simp only [promotion_order, List.mem_cons, List.mem_singleton, List.not_mem_nil,
    or_false] at hT
  rcases hT with h | h | h | h | h <;> subst h <;>
    simp [first_in_range, promotion_order, List.filter, type_index, List.find?] <;>
    simp [hv]

/-- Characterisation of `incrementor` on a buffer of integer type. -/
theorem incrementor_spec (b : buffer_type) (i : Nat) (hwf : b.wf) (hd : b.type ≠ .double) :
    (incrementor b i).wf ∧
    (incrementor b i).size = b.size ∧
    (incrementor b i).alloc = b.alloc ∧
    (incrementor b i).values = b.values.set i (b.value i + 1) ∧
    some (incrementor b i).type
      = first_in_range (if b.type = .void then .uint .uint8_t else b.type) (b.value i + 1) := by
  obtain ⟨a, s, p⟩ := b
  cases p with
  | void =>
    simp only [incrementor, buffer_type.set, buffer_type.create, mp_at_c,
      pointer.pre_increment, getD_replicate_zero]
    simp only [buffer_type.type, pointer.type, if_true, value_void]
    refine ⟨⟨by simp, forall_mem_set _ _ _ _ ?_ ?_⟩, trivial, trivial, ?_, ?_⟩
    · intro t ht; rw [List.eq_of_mem_replicate ht]; exact Nat.zero_le _
    · decide
    · simp [buffer_type.values, static_cast, uint_t.digits]
    · decide
  | uint T tp =>
    have hle := getD_le_of_forall tp _ i hwf.2
    have h0 : (0 : Int) ≤ ((tp.getD i 0 : Nat) : Int) + 1 := by omega
    rw [incrementor_uint a s T tp i hwf.2]
    simp only [buffer_type.type, pointer.type, reduceCtorEq, if_false, value_uint,
      Int.ofNat_eq_coe]
    rw [first_in_range_uint T _ h0]
    by_cases hlt : tp.getD i 0 < numeric_limits_max T
    · have hfit : ((tp.getD i 0 : Nat) : Int) + 1 ≤ (numeric_limits_max T : Nat) := by omega
      rw [if_pos hlt, if_pos hfit]
      refine ⟨⟨by simpa using hwf.1, forall_mem_set _ tp i _ hwf.2 (by omega)⟩, rfl, rfl, ?_, rfl⟩
      simp [buffer_type.values, List.map_set]
    · have hfit : ¬ ((tp.getD i 0 : Nat) : Int) + 1 ≤ (numeric_limits_max T : Nat) := by omega
      have hmax : tp.getD i 0 = numeric_limits_max T := by omega
      rw [if_neg hlt, if_neg hfit]
      cases T
      · simp only [reduceCtorEq, if_false]
        refine ⟨⟨by simpa using hwf.1, forall_mem_set _ tp i _ ?_ ?_⟩, trivial, trivial, ?_, ?_⟩
        · intro t ht; have := hwf.2 t ht; rw [max_uint8] at this; rw [max_uint16]; omega
        · rw [hmax]; decide
        · simp [buffer_type.values, List.map_set]
        · rw [hmax]; decide
      · simp only [reduceCtorEq, if_false, if_true]
        refine ⟨⟨by simpa using hwf.1, forall_mem_set _ tp i _ ?_ ?_⟩, trivial, trivial, ?_, ?_⟩
        · intro t ht; have := hwf.2 t ht; rw [max_uint16] at this; rw [max_uint32]; omega
        · rw [hmax]; decide
        · simp [buffer_type.values, List.map_set]
        · rw [hmax]; decide
      · simp only [reduceCtorEq, if_false, if_true]
        refine ⟨⟨by simpa using hwf.1, forall_mem_set _ tp i _ ?_ ?_⟩, trivial, trivial, ?_, ?_⟩
        · intro t ht; have := hwf.2 t ht; rw [max_uint32] at this; rw [max_uint64]; omega
        · rw [hmax]; decide
        · simp [buffer_type.values, List.map_set]
        · rw [hmax]; decide
      · simp only [if_true]
        refine ⟨by simpa [buffer_type.wf] using hwf.1, trivial, trivial, ?_, trivial⟩
        simp [buffer_type.values]
  | mp_int tp =>
    simp only [incrementor]
    simp only [buffer_type.type, pointer.type, reduceCtorEq, if_false, first_in_range_mp_int]
    simp only [buffer_type.wf, buffer_type.values, buffer_type.value, List.length_set,
      and_self, and_true] at hwf ⊢
    exact hwf
  | double tp => exact absurd rfl hd

/-! ## Increment and add -/

theorem reset_wf (b : buffer_type) (N : Nat) : (reset b N).wf := trivial

theorem reset_value (b : buffer_type) (N j : Nat) : (reset b N).value j = 0 :=
  value_void b.alloc N j

/-- Increments of cells below `size` keep the invariant and count into the cells. -/
theorem foldl_incrementor (is : List Nat) : ∀ (b : buffer_type), b.wf → b.type ≠ .double →
    (∀ i ∈ is, i < b.size) →
    (is.foldl incrementor b).wf ∧ (is.foldl incrementor b).type ≠ .double ∧
    (is.foldl incrementor b).size = b.size ∧
    ∀ j, (is.foldl incrementor b).value j = b.value j + (is.count j : Nat) := by
  induction is with
  | nil => intro b hwf hd _; exact ⟨hwf, hd, rfl, fun j => by simp⟩
  | cons i is ih =>
    intro b hwf hd hi
    obtain ⟨h1, h2, _, h4, h5⟩ := incrementor_spec b i hwf hd
    have hd1 : (incrementor b i).type ≠ .double := (first_in_range_ne_double _ _ _ h5).1
    obtain ⟨k1, k2, k3, k4⟩ := ih (incrementor b i) h1 hd1
      (fun k hk => by rw [h2]; exact hi k (List.mem_cons_of_mem i hk))
    refine ⟨k1, k2, by rw [List.foldl_cons, k3, h2], fun j => ?_⟩
    rw [List.foldl_cons, k4 j,
      value_of_values_set b _ i j _ hwf hd (hi i (List.mem_cons_self i is)) h4,
      List.count_cons]
    by_cases hji : j = i
    · subst hji; simp; omega
    · have : ¬ (i == j) = true := by simpa using fun h => hji h.symm
      simp [hji, this]

/-- C1: starting from `reset(N)`, after any finite sequence of increments at indices below
`N`, in any order, the logical integer value of every cell equals the number of increments
that targeted the cell, and the storage is in one of the integer representations. -/
theorem C1_increments_are_counted (b : buffer_type) (N : Nat) (is : List Nat)
    (his : ∀ i ∈ is, i < N) (j : Nat) :
    (is.foldl incrementor (reset b N)).value j = (is.count j : Nat) ∧
    (is.foldl incrementor (reset b N)).size = N ∧
    (is.foldl incrementor (reset b N)).type ≠ .double := by
  obtain ⟨_, h2, h3, h4⟩ := foldl_incrementor is (reset b N) (reset_wf b N)
    (by simp [reset, buffer_type.set, buffer_type.create, buffer_type.type, pointer.type]) his
  refine ⟨?_, h3, h2⟩
  rw [h4 j, reset_value]; simp

theorem C1_increments_are_counted_witness :
    ([0, 2, 0, 1, 0].foldl incrementor (reset (init 0) 3)).value 0 = 3 ∧
    ([0, 2, 0, 1, 0].foldl incrementor (reset (init 0) 3)).size = 3 ∧
    ([0, 2, 0, 1, 0].foldl incrementor (reset (init 0) 3)).type ≠ .double :=
  C1_increments_are_counted (init 0) 3 [0, 2, 0, 1, 0] (by decide) 0

/-- C2: on a storage of integer type (Empty, U8, U16, U32, U64 or BigInt), adding a
non-negative integer `x` (fixed-width or multiprecision) at an index `i < N` leaves cell `i`
with exactly its old value plus `x`, and leaves `N` and every other cell unchanged. -/
theorem C2_add_is_exact (b : buffer_type) (i : Nat) (x : integer_addend)
    (hwf : b.wf) (hd : b.type ≠ .double) (hi : i < b.size) (hx : 0 ≤ x.value) :
    (adder b i (.integer x)).value i = b.value i + x.value ∧
    (adder b i (.integer x)).size = b.size ∧
    ∀ j, j ≠ i → (adder b i (.integer x)).value j = b.value j := by
  obtain ⟨_, h2, _, h4, _⟩ := adder_integer_spec b i x hwf hd hx
  refine ⟨?_, h2, fun j hj => ?_⟩
  · rw [value_of_values_set b _ i i _ hwf hd hi h4, if_pos rfl]
  · rw [value_of_values_set b _ i j _ hwf hd hi h4, if_neg hj]

theorem C2_add_is_exact_witness :
    (adder (buffer_type.mk 0 2 (.uint .uint8_t [250, 7])) 0 (.integer (.mp_int 70000))).value 0
      = 70250 ∧
    (adder (buffer_type.mk 0 2 (.uint .uint8_t [250, 7])) 0 (.integer (.mp_int 70000))).size
      = 2 ∧
    ∀ j, j ≠ 0 →
      (adder (buffer_type.mk 0 2 (.uint .uint8_t [250, 7])) 0 (.integer (.mp_int 70000))).value j
        = (buffer_type.mk 0 2 (.uint .uint8_t [250, 7])).value j :=
  C2_add_is_exact (buffer_type.mk 0 2 (.uint .uint8_t [250, 7])) 0 (.mp_int 70000)
    (by simp [buffer_type.wf, numeric_limits_max, uint_t.digits]) (by decide) (by decide)
    (by decide)

theorem type_eq_uint (b : buffer_type) (T : uint_t) (h : b.type = .uint T) :
    ∃ tp, b.ptr = .uint T tp := by
  obtain ⟨a, s, p⟩ := b
  cases p <;> simp [buffer_type.type, pointer.type] at h
  subst h
  exact ⟨_, rfl⟩

theorem value_nonneg_uint (b : buffer_type) (T : uint_t) (h : b.type = .uint T) (i : Nat)
    (hwf : b.wf) : 0 ≤ b.value i ∧ b.value i ≤ (numeric_limits_max T : Nat) := by
  obtain ⟨a, s, p⟩ := b
  obtain ⟨tp, rfl⟩ := type_eq_uint _ T h
  have := getD_le_of_forall tp _ i hwf.2
  rw [value_uint]
  simp only [Int.ofNat_eq_coe]
  omega

theorem first_in_range_index (T : types) (v : Int) (W : types)
    (h : some W = first_in_range T v) : type_index T ≤ type_index W := by
  have := List.mem_of_find?_eq_some h.symm
  simpa using (List.mem_filter.mp this).2

/-- C3: on a storage of type `T` in U8, U16, U32, U64, adding a non-negative integer `x`
keeps the type iff `max(T) - cells[i] >= x`; otherwise the new type is the first type after
`T` in the order U8, U16, U32, U64, BigInt whose range contains `cells[i] + x`. On an
untouched storage the same rule applies starting at U8. -/
theorem C3_add_promotes_to_first_fit (b : buffer_type) (i : Nat) (x : integer_addend)
    (hwf : b.wf) (hi : i < b.size) (hx : 0 ≤ x.value) :
    (∀ T, b.type = .uint T →
      ((adder b i (.integer x)).type = .uint T
        ↔ x.value ≤ (numeric_limits_max T : Nat) - b.value i) ∧
      (¬ x.value ≤ (numeric_limits_max T : Nat) - b.value i →
        first_in_range (mp_at_c (type_index (.uint T) + 1)) (b.value i + x.value)
          = some (adder b i (.integer x)).type)) ∧
    (b.type = .void →
      first_in_range (.uint .uint8_t) x.value = some (adder b i (.integer x)).type ∧
      (adder b i (.integer x)).value i = x.value) := by
  constructor
  · intro T hT
    have hd : b.type ≠ .double := by rw [hT]; exact fun h => by cases h
    obtain ⟨_, _, _, _, h5⟩ := adder_integer_spec b i x hwf hd hx
    have hv := value_nonneg_uint b T hT i hwf
    rw [hT] at h5
    simp only [reduceCtorEq, if_false] at h5
    rw [first_in_range_uint T _ (by omega)] at h5
    by_cases hfit : b.value i + x.value ≤ (numeric_limits_max T : Nat)
    · rw [if_pos hfit] at h5
      have h6 : (adder b i (.integer x)).type = .uint T := Option.some.inj h5
      exact ⟨⟨fun _ => by omega, fun _ => h6⟩, fun h => absurd (by omega) h⟩
    · rw [if_neg hfit] at h5
      have hnext : first_in_range (mp_at_c (type_index (.uint T) + 1)) (b.value i + x.value)
          = some (adder b i (.integer x)).type := by
        cases T
        · simpa using h5.symm
        · simpa using h5.symm
        · simpa using h5.symm
        · simp only [if_true] at h5
          rw [Option.some.inj h5]
          exact first_in_range_mp_int _
      have hidx := first_in_range_index _ _ _ hnext.symm
      have hne : (adder b i (.integer x)).type ≠ .uint T := by
        intro h
        rw [h] at hidx
        cases T <;> simp [type_index, mp_at_c] at hidx
      exact ⟨⟨fun h => absurd h hne, fun h => absurd (by omega) hfit⟩, fun _ => hnext⟩
  · intro hT
    have hd : b.type ≠ .double := by rw [hT]; exact fun h => by cases h
    obtain ⟨_, _, _, h4, h5⟩ := adder_integer_spec b i x hwf hd hx
    have hv : b.value i = 0 := by
      obtain ⟨a, s, p⟩ := b
      cases p <;> simp [buffer_type.type, pointer.type] at hT
      exact value_void a s i
    rw [hT, if_pos rfl, hv, zero_add] at h5
    refine ⟨h5.symm, ?_⟩
    rw [value_of_values_set b _ i i _ hwf hd hi h4, if_pos rfl, hv, zero_add]

theorem C3_add_promotes_to_first_fit_witness :
    (adder (reset (init 0) 1) 0 (.integer (.integral (2 ^ 64 - 1)))).type = .uint .uint64_t ∧
    (adder (adder (reset (init 0) 1) 0 (.integer (.integral (2 ^ 64 - 1)))) 0
      (.integer (.integral 1))).type = .mp_int ∧
    (adder (adder (reset (init 0) 1) 0 (.integer (.integral (2 ^ 64 - 1)))) 0
      (.integer (.integral 1))).value 0 = 2 ^ 64 :=
  have h1 := (C3_add_promotes_to_first_fit (reset (init 0) 1) 0 (.integral (2 ^ 64 - 1))
    (by decide) (by decide) (by decide)).2 (by decide)
  have h2 := ((C3_add_promotes_to_first_fit
    (adder (reset (init 0) 1) 0 (.integer (.integral (2 ^ 64 - 1)))) 0 (.integral 1)
    (by decide) (by decide) (by decide)).1 .uint64_t (by decide)).2 (by decide)
  ⟨Option.some.inj (h1.1.symm.trans (by decide)), Option.some.inj (h2.symm.trans (by decide)),
    by decide⟩

/-- C4: on a storage of type `T` in U8, U16, U32, U64 whose cell `i` holds `max(T)`,
`increment(i)` changes the type to the next type of the order U8, U16, U32, U64, BigInt
(U64 goes to BigInt), sets cell `i` to `max(T) + 1` and preserves `N` and the value of
every other cell. -/
theorem C4_increment_at_max_promotes (b : buffer_type) (T : uint_t) (i : Nat)
    (hwf : b.wf) (hT : b.type = .uint T) (hi : i < b.size)
    (hmax : b.value i = (numeric_limits_max T : Nat)) :
    (incrementor b i).type = mp_at_c (type_index (.uint T) + 1) ∧
    (T = .uint64_t → (incrementor b i).type = .mp_int) ∧
    (incrementor b i).value i = (numeric_limits_max T : Nat) + 1 ∧
    (incrementor b i).size = b.size ∧
    ∀ j, j ≠ i → (incrementor b i).value j = b.value j := by
  have hd : b.type ≠ .double := by rw [hT]; exact fun h => by cases h
  obtain ⟨_, h2, _, h4, h5⟩ := incrementor_spec b i hwf hd
  rw [hT, hmax] at h5
  simp only [reduceCtorEq, if_false] at h5
  have ht : (incrementor b i).type = mp_at_c (type_index (.uint T) + 1) := by
    cases T <;> exact Option.some.inj (h5.trans (by decide))
  refine ⟨ht, fun h => by rw [ht, h]; rfl, ?_, h2, fun j hj => ?_⟩
  · rw [value_of_values_set b _ i i _ hwf hd hi h4, if_pos rfl, hmax]
  · rw [value_of_values_set b _ i j _ hwf hd hi h4, if_neg hj]

set_option maxRecDepth 100000 in
theorem C4_increment_at_max_promotes_witness :
    ((List.replicate 255 0).foldl incrementor (reset (init 0) 1)).type = .uint .uint8_t ∧
    ((List.replicate 256 0).foldl incrementor (reset (init 0) 1)).type = .uint .uint16_t ∧
    ((List.replicate 256 0).foldl incrementor (reset (init 0) 1)).value 0 = 256 :=
  have h := C4_increment_at_max_promotes
    ((List.replicate 255 0).foldl incrementor (reset (init 0) 1)) .uint8_t 0
    (by decide) (by decide) (by decide) (by decide)
  ⟨by decide, h.1, h.2.2.1⟩

/-- C5: incrementing a cell whose value is strictly below `max(T)` on a storage of type `T`
in U8, U16, U32, U64, and incrementing any cell of a BigInt or F64 storage, leaves the type
unchanged. -/
theorem C5_no_spurious_promotion (b : buffer_type) (i : Nat)
    (h : (∃ T, b.type = .uint T ∧ b.value i < (numeric_limits_max T : Nat)) ∨
      b.type = .mp_int ∨ b.type = .double) :
    (incrementor b i).type = b.type := by
  obtain ⟨a, s, p⟩ := b
  cases p with
  | void => rcases h with ⟨T, h, _⟩ | h | h <;> cases h
  | uint U tp =>
    rcases h with ⟨T, hT, hlt⟩ | h | h
    · have hTU : U = T := by simpa [buffer_type.type, pointer.type] using hT
      subst hTU
      rw [value_uint] at hlt
      have hlt2 : tp.getD i 0 < numeric_limits_max U := by
        simp only [Int.ofNat_eq_coe] at hlt; omega
      simp only [incrementor, safe_increment, hlt2, if_true, buffer_type.type, pointer.type]
    · cases h
    · cases h
  | mp_int tp => rfl
  | double tp => rfl

theorem C5_no_spurious_promotion_witness :
    (incrementor (buffer_type.mk 0 2 (.uint .uint16_t [65534, 65535])) 0).type
      = (buffer_type.mk 0 2 (.uint .uint16_t [65534, 65535])).type :=
  C5_no_spurious_promotion (buffer_type.mk 0 2 (.uint .uint16_t [65534, 65535])) 0
    (Or.inl ⟨.uint16_t, by decide, by decide⟩)

/-- C6: on an untouched storage of length `N`, `increment(i)` with `i < N` yields a U8
storage of length `N` in which cell `i` is 1 and every other cell is 0. -/
theorem C6_first_increment (b : buffer_type) (i : Nat) (hT : b.type = .void)
    (hi : i < b.size) :
    (incrementor b i).type = .uint .uint8_t ∧
    (incrementor b i).size = b.size ∧
    (incrementor b i).values = (List.replicate b.size 0).set i 1 ∧
    (incrementor b i).value i = 1 ∧
    ∀ j, j ≠ i → (incrementor b i).value j = 0 := by
  have hwf : b.wf := by
    obtain ⟨a, s, p⟩ := b
    cases p <;> trivial
  have hd : b.type ≠ .double := by rw [hT]; exact fun h => by cases h
  have hv : ∀ j, b.value j = 0 := by
    intro j
    obtain ⟨a, s, p⟩ := b
    cases p <;> first | exact value_void a s j | cases hT
  have hvals : b.values = List.replicate b.size 0 := by
    obtain ⟨a, s, p⟩ := b
    cases p <;> first | rfl | cases hT
  obtain ⟨_, h2, _, h4, h5⟩ := incrementor_spec b i hwf hd
  rw [hT, if_pos rfl, hv i] at h5
  rw [hv i, hvals, zero_add] at h4
  refine ⟨Option.some.inj (h5.trans (by decide)), h2, h4, ?_, fun j hj => ?_⟩
  · rw [buffer_type.value, h4, getD_set_eq _ _ _ _ _ (by simpa using hi), if_pos rfl]
  · rw [buffer_type.value, h4, getD_set_eq _ _ _ _ _ (by simpa using hi), if_neg hj,
      getD_replicate_zero]

theorem C6_first_increment_witness :
    (incrementor (reset (init 0) 3) 0).type = .uint .uint8_t ∧
    (incrementor (reset (init 0) 3) 0).size = 3 ∧
    (incrementor (reset (init 0) 3) 0).values = [1, 0, 0] ∧
    (incrementor (reset (init 0) 3) 0).value 0 = 1 ∧
    ∀ j, j ≠ 0 → (incrementor (reset (init 0) 3) 0).value j = 0 :=
  C6_first_increment (reset (init 0) 3) 0 (by decide) (by decide)

/-! ## The type never regresses -/

theorem type_index_le (T : types) : type_index T ≤ 6 := by
  cases T with
  | uint U => cases U <;> decide
  | _ => decide

theorem pre_increment_type (p : pointer) (i : Nat) : (p.pre_increment i).type = p.type := by
  cases p <;> rfl

theorem create_next_type (b : buffer_type) (T : uint_t) (tp : List Nat) :
    type_index (b.create (mp_at_c (type_index (.uint T) + 1)) (.uint T tp)).type
      = type_index (.uint T) + 1 := by
  cases T <;> rfl

theorem create_double_type (b : buffer_type) (p : pointer) :
    (b.create .double p).type = .double := by
  cases p <;> rfl

theorem incrementor_mono (b : buffer_type) (i : Nat) :
    type_index b.type ≤ type_index (incrementor b i).type := by
  obtain ⟨a, s, p⟩ := b
  cases p with
  | void => exact Nat.zero_le _
  | uint T tp =>
    simp only [incrementor, buffer_type.set]
    split
    · exact Nat.le_refl _
    · simp only [buffer_type.type, pre_increment_type, create_next_type]
      exact Nat.le_succ _
  | mp_int tp => exact Nat.le_refl _
  | double tp => exact Nat.le_refl _

theorem if_U_is_integral_true_mono (n : Nat) : ∀ (b : buffer_type) (i : Nat)
    (x : integer_addend),
    type_index b.type ≤ type_index (adder.if_U_is_integral_true n b i x).type := by
  induction n with
  | zero => intro b i x; exact Nat.le_refl _
  | succ n ih =>
    intro b i x
    obtain ⟨a, s, p⟩ := b
    cases p with
    | void => exact Nat.le_refl _
    | uint T tp =>
      simp only [adder.if_U_is_integral_true, buffer_type.set]
      split
      · exact Nat.le_refl _
      · refine Nat.le_trans ?_ (ih _ i x)
        simp only [buffer_type.type, create_next_type]
        exact Nat.le_succ _
    | mp_int tp => exact Nat.le_refl _
    | double tp => exact Nat.le_refl _

theorem operator_double_type (b : buffer_type) (i : Nat) (x : addend) :
    (adder.operator_double b i x).type = b.type := by
  obtain ⟨a, s, p⟩ := b
  cases p <;> rfl

theorem if_U_is_integral_false_type (b : buffer_type) (i : Nat) (x : addend) :
    (adder.if_U_is_integral_false b i x).type = .double := by
  show (adder.operator_double (b.set (b.create .double b.ptr)) i x).type = .double
  rw [operator_double_type]
  exact create_double_type b b.ptr

theorem operator_T_mono (b : buffer_type) (i : Nat) (x : addend) :
    type_index b.type ≤ type_index (adder.operator_T b i x).type := by
  obtain ⟨a, s, p⟩ := b
  cases x with
  | integer u =>
    cases p with
    | double tp => exact Nat.le_refl _
    | void => exact if_U_is_integral_true_mono 5 _ i u
    | uint T tp => exact if_U_is_integral_true_mono 5 _ i u
    | mp_int tp => exact if_U_is_integral_true_mono 5 _ i u
  | floating f =>
    cases p with
    | double tp => exact Nat.le_refl _
    | void => exact Nat.zero_le _
    | uint T tp =>
      show _ ≤ type_index (adder.if_U_is_integral_false _ i (.floating f)).type
      rw [if_U_is_integral_false_type]; exact type_index_le _
    | mp_int tp =>
      show _ ≤ type_index (adder.if_U_is_integral_false _ i (.floating f)).type
      rw [if_U_is_integral_false_type]; exact type_index_le _

theorem adder_mono (b : buffer_type) (i : Nat) (x : addend) :
    type_index b.type ≤ type_index (adder b i x).type := by
  obtain ⟨a, s, p⟩ := b
  cases p with
  | void => exact Nat.zero_le _
  | uint T tp => exact operator_T_mono _ i x
  | mp_int tp => exact operator_T_mono _ i x
  | double tp => exact operator_T_mono _ i x

theorem setter_mono (b : buffer_type) (i : Nat) (x : addend) :
    type_index b.type ≤ type_index (setter b i x).type := by
  obtain ⟨a, s, p⟩ := b
  cases p with
  | void => exact adder_mono _ i x
  | uint T tp => exact adder_mono (buffer_type.mk a s (.uint T (tp.set i 0))) i x
  | mp_int tp => exact adder_mono (buffer_type.mk a s (.mp_int (tp.set i 0))) i x
  | double tp => exact adder_mono (buffer_type.mk a s (.double (tp.set i 0))) i x

theorem buffer_adder_mono (o b : buffer_type) :
    type_index b.type ≤ type_index (buffer_adder o b).type := by
  unfold buffer_adder
  generalize List.range b.size = l
  induction l generalizing b with
  | nil => exact Nat.le_refl _
  | cons i l ih =>
    rw [List.foldl_cons]
    refine Nat.le_trans ?_ (ih _)
    cases o.ptr.addend_at i with
    | none => exact Nat.le_refl _
    | some x => exact adder_mono b i x

theorem multiplier_mono (b : buffer_type) (x : Float) :
    type_index b.type ≤ type_index (multiplier b x).type := by
  obtain ⟨a, s, p⟩ := b
  cases p with
  | void => exact Nat.le_refl _
  | uint T tp => exact type_index_le _
  | mp_int tp => exact type_index_le _
  | double tp => exact Nat.le_refl _

theorem run_mono (b : buffer_type) (op : operation) :
    type_index b.type ≤ type_index (op.run b).type := by
  cases op with
  | increment i => exact incrementor_mono b i
  | add i x => exact adder_mono b i x
  | assign i x => exact setter_mono b i x
  | bulk_add o => exact buffer_adder_mono o b
  | scale x => exact multiplier_mono b x

/-- C8: each of increment, add, set, bulk add and scalar multiply leaves the type at the
same or a later position of `types` (Empty, U8, U16, U32, U64, BigInt, F64), so that along
any sequence of these operations the type never regresses. -/
theorem C8_type_never_regresses (b : buffer_type) :
    (∀ op : operation, type_index b.type ≤ type_index (op.run b).type) ∧
    (∀ ops : List operation,
      type_index b.type ≤ type_index (ops.foldl operation.run b).type) := by
  refine ⟨run_mono b, fun ops => ?_⟩
  induction ops generalizing b with
  | nil => exact Nat.le_refl _
  | cons op ops ih => exact Nat.le_trans (run_mono b op) (ih (op.run b))

/-! ## Cell assignment -/

theorem start_type_mem (T : types) (hv : T ≠ .void) (hd : T ≠ .double) :
    T ∈ promotion_order := by
  cases T with
  | void => exact absurd rfl hv
  | double => exact absurd rfl hd
  | mp_int => simp [promotion_order]
  | uint U => cases U <;> simp [promotion_order]

/-- The statement `tp[i] = 0` of `setter` on an allocated buffer of integer type, followed
by `adder`, written in terms of the logical values. -/
theorem setter_integer_spec (b : buffer_type) (i : Nat) (x : integer_addend)
    (hwf : b.wf) (hd : b.type ≠ .double) (hi : i < b.size) (hx : 0 ≤ x.value) :
    (setter b i (.integer x)).wf ∧
    (setter b i (.integer x)).size = b.size ∧
    (setter b i (.integer x)).alloc = b.alloc ∧
    (setter b i (.integer x)).values = b.values.set i x.value ∧
    some (setter b i (.integer x)).type
      = first_in_range (if b.type = .void then .uint .uint8_t else b.type) x.value := by
  obtain ⟨a, s, p⟩ := b
  cases p with
  | void =>
    have h := adder_integer_spec (buffer_type.mk a s .void) i x hwf hd hx
    rw [value_void, zero_add] at h
    exact h
  | uint T tp =>
    have hwf0 : (buffer_type.mk a s (.uint T (tp.set i 0))).wf :=
      ⟨by simpa using hwf.1, forall_mem_set _ tp i 0 hwf.2 (Nat.zero_le _)⟩
    have h := adder_integer_spec (buffer_type.mk a s (.uint T (tp.set i 0))) i x hwf0
      (fun h => by cases h) hx
    have hv0 : (buffer_type.mk a s (.uint T (tp.set i 0))).value i = 0 := by
      rw [value_uint, getD_set_eq _ _ _ _ _ (by rw [hwf.1]; exact hi), if_pos rfl]; rfl
    rw [hv0, zero_add] at h
    obtain ⟨h1, h2, h3, h4, h5⟩ := h
    refine ⟨h1, h2, h3, ?_, h5⟩
    rw [show setter (buffer_type.mk a s (.uint T tp)) i (.integer x)
      = adder (buffer_type.mk a s (.uint T (tp.set i 0))) i (.integer x) from rfl, h4]
    simp [buffer_type.values, List.map_set, List.set_set]
  | mp_int tp =>
    have hwf0 : (buffer_type.mk a s (.mp_int (tp.set i 0))).wf := by
      simpa [buffer_type.wf] using hwf
    have h := adder_integer_spec (buffer_type.mk a s (.mp_int (tp.set i 0))) i x hwf0
      (fun h => by cases h) hx
    have hlen : tp.length = s := hwf
    have hv0 : (buffer_type.mk a s (.mp_int (tp.set i 0))).value i = 0 := by
      simp only [buffer_type.value, buffer_type.values]
      rw [getD_set_eq _ _ _ _ _ (by rw [hlen]; exact hi), if_pos rfl]
    rw [hv0, zero_add] at h
    obtain ⟨h1, h2, h3, h4, h5⟩ := h
    refine ⟨h1, h2, h3, ?_, h5⟩
    rw [show setter (buffer_type.mk a s (.mp_int tp)) i (.integer x)
      = adder (buffer_type.mk a s (.mp_int (tp.set i 0))) i (.integer x) from rfl, h4]
    simp [buffer_type.values, List.set_set]
  | double tp => exact absurd rfl hd

/-- C9: on a storage of integer type (Empty, U8, U16, U32, U64, BigInt), `set(i, x)` with
`i < N` and a non-negative integer `x` leaves cell `i` with exactly the value `x` and every
other cell unchanged; the new type is the first type at or after the old one (starting at
U8 on an untouched storage) whose range contains `x`, so that set never narrows the
representation. -/
theorem C9_set_is_zero_then_add (b : buffer_type) (i : Nat) (x : integer_addend)
    (hwf : b.wf) (hd : b.type ≠ .double) (hi : i < b.size) (hx : 0 ≤ x.value) :
    (setter b i (.integer x)).value i = x.value ∧
    (∀ j, j ≠ i → (setter b i (.integer x)).value j = b.value j) ∧
    (setter b i (.integer x)).size = b.size ∧
    first_in_range (if b.type = .void then .uint .uint8_t else b.type) x.value
      = some (setter b i (.integer x)).type ∧
    type_index b.type ≤ type_index (setter b i (.integer x)).type := by
  obtain ⟨_, h2, _, h4, h5⟩ := setter_integer_spec b i x hwf hd hi hx
  refine ⟨?_, fun j hj => ?_, h2, h5.symm, setter_mono b i _⟩
  · rw [value_of_values_set b _ i i _ hwf hd hi h4, if_pos rfl]
  · rw [value_of_values_set b _ i j _ hwf hd hi h4, if_neg hj]

theorem C9_set_is_zero_then_add_witness :
    (setter (buffer_type.mk 0 2 (.uint .uint16_t [40000, 7])) 0 (.integer (.integral 3))).value 0
      = 3 ∧
    (∀ j, j ≠ 0 →
      (setter (buffer_type.mk 0 2 (.uint .uint16_t [40000, 7])) 0 (.integer (.integral 3))).value j
        = (buffer_type.mk 0 2 (.uint .uint16_t [40000, 7])).value j) ∧
    (setter (buffer_type.mk 0 2 (.uint .uint16_t [40000, 7])) 0 (.integer (.integral 3))).size
      = 2 ∧
    first_in_range (.uint .uint16_t) 3
      = some (setter (buffer_type.mk 0 2 (.uint .uint16_t [40000, 7])) 0
          (.integer (.integral 3))).type ∧
    2 ≤ type_index (setter (buffer_type.mk 0 2 (.uint .uint16_t [40000, 7])) 0
          (.integer (.integral 3))).type :=
  C9_set_is_zero_then_add (buffer_type.mk 0 2 (.uint .uint16_t [40000, 7])) 0 (.integral 3)
    (by decide) (by decide) (by decide) (by decide)

/-! ## The representation is the smallest required -/

theorem foldr_max_set (l : List Int) : ∀ (i : Nat) (v : Int), i < l.length →
    l.getD i 0 ≤ v → (l.set i v).foldr max 0 = max (l.foldr max 0) v := by
  induction l with
  | nil => intro i v hi; simp at hi
  | cons a l ih =>
    intro i v hi hv
    cases i with
    | zero =>
      simp only [List.set_cons_zero, List.foldr_cons, List.getD_cons_zero] at hv ⊢
      omega
    | succ i =>
      simp only [List.set_cons_succ, List.foldr_cons, List.getD_cons_succ,
        List.length_cons] at hi hv ⊢
      rw [ih i v (by omega) hv]
      omega

theorem foldr_max_nonneg (l : List Int) : 0 ≤ l.foldr max 0 := by
  induction l with
  | nil => exact Int.le_refl 0
  | cons a l ih => simp only [List.foldr_cons]; omega

theorem first_in_range_uint8 (v : Int) :
    first_in_range (.uint .uint8_t) v = promotion_order.find? (fun W => W.in_range v) := rfl

theorem first_in_range_uint64_eq (v : Int) (h0 : 0 ≤ v) :
    first_in_range (.uint .uint64_t) v =
      if v ≤ 18446744073709551615 then some (.uint .uint64_t) else some .mp_int := by
  rw [first_in_range_uint _ _ h0, max_uint64]; rfl

theorem first_in_range_uint32_eq (v : Int) (h0 : 0 ≤ v) :
    first_in_range (.uint .uint32_t) v =
      if v ≤ 4294967295 then some (.uint .uint32_t)
      else if v ≤ 18446744073709551615 then some (.uint .uint64_t) else some .mp_int := by
  rw [first_in_range_uint _ _ h0, max_uint32, ← first_in_range_uint64_eq v h0]; rfl

theorem first_in_range_uint16_eq (v : Int) (h0 : 0 ≤ v) :
    first_in_range (.uint .uint16_t) v =
      if v ≤ 65535 then some (.uint .uint16_t)
      else if v ≤ 4294967295 then some (.uint .uint32_t)
      else if v ≤ 18446744073709551615 then some (.uint .uint64_t) else some .mp_int := by
  rw [first_in_range_uint _ _ h0, max_uint16, ← first_in_range_uint32_eq v h0]; rfl

theorem first_in_range_uint8_eq (v : Int) (h0 : 0 ≤ v) :
    first_in_range (.uint .uint8_t) v =
      if v ≤ 255 then some (.uint .uint8_t)
      else if v ≤ 65535 then some (.uint .uint16_t)
      else if v ≤ 4294967295 then some (.uint .uint32_t)
      else if v ≤ 18446744073709551615 then some (.uint .uint64_t) else some .mp_int := by
  rw [first_in_range_uint _ _ h0, max_uint8, ← first_in_range_uint16_eq v h0]; rfl

/-- The promotion rule composes: starting from the representation required by `M`, the
first representation that holds `v` is the one required by the larger of `M` and `v`. -/
theorem first_in_range_max (M v : Int) (T : types) (hM : 0 ≤ M) (hv : 0 ≤ v)
    (hT : first_in_range (.uint .uint8_t) M = some T) :
    first_in_range T v = first_in_range (.uint .uint8_t) (max M v) := by
  have hmax : 0 ≤ max M v := by omega
  rw [first_in_range_uint8_eq M hM] at hT
  rw [first_in_range_uint8_eq _ hmax]
  split_ifs at hT <;> cases hT
  · rw [first_in_range_uint8_eq v hv]
    split_ifs <;> first | rfl | omega
  · rw [first_in_range_uint16_eq v hv]
    split_ifs <;> first | rfl | omega
  · rw [first_in_range_uint32_eq v hv]
    split_ifs <;> first | rfl | omega
  · rw [first_in_range_uint64_eq v hv]
    split_ifs <;> first | rfl | omega
  · rw [first_in_range_mp_int]
    split_ifs <;> first | rfl | omega

theorem getD_nonneg (l : List Int) (i : Nat) (h : ∀ u ∈ l, 0 ≤ u) : 0 ≤ l.getD i 0 := by
  rw [List.getD_eq_getElem?_getD]
  cases hi : l[i]? with
  | none => exact Int.le_refl 0
  | some t => exact h t (List.getElem?_mem hi)

/-- A cell update that adds `d ≥ 0` to cell `i` and promotes by the rule of `adder` keeps
the type equal to the first representation that holds the largest cell value. -/
theorem fill_invariant (b c : buffer_type) (i : Nat) (d : Int)
    (hwf : b.wf) (hd : b.type ≠ .double) (hi : i < b.size) (hd0 : 0 ≤ d)
    (hnn : ∀ u ∈ b.values, 0 ≤ u)
    (hT : first_in_range (.uint .uint8_t) b.largest_value
      = some (if b.type = .void then .uint .uint8_t else b.type))
    (hvals : c.values = b.values.set i (b.value i + d))
    (htype : some c.type
      = first_in_range (if b.type = .void then .uint .uint8_t else b.type) (b.value i + d)) :
    c.type ≠ .double ∧ c.type ≠ .void ∧ (∀ u ∈ c.values, 0 ≤ u) ∧
    first_in_range (.uint .uint8_t) c.largest_value = some c.type := by
  have hvi : 0 ≤ b.value i := getD_nonneg _ i hnn
  have hne := first_in_range_ne_double _ _ _ htype
  refine ⟨hne.1, hne.2, ?_, ?_⟩
  · rw [hvals]
    exact forall_mem_set _ _ _ _ hnn (by omega)
  · have hl : c.largest_value = max b.largest_value (b.value i + d) := by
      simp only [buffer_type.largest_value, hvals]
      exact foldr_max_set _ i _ (by rw [values_length b hwf hd]; exact hi)
        (by simp only [buffer_type.value]; omega)
    have hnew : 0 ≤ b.value i + d := by omega
    rw [hl, ← first_in_range_max b.largest_value (b.value i + d) _ (foldr_max_nonneg _) hnew hT,
      htype]

theorem integer_fill_step (b : buffer_type) (op : operation)
    (hop : op.integer_fill b.size) (hwf : b.wf) (hd : b.type ≠ .double)
    (hnn : ∀ u ∈ b.values, 0 ≤ u)
    (hT : first_in_range (.uint .uint8_t) b.largest_value
      = some (if b.type = .void then .uint .uint8_t else b.type)) :
    (op.run b).wf ∧ (op.run b).size = b.size ∧ (op.run b).type ≠ .double ∧
    (op.run b).type ≠ .void ∧ (∀ u ∈ (op.run b).values, 0 ≤ u) ∧
    first_in_range (.uint .uint8_t) (op.run b).largest_value = some (op.run b).type := by
  cases op with
  | increment i =>
    obtain ⟨h1, h2, _, h4, h5⟩ := incrementor_spec b i hwf hd
    obtain ⟨k1, k2, k3, k4⟩ := fill_invariant b _ i 1 hwf hd hop (by decide) hnn hT h4 h5
    exact ⟨h1, h2, k1, k2, k3, k4⟩
  | add i x =>
    cases x with
    | integer x =>
      obtain ⟨h1, h2, _, h4, h5⟩ := adder_integer_spec b i x hwf hd hop.2
      obtain ⟨k1, k2, k3, k4⟩ := fill_invariant b _ i x.value hwf hd hop.1 hop.2 hnn hT h4 h5
      exact ⟨h1, h2, k1, k2, k3, k4⟩
    | floating x => exact absurd hop id
  | assign i x => exact absurd hop id
  | bulk_add o => exact absurd hop id
  | scale x => exact absurd hop id

theorem integer_fill_foldl (ops : List operation) : ∀ (b : buffer_type),
    (∀ op ∈ ops, op.integer_fill b.size) → b.wf → b.type ≠ .double → b.type ≠ .void →
    (∀ u ∈ b.values, 0 ≤ u) →
    first_in_range (.uint .uint8_t) b.largest_value = some b.type →
    first_in_range (.uint .uint8_t) (ops.foldl operation.run b).largest_value
      = some (ops.foldl operation.run b).type := by
  induction ops with
  | nil => intro b _ _ _ _ _ h; exact h
  | cons op ops ih =>
    intro b hops hwf hd hv hnn hT
    obtain ⟨h1, h2, h3, h4, h5, h6⟩ := integer_fill_step b op
      (hops op (List.mem_cons_self op ops)) hwf hd hnn (by rw [if_neg hv]; exact hT)
    exact ih (op.run b) (fun o ho => by rw [h2]; exact hops o (List.mem_cons_of_mem op ho))
      h1 h3 h4 h5 h6

/-- C7: in every storage reached from `reset(n)` by a non-empty sequence of increments and
additions of non-negative integers, the type is the smallest of U8, U16, U32, U64, BigInt
whose range contains the largest cell value. -/
theorem C7_type_is_smallest_required (b : buffer_type) (n : Nat) (ops : List operation)
    (hne : ops ≠ []) (hops : ∀ op ∈ ops, op.integer_fill n) :
    promotion_order.find?
        (fun W => W.in_range (ops.foldl operation.run (reset b n)).largest_value)
      = some (ops.foldl operation.run (reset b n)).type := by
  rw [← first_in_range_uint8]
  cases ops with
  | nil => exact absurd rfl hne
  | cons op ops =>
    have hnn : ∀ u ∈ (reset b n).values, 0 ≤ u := by
      intro u hu
      rw [List.eq_of_mem_replicate hu]
    have hT : first_in_range (.uint .uint8_t) (reset b n).largest_value
        = some (if (reset b n).type = .void then .uint .uint8_t else (reset b n).type) := by
      have h0 : (reset b n).largest_value = 0 := by
        have := foldr_max_nonneg (reset b n).values
        have hle : ∀ l : List Int, (∀ u ∈ l, u = 0) → l.foldr max 0 = 0 := by
          intro l
          induction l with
          | nil => intro _; rfl
          | cons a l ih =>
            intro h
            simp only [List.foldr_cons]
            rw [ih (fun u hu => h u (List.mem_cons_of_mem a hu)), h a (List.mem_cons_self a l)]
            rfl
        exact hle _ (fun u hu => List.eq_of_mem_replicate hu)
      rw [h0]; rfl
    obtain ⟨h1, h2, h3, h4, h5, h6⟩ := integer_fill_step (reset b n) op
      (hops op (List.mem_cons_self op ops)) (reset_wf b n) (fun h => by cases h) hnn hT
    exact integer_fill_foldl ops _
      (fun o ho => by rw [h2]; exact hops o (List.mem_cons_of_mem op ho)) h1 h3 h4 h5 h6

theorem C7_type_is_smallest_required_witness :
    promotion_order.find? (fun W => W.in_range
        ([operation.add 1 (.integer (.integral 300)), operation.increment 0,
          operation.add 0 (.integer (.mp_int 70000))].foldl operation.run
            (reset (init 0) 2)).largest_value)
      = some ([operation.add 1 (.integer (.integral 300)), operation.increment 0,
          operation.add 0 (.integer (.mp_int 70000))].foldl operation.run
            (reset (init 0) 2)).type :=
  C7_type_is_smallest_required (init 0) 2
    [operation.add 1 (.integer (.integral 300)), operation.increment 0,
      operation.add 0 (.integer (.mp_int 70000))]
    (by simp) (by simp [operation.integer_fill, integer_addend.value])

/-! ## Bulk add -/

/-- The addend that `buffer_adder` reads from cell `k` of a source of integer type. -/
theorem addend_at_spec (o : buffer_type) (k : Nat) (hd : o.type ≠ .double)
    (hnn : ∀ u ∈ o.values, 0 ≤ u) :
    (o.ptr.addend_at k = none ∧ o.value k = 0) ∨
    ∃ x, o.ptr.addend_at k = some (.integer x) ∧ x.value = o.value k ∧ 0 ≤ x.value := by
  have hv : 0 ≤ o.value k := getD_nonneg _ k hnn
  obtain ⟨a, s, p⟩ := o
  cases p with
  | void => exact Or.inl ⟨rfl, value_void a s k⟩
  | uint T tp =>
    refine Or.inr ⟨.integral (tp.getD k 0), rfl, ?_, ?_⟩
    · rw [value_uint]; rfl
    · simp only [integer_addend.value, Int.ofNat_eq_coe]; omega
  | mp_int tp => exact Or.inr ⟨.mp_int (tp.getD k 0), rfl, rfl, hv⟩
  | double tp => exact absurd rfl hd

/-- The loop of `buffer_adder` after its first `k` iterations. -/
theorem buffer_adder_prefix (o b : buffer_type) (hwf : b.wf) (hdb : b.type ≠ .double)
    (hdo : o.type ≠ .double) (hnn : ∀ u ∈ o.values, 0 ≤ u) (k : Nat) (hk : k ≤ b.size) :
    ((List.range k).foldl (fun b i => match o.ptr.addend_at i with
      | some x => adder b i x
      | none => b) b).wf ∧
    ((List.range k).foldl (fun b i => match o.ptr.addend_at i with
      | some x => adder b i x
      | none => b) b).size = b.size ∧
    ((List.range k).foldl (fun b i => match o.ptr.addend_at i with
      | some x => adder b i x
      | none => b) b).type ≠ .double ∧
    (∀ j, ((List.range k).foldl (fun b i => match o.ptr.addend_at i with
      | some x => adder b i x
      | none => b) b).value j = if j < k then b.value j + o.value j else b.value j) ∧
    (b.type ≠ .void → (∀ j, j < k → b.type.in_range (b.value j + o.value j) = true) →
      ((List.range k).foldl (fun b i => match o.ptr.addend_at i with
      | some x => adder b i x
      | none => b) b).type = b.type) := by
  induction k with
  | zero => exact ⟨hwf, rfl, hdb, fun j => by simp, fun _ _ => rfl⟩
  | succ k ih =>
    obtain ⟨h1, h2, h3, h4, h5⟩ := ih (by omega)
    rw [List.range_succ, List.foldl_append, List.foldl_cons, List.foldl_nil]
    generalize (List.range k).foldl (fun b i => match o.ptr.addend_at i with
      | some x => adder b i x
      | none => b) b = r at h1 h2 h3 h4 h5 ⊢
    have hrk : r.value k = b.value k := by rw [h4 k, if_neg (Nat.lt_irrefl k)]
    rcases addend_at_spec o k hdo hnn with ⟨hnone, hzero⟩ | ⟨x, hsome, hxv, hx0⟩
    · rw [hnone]
      refine ⟨h1, h2, h3, fun j => ?_, fun hv hfit => h5 hv (fun j hj => hfit j (by omega))⟩
      rw [h4 j]
      by_cases hjk : j < k
      · rw [if_pos hjk, if_pos (by omega)]
      · by_cases hje : j = k
        · subst hje; rw [if_neg hjk, if_pos (Nat.lt_succ_self j), hzero, add_zero]
        · rw [if_neg hjk, if_neg (by omega)]
    · rw [hsome]
      obtain ⟨a1, a2, _, a4, a5⟩ := adder_integer_spec r k x h1 h3 hx0
      have hne := first_in_range_ne_double _ _ _ a5
      refine ⟨a1, a2.trans h2, hne.1, fun j => ?_, fun hv hfit => ?_⟩
      · show (adder r k (.integer x)).value j = _
        rw [value_of_values_set r _ k j _ h1 h3 (by omega) a4, hrk, hxv, h4 j]
        by_cases hje : j = k
        · subst hje; rw [if_pos rfl, if_pos (Nat.lt_succ_self j)]
        · by_cases hjk : j < k
          · rw [if_neg hje, if_pos hjk, if_pos (by omega)]
          · rw [if_neg hje, if_neg hjk, if_neg (by omega)]
      · have hrt : r.type = b.type := h5 hv (fun j hj => hfit j (by omega))
        show (adder r k (.integer x)).type = _
        rw [hrt, if_neg hv, hrk, hxv,
          first_in_range_self _ _ (start_type_mem _ hv hdb) (hfit k (Nat.lt_succ_self k))] at a5
        exact Option.some.inj a5

/-- C10: for two distinct storages `a` and `b` of the same length `N` with integer types, in
any combination, after `a += b` every cell `i` of `a` holds exactly its old value plus the
value of cell `i` of `b`, `b` is unchanged, and the type of `a` is unchanged whenever `a`
was not Empty and every sum fits the old representation of `a`. -/
theorem C10_bulk_add_is_cellwise (a b : buffer_type) (hwa : a.wf) (hwb : b.wf)
    (hN : a.size = b.size) (hda : a.type ≠ .double) (hdb : b.type ≠ .double)
    (hnn : ∀ u ∈ b.values, 0 ≤ u) :
    (∀ i, i < a.size → (add_assign a b).1.value i = a.value i + b.value i) ∧
    (add_assign a b).2 = b ∧
    (add_assign a b).1.size = a.size ∧
    (a.type ≠ .void → (∀ i, i < a.size → a.type.in_range (a.value i + b.value i) = true) →
      (add_assign a b).1.type = a.type) := by
  have _ := hwb
  have _ := hN
  obtain ⟨_, h2, _, h4, h5⟩ := buffer_adder_prefix b a hwa hda hdb hnn a.size (Nat.le_refl _)
  refine ⟨fun i hi => ?_, rfl, h2, h5⟩
  show (buffer_adder b a).value i = _
  unfold buffer_adder
  rw [h4 i, if_pos hi]

theorem C10_bulk_add_is_cellwise_witness :
    (∀ i, i < 4 →
      (add_assign (buffer_type.mk 0 4 (.uint .uint16_t [10, 20, 30, 40]))
        (buffer_type.mk 0 4 (.uint .uint16_t [10, 20, 30, 40]))).1.value i
      = (buffer_type.mk 0 4 (.uint .uint16_t [10, 20, 30, 40])).value i
        + (buffer_type.mk 0 4 (.uint .uint16_t [10, 20, 30, 40])).value i) ∧
    (add_assign (buffer_type.mk 0 4 (.uint .uint16_t [10, 20, 30, 40]))
        (buffer_type.mk 0 4 (.uint .uint16_t [10, 20, 30, 40]))).1.values = [20, 40, 60, 80] ∧
    (add_assign (buffer_type.mk 0 4 (.uint .uint16_t [10, 20, 30, 40]))
        (buffer_type.mk 0 4 (.uint .uint16_t [10, 20, 30, 40]))).1.type = .uint .uint16_t :=
  have h := C10_bulk_add_is_cellwise (buffer_type.mk 0 4 (.uint .uint16_t [10, 20, 30, 40]))
    (buffer_type.mk 0 4 (.uint .uint16_t [10, 20, 30, 40])) (by decide) (by decide) rfl
    (by decide) (by decide) (by decide)
  ⟨h.1, by decide, h.2.2.2 (by decide) (by decide)⟩

/-! ## Scalar multiply, floating add and the terminal representation -/

theorem multiplier_size (b : buffer_type) (x : Float) : (multiplier b x).size = b.size := by
  obtain ⟨a, s, p⟩ := b
  cases p <;> rfl

theorem multiplier_type (b : buffer_type) (x : Float) :
    (multiplier b x).type = if b.type = .void then .void else .double := by
  obtain ⟨a, s, p⟩ := b
  cases p <;> rfl

theorem C14_multiply_keeps_empty_counterexample :
    ¬ (∀ (b : buffer_type) (x : Float),
      (multiplier b x).type = .double ∧ (multiplier b x).size = b.size) := by
  intro h
  exact absurd (h (reset (init 0) 2) 2.0).1 (by decide)

/-- C14 (amended): after `a *= s` the number of cells is unchanged, and the type is F64 when
the type of `a` was U8, U16, U32, U64, BigInt or F64; an Empty storage stays Empty, because
the overload of `multiplier` for `void*` does nothing. -/
theorem C14_multiply_collapses_to_double (b : buffer_type) (x : Float) :
    (multiplier b x).size = b.size ∧
    (multiplier b x).type = if b.type = .void then .void else .double :=
  ⟨multiplier_size b x, multiplier_type b x⟩

theorem operator_double_size (b : buffer_type) (i : Nat) (x : addend) :
    (adder.operator_double b i x).size = b.size := by
  obtain ⟨a, s, p⟩ := b
  cases p <;> rfl

theorem adder_floating (b : buffer_type) (i : Nat) (x : Float) :
    (adder b i (.floating x)).type = .double ∧ (adder b i (.floating x)).size = b.size := by
  obtain ⟨a, s, p⟩ := b
  cases p with
  | void => exact ⟨rfl, rfl⟩
  | uint T tp => exact ⟨rfl, rfl⟩
  | mp_int tp => exact ⟨rfl, rfl⟩
  | double tp => exact ⟨rfl, rfl⟩

/-- C15: on a storage of type Empty, U8, U16, U32, U64 or BigInt, adding a floating-point
addend `x` (also `0.0`) leaves the storage with type F64 and the same number of cells. -/
theorem C15_floating_add_promotes_to_double (b : buffer_type) (i : Nat) (x : Float)
    (hd : b.type ≠ .double) :
    (adder b i (.floating x)).type = .double ∧ (adder b i (.floating x)).size = b.size := by
  have _ := hd
  exact adder_floating b i x

theorem C15_floating_add_promotes_to_double_witness :
    ((adder (reset (init 0) 2) 0 (.floating 1.5)).type = .double ∧
      (adder (reset (init 0) 2) 0 (.floating 1.5)).size = 2) ∧
    (adder (reset (init 0) 2) 0 (.floating 1.5)).ptr
      = .double [Float.ofNat 0 + 1.5, Float.ofNat 0] :=
  ⟨C15_floating_add_promotes_to_double (reset (init 0) 2) 0 1.5 (by decide), rfl⟩

theorem type_index_eq_six (T : types) (h : 6 ≤ type_index T) : T = .double := by
  cases T with
  | uint U => cases U <;> simp [type_index] at h
  | double => rfl
  | void => simp [type_index] at h
  | mp_int => simp [type_index] at h

/-- C16: F64 is terminal: on a storage of type F64, increment, add of an integer, a
multiprecision or a floating addend, set, bulk add from a storage of any type and scalar
multiply leave the type F64, and so does every sequence of these operations. -/
theorem C16_double_is_terminal (b : buffer_type) (hd : b.type = .double) :
    (∀ op : operation, (op.run b).type = .double) ∧
    (∀ ops : List operation, (ops.foldl operation.run b).type = .double) := by
  have key : ∀ ops : List operation, ∀ c : buffer_type, c.type = .double →
      (ops.foldl operation.run c).type = .double := by
    intro ops
    induction ops with
    | nil => intro c hc; exact hc
    | cons op ops ih =>
      intro c hc
      refine ih (op.run c) (type_index_eq_six _ ?_)
      have := run_mono c op
      rw [hc] at this
      exact this
  exact ⟨fun op => key [op] b hd, fun ops => key ops b hd⟩

theorem C16_double_is_terminal_witness :
    (∀ op : operation, (op.run (buffer_type.mk 0 2 (.double [1.5, 2.5]))).type = .double) ∧
    (∀ ops : List operation,
      (ops.foldl operation.run (buffer_type.mk 0 2 (.double [1.5, 2.5]))).type = .double) :=
  C16_double_is_terminal (buffer_type.mk 0 2 (.double [1.5, 2.5])) (by decide)

/-! ## Copy, move and reset -/

/-- The overload of the buffer `setter` for a typed source, on a destination of a different
size or type, installs the allocator of the source. -/
theorem setter_buffer_alloc_typed (ob b : buffer_type) (hv : ob.type ≠ .void)
    (hne : ¬ (b.size = ob.size ∧ b.type = ob.type)) :
    (setter.buffer ob b).alloc = ob.alloc := by
  obtain ⟨a, s, p⟩ := ob
  cases p with
  | void => exact absurd rfl hv
  | uint T tp => simp only [setter.buffer, hne, if_false, buffer_type.set]
  | mp_int tp => simp only [setter.buffer, hne, if_false, buffer_type.set]
  | double tp => simp only [setter.buffer, hne, if_false, buffer_type.set]

/-- The overload of the buffer `setter` for an Empty source never writes `b.alloc`. -/
theorem setter_buffer_alloc_void (ob b : buffer_type) (hv : ob.type = .void) :
    (setter.buffer ob b).alloc = b.alloc := by
  obtain ⟨a, s, p⟩ := ob
  cases p with
  | void => rfl
  | uint T tp => cases hv
  | mp_int tp => cases hv
  | double tp => cases hv

/-- C18 (failing input): copy-assignment of an Empty source of 5 cells with allocator 2 to a
U8 destination of 3 cells with allocator 1 adopts the size and the type of the source, but
the destination keeps its own allocator 1. -/
theorem C18_empty_source_keeps_allocator :
    (copy_assign (buffer_type.mk 1 3 (.uint .uint8_t [1, 2, 3])) (buffer_type.mk 2 5 .void)).1.size
      = 5 ∧
    (copy_assign (buffer_type.mk 1 3 (.uint .uint8_t [1, 2, 3])) (buffer_type.mk 2 5 .void)).1.type
      = .void ∧
    (copy_assign (buffer_type.mk 1 3 (.uint .uint8_t [1, 2, 3])) (buffer_type.mk 2 5 .void)).1.alloc
      = 1 ∧
    (copy_assign (buffer_type.mk 1 3 (.uint .uint8_t [1, 2, 3])) (buffer_type.mk 2 5 .void)).1.alloc
      ≠ (buffer_type.mk 2 5 .void).alloc := by
  decide

/-- C19: move construction from a storage `s` yields a storage with the number of cells, the
type, the cells and the allocator that `s` had, and leaves `s` with no cells and type
Empty. -/
theorem C19_move_construct (o : buffer_type) :
    (move_construct o).1 = o ∧
    (move_construct o).1.size = o.size ∧
    (move_construct o).1.type = o.type ∧
    (move_construct o).1.ptr = o.ptr ∧
    (move_construct o).1.alloc = o.alloc ∧
    (move_construct o).2.size = 0 ∧
    (move_construct o).2.type = .void :=
  ⟨rfl, rfl, rfl, rfl, rfl, rfl, rfl⟩

/-- C20: on a storage in any state, `reset(n)` yields a storage of type Empty with `n` cells
in which every cell reads `0.0`, with the allocator unchanged. -/
theorem C20_reset (b : buffer_type) (n : Nat) :
    (reset b n).type = .void ∧
    (reset b n).size = n ∧
    (∀ i, getter (reset b n) i = 0.0) ∧
    (reset b n).alloc = b.alloc :=
  ⟨rfl, rfl, fun _ => rfl, rfl⟩

/-! ## Equality -/

theorem all_range_iff (n : Nat) (p : Nat → Bool) :
    (List.range n).all p = true ↔ ∀ k, k < n → p k = true := by
  simp [List.all_eq_true, List.mem_range]

theorem value_mp_int (a s : Nat) (tp : List Int) (i : Nat) :
    (buffer_type.mk a s (.mp_int tp)).value i = tp.getD i 0 := rfl

/-- On two buffers of integer type and the same size, `comparer` holds iff the logical
values of the cells agree. -/
theorem comparer_inner_iff (ob b : buffer_type) (hdo : ob.type ≠ .double)
    (hdb : b.type ≠ .double) :
    comparer.inner ob b.ptr = true ↔ ∀ k, k < ob.size → b.value k = ob.value k := by
  obtain ⟨a1, s1, p⟩ := ob
  obtain ⟨a2, s2, q⟩ := b
  cases p with
  | double tp => exact absurd rfl hdo
  | void =>
    cases q with
    | double tp => exact absurd rfl hdb
    | void => simp [comparer.inner, pointer.deref, value_void]
    | uint T tp =>
      simp only [comparer.inner, pointer.deref, all_range_iff, cell.is_zero, value_void,
        value_uint, Int.ofNat_eq_coe, beq_iff_eq]
      exact forall_congr' fun k => imp_congr_right fun _ => by omega
    | mp_int tp =>
      simp only [comparer.inner, pointer.deref, all_range_iff, cell.is_zero, value_void,
        value_mp_int, beq_iff_eq]
  | uint U optr =>
    cases q with
    | double tp => exact absurd rfl hdb
    | void =>
      simp only [comparer.inner, pointer.deref, all_range_iff, cell.is_zero, value_void,
        value_uint, Int.ofNat_eq_coe, beq_iff_eq]
      exact forall_congr' fun k => imp_congr_right fun _ => by omega
    | uint T tp =>
      simp only [comparer.inner, pointer.deref, all_range_iff, cmp, value_uint,
        Int.ofNat_eq_coe, beq_iff_eq]
      exact forall_congr' fun k => imp_congr_right fun _ => by omega
    | mp_int tp =>
      simp only [comparer.inner, pointer.deref, all_range_iff, cmp, value_uint,
        value_mp_int, Int.ofNat_eq_coe, beq_iff_eq]
  | mp_int optr =>
    cases q with
    | double tp => exact absurd rfl hdb
    | void =>
      simp only [comparer.inner, pointer.deref, all_range_iff, cell.is_zero, value_void,
        value_mp_int, beq_iff_eq]
      exact forall_congr' fun k => imp_congr_right fun _ => eq_comm
    | uint T tp =>
      simp only [comparer.inner, pointer.deref, all_range_iff, cmp, value_uint,
        value_mp_int, Int.ofNat_eq_coe, beq_iff_eq]
      exact forall_congr' fun k => imp_congr_right fun _ => eq_comm
    | mp_int tp =>
      simp only [comparer.inner, pointer.deref, all_range_iff, cmp, value_mp_int, beq_iff_eq]

/-- The operator `==` on two storages of integer type. -/
theorem operator_eq_iff (a b : buffer_type) (hda : a.type ≠ .double)
    (hdb : b.type ≠ .double) :
    operator_eq a b = true ↔ a.size = b.size ∧ ∀ i, i < a.size → a.value i = b.value i := by
  by_cases hs : a.size = b.size
  · simp only [operator_eq, hs, ne_eq, not_true_eq_false, if_false, true_and]
    exact comparer_inner_iff b a hdb hda
  · simp [operator_eq, hs]

/-- C12: for storages `a` and `b` of integer types (Empty, U8, U16, U32, U64, BigInt in any
combination), `a == b` holds iff they have the same number of cells and the logical integer
values of the cells agree at every index; storages of different sizes are never equal. -/
theorem C12_equality_is_logical (a b : buffer_type) (hda : a.type ≠ .double)
    (hdb : b.type ≠ .double) :
    (operator_eq a b = true ↔ a.size = b.size ∧ ∀ i, i < a.size → a.value i = b.value i) ∧
    (a.size ≠ b.size → operator_eq a b = false) := by
  refine ⟨operator_eq_iff a b hda hdb, fun hs => ?_⟩
  simp [operator_eq, hs]

theorem C12_equality_is_logical_witness :
    (operator_eq (buffer_type.mk 0 2 (.uint .uint8_t [1, 200]))
        (buffer_type.mk 1 2 (.mp_int [1, 200])) = true ↔
      (buffer_type.mk 0 2 (.uint .uint8_t [1, 200])).size
        = (buffer_type.mk 1 2 (.mp_int [1, 200])).size ∧
      ∀ i, i < (buffer_type.mk 0 2 (.uint .uint8_t [1, 200])).size →
        (buffer_type.mk 0 2 (.uint .uint8_t [1, 200])).value i
          = (buffer_type.mk 1 2 (.mp_int [1, 200])).value i) ∧
    operator_eq (buffer_type.mk 0 2 (.uint .uint8_t [1, 200]))
      (buffer_type.mk 1 2 (.mp_int [1, 200])) = true ∧
    operator_eq (buffer_type.mk 0 2 (.uint .uint8_t [1, 200]))
      (buffer_type.mk 1 2 (.uint .uint16_t [1, 201])) = false ∧
    operator_eq (reset (init 0) 2) (reset (init 0) 3) = false :=
  ⟨(C12_equality_is_logical (buffer_type.mk 0 2 (.uint .uint8_t [1, 200]))
      (buffer_type.mk 1 2 (.mp_int [1, 200])) (by decide) (by decide)).1,
    by decide, by decide, by decide⟩

/-- C13: an Empty storage compares equal, in both argument orders, to a storage of the same
number of cells and of any type U8, U16, U32, U64, BigInt or F64 iff every cell of that
storage is zero; two Empty storages of the same number of cells are equal. -/
theorem C13_empty_equals_zero_filled (e b : buffer_type) (he : e.type = .void)
    (hN : e.size = b.size) :
    (operator_eq e b = true ↔ ∀ k, k < b.size → b.cell_is_zero k) ∧
    (operator_eq b e = true ↔ ∀ k, k < b.size → b.cell_is_zero k) ∧
    (b.type = .void → operator_eq e b = true ∧ operator_eq b e = true) := by
  obtain ⟨a1, s1, p⟩ := e
  obtain ⟨a2, s2, q⟩ := b
  cases p with
  | void =>
    simp only at hN
    subst hN
    cases q with
    | void =>
      simp [operator_eq, comparer.inner, pointer.deref, buffer_type.cell_is_zero]
    | uint T tp =>
      simp [operator_eq, comparer.inner, pointer.deref, buffer_type.cell_is_zero,
        all_range_iff, cell.is_zero, buffer_type.type, pointer.type]
    | mp_int tp =>
      simp [operator_eq, comparer.inner, pointer.deref, buffer_type.cell_is_zero,
        all_range_iff, cell.is_zero, buffer_type.type, pointer.type]
    | double tp =>
      simp [operator_eq, comparer.inner, pointer.deref, buffer_type.cell_is_zero,
        all_range_iff, cell.is_zero, buffer_type.type, pointer.type]
  | uint T tp => cases he
  | mp_int tp => cases he
  | double tp => cases he

theorem C13_empty_equals_zero_filled_witness :
    ((operator_eq (reset (init 0) 2) (buffer_type.mk 1 2 (.uint .uint16_t [0, 0])) = true ↔
        ∀ k, k < 2 → (buffer_type.mk 1 2 (.uint .uint16_t [0, 0])).cell_is_zero k) ∧
      (operator_eq (buffer_type.mk 1 2 (.uint .uint16_t [0, 0])) (reset (init 0) 2) = true ↔
        ∀ k, k < 2 → (buffer_type.mk 1 2 (.uint .uint16_t [0, 0])).cell_is_zero k) ∧
      ((buffer_type.mk 1 2 (.uint .uint16_t [0, 0])).type = .void →
        operator_eq (reset (init 0) 2) (buffer_type.mk 1 2 (.uint .uint16_t [0, 0])) = true ∧
        operator_eq (buffer_type.mk 1 2 (.uint .uint16_t [0, 0])) (reset (init 0) 2) = true)) ∧
    operator_eq (reset (init 0) 2) (buffer_type.mk 1 2 (.uint .uint16_t [0, 0])) = true ∧
    operator_eq (buffer_type.mk 1 2 (.uint .uint16_t [0, 0])) (reset (init 0) 2) = true ∧
    operator_eq (reset (init 0) 2) (buffer_type.mk 1 2 (.mp_int [0, 5])) = false ∧
    operator_eq (reset (init 0) 2) (reset (init 1) 2) = true :=
  ⟨C13_empty_equals_zero_filled (reset (init 0) 2)
      (buffer_type.mk 1 2 (.uint .uint16_t [0, 0])) (by decide) (by decide),
    by decide, by decide, by decide, by decide⟩

theorem values_congr (b c : buffer_type) (hs : c.size = b.size) (hp : c.ptr = b.ptr) :
    c.values = b.values := by
  obtain ⟨a1, s1, p⟩ := b
  obtain ⟨a2, s2, q⟩ := c
  simp only at hs hp
  subst hs hp
  rfl

theorem take_append_drop_of_length {α : Type} (n : Nat) (l1 l2 : List α)
    (h1 : l1.length = n) (h2 : l2.length = n) : l1.take n ++ l2.drop n = l1 := by
  rw [List.take_of_length_le (Nat.le_of_eq h1), List.drop_of_length_le (Nat.le_of_eq h2),
    List.append_nil]

/-- The buffer `setter` leaves the destination with the size, the type and the cells of the
source. -/
theorem setter_buffer_spec (ob b : buffer_type) (hwo : ob.wf) (hwb : b.wf) :
    (setter.buffer ob b).size = ob.size ∧ (setter.buffer ob b).ptr = ob.ptr := by
  obtain ⟨a1, s1, p⟩ := ob
  obtain ⟨a2, s2, q⟩ := b
  cases p with
  | void => exact ⟨rfl, rfl⟩
  | uint T optr =>
    simp only [setter.buffer, buffer_type.set, buffer_type.create, buffer_type.type,
      pointer.type]
    split_ifs with h
    · obtain ⟨hs, ht⟩ := h
      subst hs
      cases q with
      | uint U tp =>
        have hU : U = T := by simpa using ht
        subst hU
        exact ⟨rfl, congrArg _ (take_append_drop_of_length s2 optr tp hwo.1 hwb.1)⟩
      | void => cases ht
      | mp_int tp => cases ht
      | double tp => cases ht
    · exact ⟨rfl, congrArg _ (map_static_cast T optr hwo.2)⟩
  | mp_int optr =>
    simp only [setter.buffer, buffer_type.set, buffer_type.create, buffer_type.type,
      pointer.type]
    split_ifs with h
    · obtain ⟨hs, ht⟩ := h
      subst hs
      cases q with
      | mp_int tp => exact ⟨rfl, congrArg _ (take_append_drop_of_length s2 optr tp hwo hwb)⟩
      | void => cases ht
      | uint U tp => cases ht
      | double tp => cases ht
    · exact ⟨rfl, rfl⟩
  | double optr =>
    simp only [setter.buffer, buffer_type.set, buffer_type.create, buffer_type.type,
      pointer.type]
    split_ifs with h
    · obtain ⟨hs, ht⟩ := h
      subst hs
      cases q with
      | double tp => exact ⟨rfl, congrArg _ (take_append_drop_of_length s2 optr tp hwo hwb)⟩
      | void => cases ht
      | uint U tp => cases ht
      | mp_int tp => cases ht
    · exact ⟨rfl, rfl⟩

/-- C17: copy construction and copy assignment produce a destination with the number of
cells, the type and the cells of the source, whatever the number of cells and the type of
the destination were, and leave the source unchanged; a copy of a storage of integer type
compares equal to it. -/
theorem C17_copy_is_faithful (dst src : buffer_type) (hws : src.wf) (hwd : dst.wf) :
    ((copy_assign dst src).1.size = src.size ∧
      (copy_assign dst src).1.type = src.type ∧
      (copy_assign dst src).1.ptr = src.ptr ∧
      (copy_assign dst src).2 = src) ∧
    ((copy_construct src).size = src.size ∧
      (copy_construct src).type = src.type ∧
      (copy_construct src).ptr = src.ptr) ∧
    (src.type ≠ .double → operator_eq (copy_construct src) src = true) := by
  obtain ⟨h1, h2⟩ := setter_buffer_spec src dst hws hwd
  obtain ⟨k1, k2⟩ := setter_buffer_spec src
    { alloc := allocator_type, size := 0, ptr := .void } hws trivial
  refine ⟨⟨h1, congrArg pointer.type h2, h2, rfl⟩, ⟨k1, congrArg pointer.type k2, k2⟩,
    fun hd => ?_⟩
  have hdc : (copy_construct src).type ≠ .double := by
    rw [show (copy_construct src).type = src.type from congrArg pointer.type k2]; exact hd
  refine ((operator_eq_iff (copy_construct src) src hdc hd).mpr ⟨k1, fun i _ => ?_⟩)
  simp only [buffer_type.value, values_congr src (copy_construct src) k1 k2]

theorem C17_copy_is_faithful_witness :
    (((copy_assign (buffer_type.mk 1 3 (.uint .uint8_t [1, 2, 3]))
          (buffer_type.mk 2 2 (.uint .uint16_t [300, 7]))).1.size
        = (buffer_type.mk 2 2 (.uint .uint16_t [300, 7])).size ∧
      (copy_assign (buffer_type.mk 1 3 (.uint .uint8_t [1, 2, 3]))
          (buffer_type.mk 2 2 (.uint .uint16_t [300, 7]))).1.type
        = (buffer_type.mk 2 2 (.uint .uint16_t [300, 7])).type ∧
      (copy_assign (buffer_type.mk 1 3 (.uint .uint8_t [1, 2, 3]))
          (buffer_type.mk 2 2 (.uint .uint16_t [300, 7]))).1.ptr
        = (buffer_type.mk 2 2 (.uint .uint16_t [300, 7])).ptr ∧
      (copy_assign (buffer_type.mk 1 3 (.uint .uint8_t [1, 2, 3]))
          (buffer_type.mk 2 2 (.uint .uint16_t [300, 7]))).2
        = buffer_type.mk 2 2 (.uint .uint16_t [300, 7])) ∧
    ((copy_construct (buffer_type.mk 2 2 (.uint .uint16_t [300, 7]))).size
        = (buffer_type.mk 2 2 (.uint .uint16_t [300, 7])).size ∧
      (copy_construct (buffer_type.mk 2 2 (.uint .uint16_t [300, 7]))).type
        = (buffer_type.mk 2 2 (.uint .uint16_t [300, 7])).type ∧
      (copy_construct (buffer_type.mk 2 2 (.uint .uint16_t [300, 7]))).ptr
        = (buffer_type.mk 2 2 (.uint .uint16_t [300, 7])).ptr) ∧
    ((buffer_type.mk 2 2 (.uint .uint16_t [300, 7])).type ≠ .double →
      operator_eq (copy_construct (buffer_type.mk 2 2 (.uint .uint16_t [300, 7])))
        (buffer_type.mk 2 2 (.uint .uint16_t [300, 7])) = true)) ∧
    (copy_assign (buffer_type.mk 1 3 (.uint .uint8_t [1, 2, 3]))
      (buffer_type.mk 2 2 (.uint .uint16_t [300, 7]))).1.values = [300, 7] ∧
    (copy_assign (buffer_type.mk 1 3 (.uint .uint8_t [1, 2, 3]))
      (buffer_type.mk 2 3 (.uint .uint8_t [4, 5, 6]))).1.values = [4, 5, 6] :=
  ⟨C17_copy_is_faithful (buffer_type.mk 1 3 (.uint .uint8_t [1, 2, 3]))
      (buffer_type.mk 2 2 (.uint .uint16_t [300, 7])) (by decide) (by decide),
    by decide, by decide⟩

/-! ## Aliased bulk add -/

theorem values_nonneg (b : buffer_type) (hm : b.type ≠ .mp_int) :
    ∀ u ∈ b.values, 0 ≤ u := by
  obtain ⟨a, s, p⟩ := b
  cases p with
  | void => intro u hu; rw [List.eq_of_mem_replicate hu]
  | uint T tp =>
    intro u hu
    simp only [buffer_type.values, List.mem_map] at hu
    obtain ⟨t, _, rfl⟩ := hu
    exact Int.ofNat_nonneg t
  | mp_int tp => exact absurd rfl hm
  | double tp => intro u hu; simp [buffer_type.values] at hu

/-- The aliased bulk add reads the cells of the copy, which are the cells of the storage
before the call. -/
theorem add_assign_self_eq (a : buffer_type) (hwf : a.wf) :
    add_assign_self a = buffer_adder a a := by
  obtain ⟨_, k2⟩ := setter_buffer_spec a
    { alloc := allocator_type, size := 0, ptr := .void } hwf trivial
  simp only [add_assign_self, buffer_adder]
  rw [show (copy_construct a).ptr = a.ptr from k2]

/-- The loop of `buffer_adder` on a BigInt destination, fed from the cells `tp`. -/
theorem buffer_adder_prefix_mp_int (al s : Nat) (tp : List Int) (k : Nat) :
    ∀ l : List Int, l.length = s → k ≤ s →
    ∃ r : List Int, r.length = s ∧
      (List.range k).foldl (fun b i => match (pointer.mp_int tp).addend_at i with
        | some x => adder b i x
        | none => b) (buffer_type.mk al s (.mp_int l)) = buffer_type.mk al s (.mp_int r) ∧
      ∀ j, r.getD j 0 = if j < k then l.getD j 0 + tp.getD j 0 else l.getD j 0 := by
  induction k with
  | zero => intro l hl _; exact ⟨l, hl, rfl, fun j => by simp⟩
  | succ k ih =>
    intro l hl hk
    obtain ⟨r, hr, hfold, hval⟩ := ih l hl (by omega)
    refine ⟨r.set k (r.getD k 0 + tp.getD k 0), by simpa using hr, ?_, fun j => ?_⟩
    · rw [List.range_succ, List.foldl_append, hfold]
      rfl
    · rw [getD_set_eq r k j _ 0 (by omega), hval k, if_neg (Nat.lt_irrefl k), hval j]
      by_cases hje : j = k
      · subst hje; rw [if_pos rfl, if_pos (Nat.lt_succ_self j)]
      · by_cases hjk : j < k
        · rw [if_neg hje, if_pos hjk, if_pos (by omega)]
        · rw [if_neg hje, if_neg hjk, if_neg (by omega)]

/-- C11: for a storage `a` of integer type (Empty, U8, U16, U32, U64, BigInt), the aliased
bulk add `a += a` leaves every cell with exactly twice its value and keeps the number of
cells, also when doubling a cell forces a promotion during the loop. -/
theorem C11_self_add_doubles (a : buffer_type) (hwf : a.wf) (hd : a.type ≠ .double) :
    (∀ i, i < a.size → (add_assign_self a).value i = 2 * a.value i) ∧
    (add_assign_self a).size = a.size := by
  rw [add_assign_self_eq a hwf]
  by_cases hm : a.type = .mp_int
  · obtain ⟨al, s, p⟩ := a
    cases p with
    | mp_int tp =>
      obtain ⟨r, _, hfold, hval⟩ := buffer_adder_prefix_mp_int al s tp s tp hwf (Nat.le_refl s)
      have hres : buffer_adder (buffer_type.mk al s (.mp_int tp))
          (buffer_type.mk al s (.mp_int tp)) = buffer_type.mk al s (.mp_int r) := hfold
      rw [hres]
      refine ⟨fun i hi => ?_, rfl⟩
      rw [value_mp_int, value_mp_int, hval i, if_pos hi]
      omega
    | void => cases hm
    | uint T tp => cases hm
    | double tp => cases hm
  · obtain ⟨_, h2, _, h4, _⟩ := buffer_adder_prefix a a hwf hd hd (values_nonneg a hm)
      a.size (Nat.le_refl _)
    refine ⟨fun i hi => ?_, h2⟩
    unfold buffer_adder
    rw [h4 i, if_pos hi]
    omega

theorem C11_self_add_doubles_witness :
    ((∀ i, i < (buffer_type.mk 0 3 (.uint .uint8_t [100, 200, 3])).size →
        (add_assign_self (buffer_type.mk 0 3 (.uint .uint8_t [100, 200, 3]))).value i
          = 2 * (buffer_type.mk 0 3 (.uint .uint8_t [100, 200, 3])).value i) ∧
      (add_assign_self (buffer_type.mk 0 3 (.uint .uint8_t [100, 200, 3]))).size
        = (buffer_type.mk 0 3 (.uint .uint8_t [100, 200, 3])).size) ∧
    (add_assign_self (buffer_type.mk 0 3 (.uint .uint8_t [100, 200, 3]))).values
      = [200, 400, 6] ∧
    (add_assign_self (buffer_type.mk 0 3 (.uint .uint8_t [100, 200, 3]))).type
      = .uint .uint16_t :=
  ⟨C11_self_add_doubles (buffer_type.mk 0 3 (.uint .uint8_t [100, 200, 3])) (by decide)
      (by decide), by decide, by decide⟩

/-! ## Allocation failure -/

theorem safe_radd_false (T : uint_t) (t : Nat) (x : integer_addend)
    (h : (safe_radd T t x).1 = false) : (safe_radd T t x).2 = t := by
  cases x with
  | integral u =>
    simp only [safe_radd] at h ⊢
    split at h
    · rename_i hlt; rw [if_pos hlt]
    · cases h
  | mp_int u =>
    simp only [safe_radd] at h ⊢
    split at h
    · rename_i hlt; rw [if_pos hlt]
    · cases h

/-- With an allocation left, the fallible `incrementor` returns what `incrementor` does. -/
theorem incrementor_fallible_succ (n : Nat) (b : buffer_type) (i : Nat) :
    incrementor.fallible (n + 1) b i = .returned (incrementor b i) := by
  obtain ⟨a, s, p⟩ := b
  cases p with
  | void => rfl
  | uint T tp =>
    simp only [incrementor.fallible, incrementor]
    split <;> rfl
  | mp_int tp => rfl
  | double tp => rfl

/-- A failing `incrementor` leaves the buffer as it was. -/
theorem incrementor_fallible_bad_alloc (n : Nat) (b c : buffer_type) (i : Nat)
    (h : incrementor.fallible n b i = .bad_alloc c) : c = b := by
  obtain ⟨a, s, p⟩ := b
  cases p with
  | void =>
    cases n with
    | zero => simp only [incrementor.fallible] at h; exact (outcome.bad_alloc.inj h).symm
    | succ n => simp [incrementor.fallible] at h
  | uint T tp =>
    cases n with
    | zero =>
      simp only [incrementor.fallible, safe_increment] at h
      by_cases hlt : tp.getD i 0 < numeric_limits_max T
      · simp only [hlt, if_true] at h
        cases h
      · simp only [hlt, if_false, Bool.false_eq_true] at h
        rw [set_getD_self] at h
        exact (outcome.bad_alloc.inj h).symm
    | succ n => rw [incrementor_fallible_succ] at h; cases h
  | mp_int tp => simp [incrementor.fallible] at h
  | double tp => simp [incrementor.fallible] at h

/-- C21: when the allocator fails during `increment(i)`, on an Empty storage or on a U8,
U16, U32 or U64 storage whose cell `i` is at the maximum, `std::bad_alloc` propagates and
the storage is unchanged: same type, same number of cells, same cells. No call of
`increment` that fails changes the storage. -/
theorem C21_failed_increment_leaves_storage (b : buffer_type) (i : Nat)
    (h : b.type = .void ∨ ∃ T, b.type = .uint T ∧ b.value i = (numeric_limits_max T : Nat)) :
    incrementor.fallible 0 b i = .bad_alloc b ∧
    ∀ n c, incrementor.fallible n b i = .bad_alloc c → c = b := by
  refine ⟨?_, fun n c hc => incrementor_fallible_bad_alloc n b c i hc⟩
  obtain ⟨a, s, p⟩ := b
  cases p with
  | void => rfl
  | uint U tp =>
    rcases h with h | ⟨T, hT, hmax⟩
    · cases h
    · have hTU : U = T := by simpa [buffer_type.type, pointer.type] using hT
      subst hTU
      rw [value_uint] at hmax
      have hnlt : ¬ tp.getD i 0 < numeric_limits_max U := by
        simp only [Int.ofNat_eq_coe] at hmax; omega
      simp only [incrementor.fallible, safe_increment, hnlt, if_false, Bool.false_eq_true]
      rw [set_getD_self]
  | mp_int tp =>
    rcases h with h | ⟨T, hT, _⟩
    · cases h
    · cases hT
  | double tp =>
    rcases h with h | ⟨T, hT, _⟩
    · cases h
    · cases hT

theorem C21_failed_increment_leaves_storage_witness :
    (incrementor.fallible 0 (buffer_type.mk 0 1 (.uint .uint8_t [255])) 0
        = .bad_alloc (buffer_type.mk 0 1 (.uint .uint8_t [255])) ∧
      ∀ n c, incrementor.fallible n (buffer_type.mk 0 1 (.uint .uint8_t [255])) 0
        = .bad_alloc c → c = buffer_type.mk 0 1 (.uint .uint8_t [255])) ∧
    (incrementor.fallible 0 (buffer_type.mk 0 1 (.uint .uint8_t [255])) 0).buffer.type
      = .uint .uint8_t ∧
    (incrementor.fallible 0 (buffer_type.mk 0 1 (.uint .uint8_t [255])) 0).buffer.value 0
      = 255 :=
  ⟨C21_failed_increment_leaves_storage (buffer_type.mk 0 1 (.uint .uint8_t [255])) 0
      (Or.inr ⟨.uint8_t, by decide, by decide⟩), by decide, by decide⟩

/-- What a failing chain of promotions in `adder` leaves behind: the cells of the buffer at
the type reached by the promotions already completed. -/
theorem if_U_is_integral_true_fallible_bad_alloc (k : Nat) : ∀ (n : Nat) (T : uint_t)
    (tp : List Nat) (a s i : Nat) (x : integer_addend) (c : buffer_type),
    (∀ t ∈ tp, t ≤ numeric_limits_max T) →
    adder.if_U_is_integral_true_fallible k n (buffer_type.mk a s (.uint T tp)) i x
      = .bad_alloc c →
    c.size = s ∧ c.alloc = a ∧ c.values = tp.map Int.ofNat ∧
    type_index c.type = type_index (.uint T) + n ∧
    (n = 0 → c = buffer_type.mk a s (.uint T tp)) := by
  induction k with
  | zero => intro n T tp a s i x c _ h; cases h
  | succ k ih =>
    intro n T tp a s i x c hall h
    simp only [adder.if_U_is_integral_true_fallible] at h
    by_cases hr : (safe_radd T (tp.getD i 0) x).1 = true
    · rw [if_pos hr] at h; cases h
    · rw [if_neg hr, safe_radd_false T _ x (by simpa using hr), set_getD_self] at h
      cases n with
      | zero =>
        have hc : c = buffer_type.mk a s (.uint T tp) := (outcome.bad_alloc.inj h).symm
        subst hc
        exact ⟨rfl, rfl, rfl, rfl, fun _ => rfl⟩
      | succ n =>
        simp only [buffer_type.set] at h
        rw [promote_spec a s T tp hall] at h
        cases T
        · simp only [reduceCtorEq, if_false] at h
          obtain ⟨h1, h2, h3, h4, _⟩ := ih n .uint16_t tp a s i x c
            (fun t ht => by have := hall t ht; rw [max_uint8] at this; rw [max_uint16]; omega) h
          exact ⟨h1, h2, h3, by rw [h4]; simp only [type_index]; omega, fun h0 => by cases h0⟩
        · simp only [reduceCtorEq, if_false, if_true] at h
          obtain ⟨h1, h2, h3, h4, _⟩ := ih n .uint32_t tp a s i x c
            (fun t ht => by have := hall t ht; rw [max_uint16] at this; rw [max_uint32]; omega) h
          exact ⟨h1, h2, h3, by rw [h4]; simp only [type_index]; omega, fun h0 => by cases h0⟩
        · simp only [reduceCtorEq, if_false, if_true] at h
          obtain ⟨h1, h2, h3, h4, _⟩ := ih n .uint64_t tp a s i x c
            (fun t ht => by have := hall t ht; rw [max_uint32] at this; rw [max_uint64]; omega) h
          exact ⟨h1, h2, h3, by rw [h4]; simp only [type_index]; omega, fun h0 => by cases h0⟩
        · simp only [if_true] at h
          cases k with
          | zero => cases h
          | succ k => simp [adder.if_U_is_integral_true_fallible] at h

/-- What a failing `adder` on an allocated buffer leaves behind. -/
theorem operator_T_fallible_bad_alloc (n : Nat) (b c : buffer_type) (i : Nat) (x : addend)
    (hwf : b.wf) (h : adder.operator_T_fallible n b i x = .bad_alloc c) :
    c.size = b.size ∧ c.alloc = b.alloc ∧ c.values = b.values ∧
    type_index c.type = type_index b.type + n ∧ (n = 0 → c = b) := by
  obtain ⟨a, s, p⟩ := b
  have hfalse : ∀ q : pointer,
      adder.if_U_is_integral_false_fallible n (buffer_type.mk a s q) i x = .bad_alloc c →
      c = buffer_type.mk a s q ∧ n = 0 := by
    intro q hq
    cases n with
    | zero => exact ⟨(outcome.bad_alloc.inj hq).symm, rfl⟩
    | succ n => cases hq
  cases p with
  | double tp => cases h
  | void =>
    cases x with
    | integer u => simp [adder.operator_T_fallible, adder.if_U_is_integral_true_fallible] at h
    | floating f =>
      obtain ⟨hc, hn⟩ := hfalse .void h
      subst hc
      subst hn
      exact ⟨rfl, rfl, rfl, rfl, fun _ => rfl⟩
  | uint T tp =>
    cases x with
    | integer u =>
      exact if_U_is_integral_true_fallible_bad_alloc 5 n T tp a s i u c hwf.2 h
    | floating f =>
      obtain ⟨hc, hn⟩ := hfalse (.uint T tp) h
      subst hc
      subst hn
      exact ⟨rfl, rfl, rfl, rfl, fun _ => rfl⟩
  | mp_int tp =>
    cases x with
    | integer u => simp [adder.operator_T_fallible, adder.if_U_is_integral_true_fallible] at h
    | floating f =>
      obtain ⟨hc, hn⟩ := hfalse (.mp_int tp) h
      subst hc
      subst hn
      exact ⟨rfl, rfl, rfl, rfl, fun _ => rfl⟩

/-- What a failing `adder` leaves behind. -/
theorem adder_fallible_bad_alloc (n : Nat) (b c : buffer_type) (i : Nat) (x : addend)
    (hwf : b.wf) (h : adder.fallible n b i x = .bad_alloc c) :
    c.size = b.size ∧ c.alloc = b.alloc ∧ c.values = b.values ∧
    type_index c.type = type_index b.type + n ∧ (n = 0 → c = b) := by
  obtain ⟨a, s, p⟩ := b
  cases p with
  | void =>
    cases n with
    | zero =>
      have hc : c = buffer_type.mk a s .void := (outcome.bad_alloc.inj h).symm
      subst hc
      exact ⟨rfl, rfl, rfl, rfl, fun _ => rfl⟩
    | succ n =>
      have hwf1 : (buffer_type.mk a s (.uint .uint8_t (List.replicate s 0))).wf :=
        ⟨List.length_replicate s 0, fun t ht => by
          rw [List.eq_of_mem_replicate ht]; exact Nat.zero_le _⟩
      obtain ⟨h1, h2, h3, h4, _⟩ := operator_T_fallible_bad_alloc n _ c i x hwf1 h
      refine ⟨h1, h2, ?_, ?_, fun h0 => by cases h0⟩
      · rw [h3]
        simp [buffer_type.values]
      · rw [h4]
        simp only [buffer_type.type, pointer.type, type_index]
        omega
  | uint T tp => exact operator_T_fallible_bad_alloc n _ c i x hwf h
  | mp_int tp => exact operator_T_fallible_bad_alloc n _ c i x hwf h
  | double tp => exact operator_T_fallible_bad_alloc n _ c i x hwf h

theorem C22_later_promotion_failure_changes_type_counterexample :
    ¬ (∀ (n : Nat) (b c : buffer_type) (i : Nat) (x : addend), b.wf →
      adder.fallible n b i x = .bad_alloc c →
      c.type = b.type ∧ c.size = b.size ∧ c.values = b.values) := by
  intro h
  have h1 := h 1 (buffer_type.mk 0 1 (.uint .uint8_t [7])) (buffer_type.mk 0 1 (.uint .uint16_t [7]))
    0 (.integer (.integral 70000)) (by decide) rfl
  exact absurd h1.1 (by decide)

/-- C22 (amended): when an allocation fails during `add(i, x)`, for every integer or
floating addend and every type of the storage, `std::bad_alloc` propagates and the number
of cells, the allocator and the logical value of every cell are those before the call. When
it is the first allocation of the call that fails the storage is exactly in its state
before the call; when the allocation of a later step fails, after `n > 0` allocations that
succeeded, the storage keeps the type installed by the steps already completed, which is
`n` positions after its old type in the list `types` and so strictly later than it. -/
theorem C22_failed_add_keeps_cells (n : Nat) (b c : buffer_type) (i : Nat) (x : addend)
    (hwf : b.wf) (h : adder.fallible n b i x = .bad_alloc c) :
    c.size = b.size ∧ c.alloc = b.alloc ∧ c.values = b.values ∧
    (∀ j, c.value j = b.value j) ∧
    type_index b.type ≤ type_index c.type ∧ (n = 0 → c = b) ∧
    type_index c.type = type_index b.type + n ∧
    (0 < n → type_index b.type < type_index c.type ∧ c.type ≠ b.type) := by
  obtain ⟨h1, h2, h3, h4, h5⟩ := adder_fallible_bad_alloc n b c i x hwf h
  refine ⟨h1, h2, h3, fun j => by simp only [buffer_type.value, h3], by omega, h5, h4,
    fun hn => ⟨by omega, fun hc => ?_⟩⟩
  rw [hc] at h4
  omega

theorem C22_failed_add_keeps_cells_witness :
    (buffer_type.mk 0 2 (.uint .uint16_t [7, 9])).size
        = (buffer_type.mk 0 2 (.uint .uint8_t [7, 9])).size ∧
      (buffer_type.mk 0 2 (.uint .uint16_t [7, 9])).alloc
        = (buffer_type.mk 0 2 (.uint .uint8_t [7, 9])).alloc ∧
      (buffer_type.mk 0 2 (.uint .uint16_t [7, 9])).values
        = (buffer_type.mk 0 2 (.uint .uint8_t [7, 9])).values ∧
      (∀ j, (buffer_type.mk 0 2 (.uint .uint16_t [7, 9])).value j
        = (buffer_type.mk 0 2 (.uint .uint8_t [7, 9])).value j) ∧
      type_index (buffer_type.mk 0 2 (.uint .uint8_t [7, 9])).type
        ≤ type_index (buffer_type.mk 0 2 (.uint .uint16_t [7, 9])).type ∧
      (1 = 0 → buffer_type.mk 0 2 (.uint .uint16_t [7, 9])
        = buffer_type.mk 0 2 (.uint .uint8_t [7, 9])) ∧
      type_index (buffer_type.mk 0 2 (.uint .uint16_t [7, 9])).type
        = type_index (buffer_type.mk 0 2 (.uint .uint8_t [7, 9])).type + 1 ∧
      (0 < 1 → type_index (buffer_type.mk 0 2 (.uint .uint8_t [7, 9])).type
          < type_index (buffer_type.mk 0 2 (.uint .uint16_t [7, 9])).type ∧
        (buffer_type.mk 0 2 (.uint .uint16_t [7, 9])).type
          ≠ (buffer_type.mk 0 2 (.uint .uint8_t [7, 9])).type) :=
  C22_failed_add_keeps_cells 1 (buffer_type.mk 0 2 (.uint .uint8_t [7, 9]))
    (buffer_type.mk 0 2 (.uint .uint16_t [7, 9])) 0 (.integer (.integral 70000))
    (by decide) rfl

/-- C23 (failing input): on a U8 storage with one cell of value 7 and an allocator that
fails on the next allocation, `set(0, 300)` ends with `std::bad_alloc` and leaves a U8
storage whose cell 0 holds 0: `tp[i] = 0` is written before `adder` tries to promote. -/
theorem C23_failed_set_loses_cell :
    setter.fallible 0 (buffer_type.mk 0 1 (.uint .uint8_t [7])) 0 (.integer (.integral 300))
      = .bad_alloc (buffer_type.mk 0 1 (.uint .uint8_t [0])) ∧
    (buffer_type.mk 0 1 (.uint .uint8_t [7])).value 0 = 7 ∧
    (setter.fallible 0 (buffer_type.mk 0 1 (.uint .uint8_t [7])) 0
      (.integer (.integral 300))).buffer.value 0 = 0 ∧
    (setter.fallible 0 (buffer_type.mk 0 1 (.uint .uint8_t [7])) 0
      (.integer (.integral 300))).buffer.type = .uint .uint8_t :=
  ⟨rfl, by decide, by decide, by decide⟩

/-- With as many allocations left as there are promotion steps, the fallible chain of
`adder` returns what `adder.if_U_is_integral_true` does. -/
theorem if_U_is_integral_true_fallible_enough (k : Nat) : ∀ (n : Nat) (b : buffer_type)
    (i : Nat) (x : integer_addend), k ≤ n →
    adder.if_U_is_integral_true_fallible k n b i x
      = .returned (adder.if_U_is_integral_true k b i x) := by
  induction k with
  | zero => intro n b i x _; rfl
  | succ k ih =>
    intro n b i x hk
    obtain ⟨m, rfl⟩ : ∃ m, n = m + 1 := ⟨n - 1, by omega⟩
    obtain ⟨a, s, p⟩ := b
    cases p with
    | void => rfl
    | mp_int tp => rfl
    | double tp => rfl
    | uint T tp =>
      simp only [adder.if_U_is_integral_true_fallible, adder.if_U_is_integral_true]
      split
      · rfl
      · exact ih m _ i x (by omega)

/-- With six allocations left, the fallible `adder` returns what `adder` does. -/
theorem adder_fallible_enough (n : Nat) (b : buffer_type) (i : Nat) (x : addend)
    (hn : 6 ≤ n) : adder.fallible n b i x = .returned (adder b i x) := by
  obtain ⟨m, rfl⟩ : ∃ m, n = m + 1 := ⟨n - 1, by omega⟩
  obtain ⟨m', rfl⟩ : ∃ m', m = m' + 1 := ⟨m - 1, by omega⟩
  have key : ∀ c : buffer_type, ∀ k, 5 ≤ k →
      adder.operator_T_fallible k c i x = .returned (adder.operator_T c i x) := by
    intro c k hk
    obtain ⟨k', rfl⟩ : ∃ k', k = k' + 1 := ⟨k - 1, by omega⟩
    obtain ⟨a, s, p⟩ := c
    cases x with
    | integer u =>
      cases p with
      | double tp => rfl
      | void =>
        simp only [adder.operator_T_fallible, adder.operator_T]
        exact if_U_is_integral_true_fallible_enough 5 _ _ i u hk
      | uint T tp =>
        simp only [adder.operator_T_fallible, adder.operator_T]
        exact if_U_is_integral_true_fallible_enough 5 _ _ i u hk
      | mp_int tp =>
        simp only [adder.operator_T_fallible, adder.operator_T]
        exact if_U_is_integral_true_fallible_enough 5 _ _ i u hk
    | floating f => cases p <;> rfl
  obtain ⟨a, s, p⟩ := b
  cases p with
  | void =>
    simp only [adder.fallible, adder]
    exact key _ (m' + 1) (by omega)
  | uint T tp =>
    simp only [adder.fallible, adder]
    exact key _ _ (by omega)
  | mp_int tp =>
    simp only [adder.fallible, adder]
    exact key _ _ (by omega)
  | double tp =>
    simp only [adder.fallible, adder]
    exact key _ _ (by omega)

/-! ## Comparison with a foreign sequence -/

theorem C24_size_mismatch_is_not_an_error_counterexample :
    ¬ (∀ (b : buffer_type) (o : List cell), b.size ≠ o.length →
      operator_eq_extern b o = .error .size_mismatch) := by
  intro h
  have h1 := h (buffer_type.mk 0 2 (.uint .uint8_t [1, 2])) [.uint 1] (by decide)
  simp [ operator_eq_extern] at h1

/-- C24 (amended): comparing a storage for equality against a foreign cell sequence whose
length differs from the number of cells of the storage returns `false`; no error is
reported. -/
theorem C24_size_mismatch_compares_unequal (b : buffer_type) (o : List cell)
    (h : b.size ≠ o.length) : operator_eq_extern b o = .ok false := by
  simp [ operator_eq_extern, h]

theorem C24_size_mismatch_compares_unequal_witness :
    operator_eq_extern (buffer_type.mk 0 2 (.uint .uint8_t [1, 2])) [.uint 1] = .ok false :=
  C24_size_mismatch_compares_unequal (buffer_type.mk 0 2 (.uint .uint8_t [1, 2])) [.uint 1]
    (by decide)

/-! ## Scalar multiply: the cells -/

theorem getD_map_of_lt {α β : Type} (f : α → β) (l : List α) (i : Nat) (d : α) (e : β)
    (h : i < l.length) : (l.map f).getD i e = f (l.getD i d) := by
  rw [List.getD_eq_getElem _ _ (by simpa using h), List.getD_eq_getElem _ _ h,
    List.getElem_map]

/-- C26: after `a *= s` every cell of a storage of type U8, U16, U32, U64, BigInt or F64
reads its old value converted to `double`, multiplied by `s`; the cells of an Empty storage
read `0.0` afterwards. -/
theorem C26_multiply_scales_cells (b : buffer_type) (x : Float) (i : Nat) (hwf : b.wf)
    (hi : i < b.size) :
    getter (multiplier b x) i = if b.type = .void then 0.0 else getter b i * x := by
  obtain ⟨a, s, p⟩ := b
  have hi : i < s := hi
  cases p with
  | void => rfl
  | uint T tp =>
    have hlen : tp.length = s := hwf.1
    show ((tp.map Float.ofNat).map (· * x)).getD i 0 = Float.ofNat (tp.getD i 0) * x
    rw [List.map_map]
    exact getD_map_of_lt _ tp i 0 0 (by omega)
  | mp_int tp =>
    have hlen : tp.length = s := hwf
    show ((tp.map Float.ofInt).map (· * x)).getD i 0 = Float.ofInt (tp.getD i 0) * x
    rw [List.map_map]
    exact getD_map_of_lt _ tp i 0 0 (by omega)
  | double tp =>
    have hlen : tp.length = s := hwf
    show (tp.map (· * x)).getD i 0 = tp.getD i 0 * x
    exact getD_map_of_lt _ tp i 0 0 (by omega)

theorem C26_multiply_scales_cells_witness :
    getter (multiplier (buffer_type.mk 0 2 (.uint .uint8_t [3, 5])) 2.0) 1
      = (if (buffer_type.mk 0 2 (.uint .uint8_t [3, 5])).type = .void then 0.0
        else getter (buffer_type.mk 0 2 (.uint .uint8_t [3, 5])) 1 * 2.0) ∧
    (multiplier (buffer_type.mk 0 2 (.uint .uint8_t [3, 5])) 2.0).ptr
      = .double [Float.ofNat 3 * 2.0, Float.ofNat 5 * 2.0] ∧
    (∀ i, getter (multiplier (reset (init 0) 2) 2.0) i = 0.0) :=
  ⟨C26_multiply_scales_cells (buffer_type.mk 0 2 (.uint .uint8_t [3, 5])) 2.0 1 (by decide)
      (by decide), rfl, fun _ => rfl⟩

/-! ## Checked addition -/

/-- C28: for every unsigned cell type `T`, every cell value `t` of `T` and every
non-negative addend `u` of a fixed-width integer type of `bits` bits, signed or unsigned,
`safe_radd(t, u)` returns `true` iff `t + u <= max(T)` in exact arithmetic; when it returns
`true`, `t` becomes exactly `t + u`, and when it returns `false`, `t` is unchanged. The
overload for a multiprecision addend behaves in the same way. -/
theorem C28_safe_radd_is_exact (T : uint_t) (t bits : Nat) (u : Int)
    (ht : t ≤ numeric_limits_max T) (hu0 : 0 ≤ u) (hu : u < 2 ^ bits) :
    ((safe_radd_fixed T t bits u).1 = true ↔ (t : Int) + u ≤ (numeric_limits_max T : Nat)) ∧
    ((safe_radd_fixed T t bits u).1 = true → ((safe_radd_fixed T t bits u).2 : Int) = t + u) ∧
    ((safe_radd_fixed T t bits u).1 = false → (safe_radd_fixed T t bits u).2 = t) ∧
    safe_radd_fixed T t bits u = safe_radd T t (.integral u.toNat) ∧
    safe_radd_fixed T t bits u = safe_radd T t (.mp_int u) := by
  have hV : (u % 2 ^ bits).toNat = u.toNat := by rw [Int.emod_eq_of_lt hu0 hu]
  have hsub : static_cast T (numeric_limits_max T - t) = numeric_limits_max T - t :=
    static_cast_of_le T _ (Nat.sub_le _ _)
  have h2 : ((2 : Int) ^ T.digits) = ((numeric_limits_max T + 1 : Nat) : Int) := by
    rw [← two_pow_digits T]; push_cast; rfl
  have htn : ((u.toNat : Nat) : Int) = u := Int.toNat_of_nonneg hu0
  have heq : safe_radd_fixed T t bits u =
      if (t : Int) + u ≤ (numeric_limits_max T : Nat) then (true, t + u.toNat)
      else (false, t) := by
    simp only [safe_radd_fixed, hV, hsub]
    by_cases hfit : (t : Int) + u ≤ (numeric_limits_max T : Nat)
    · have h3 : u % 2 ^ T.digits = u := by
        apply Int.emod_eq_of_lt hu0
        rw [h2]; omega
      rw [if_neg (by omega), if_pos hfit, h3, static_cast_of_le T _ (by omega)]
    · rw [if_pos (by omega), if_neg hfit]
  have hi := safe_radd_eq T t (.integral u.toNat) ht (by
    simp only [integer_addend.value, Int.ofNat_eq_coe]; omega)
  have hm := safe_radd_eq T t (.mp_int u) ht hu0
  simp only [integer_addend.value, Int.ofNat_eq_coe, htn, Int.toNat_ofNat] at hi hm
  refine ⟨?_, ?_, ?_, by rw [heq, hi], by rw [heq, hm]⟩
  · rw [heq]; split <;> simp [*]
  · rw [heq]; split
    · intro _; push_cast; omega
    · intro h; cases h
  · rw [heq]; split
    · intro h; cases h
    · intro _; rfl

theorem C28_safe_radd_is_exact_witness :
    (((safe_radd_fixed .uint8_t 200 32 55).1 = true
        ↔ ((200 : Nat) : Int) + 55 ≤ (numeric_limits_max .uint8_t : Nat)) ∧
      ((safe_radd_fixed .uint8_t 200 32 55).1 = true →
        ((safe_radd_fixed .uint8_t 200 32 55).2 : Int) = (200 : Nat) + 55) ∧
      ((safe_radd_fixed .uint8_t 200 32 55).1 = false →
        (safe_radd_fixed .uint8_t 200 32 55).2 = 200) ∧
      safe_radd_fixed .uint8_t 200 32 55 = safe_radd .uint8_t 200 (.integral (55 : Int).toNat) ∧
      safe_radd_fixed .uint8_t 200 32 55 = safe_radd .uint8_t 200 (.mp_int 55)) ∧
    safe_radd_fixed .uint8_t 200 32 55 = (true, 255) ∧
    safe_radd_fixed .uint8_t 200 32 56 = (false, 200) :=
  ⟨C28_safe_radd_is_exact .uint8_t 200 32 55 (by decide) (by decide) (by decide),
    by decide, by decide⟩

/-! ## Non-negative cells -/

theorem forall_mem_of_getD (l : List Int) (h : ∀ j, j < l.length → 0 ≤ l.getD j 0) :
    ∀ u ∈ l, 0 ≤ u := by
  intro u hu
  obtain ⟨j, hj, rfl⟩ := List.getElem_of_mem hu
  have := h j hj
  rwa [List.getD_eq_getElem _ _ hj] at this

/-- The invariant of the reached storages: a well-formed buffer of integer type whose
logical cell values are not negative. -/
theorem reachable_invariant (b : buffer_type) (h : reachable b) :
    b.wf ∧ b.type ≠ .double ∧ ∀ u ∈ b.values, 0 ≤ u := by
  induction h with
  | reset b n =>
    exact ⟨reset_wf b n, (fun h => by cases h), fun u hu => by rw [List.eq_of_mem_replicate hu]⟩
  | increment b i _ hi ih =>
    obtain ⟨hwf, hd, hnn⟩ := ih
    obtain ⟨h1, _, _, h4, h5⟩ := incrementor_spec b i hwf hd
    refine ⟨h1, (first_in_range_ne_double _ _ _ h5).1, ?_⟩
    rw [h4]
    exact forall_mem_set _ _ _ _ hnn (by have := getD_nonneg _ i hnn; unfold buffer_type.value; omega)
  | add b i x _ hi hx ih =>
    obtain ⟨hwf, hd, hnn⟩ := ih
    obtain ⟨h1, _, _, h4, h5⟩ := adder_integer_spec b i x hwf hd hx
    refine ⟨h1, (first_in_range_ne_double _ _ _ h5).1, ?_⟩
    rw [h4]
    exact forall_mem_set _ _ _ _ hnn (by have := getD_nonneg _ i hnn; unfold buffer_type.value; omega)
  | assign b i x _ hi hx ih =>
    obtain ⟨hwf, hd, hnn⟩ := ih
    obtain ⟨h1, _, _, h4, h5⟩ := setter_integer_spec b i x hwf hd hi hx
    refine ⟨h1, (first_in_range_ne_double _ _ _ h5).1, ?_⟩
    rw [h4]
    exact forall_mem_set _ _ _ _ hnn hx
  | bulk_add b o _ _ hs ihb iho =>
    obtain ⟨hwf, hd, hnn⟩ := ihb
    obtain ⟨_, hdo, hnno⟩ := iho
    obtain ⟨h1, h2, h3, h4, _⟩ := buffer_adder_prefix o b hwf hd hdo hnno b.size (Nat.le_refl _)
    refine ⟨h1, h3, forall_mem_of_getD _ fun j hj => ?_⟩
    have hv := h4 j
    unfold buffer_type.value at hv
    have h5 := getD_nonneg _ j hnn
    have h6 := getD_nonneg _ j hnno
    show 0 ≤ (buffer_adder o b).values.getD j 0
    unfold buffer_adder
    rw [hv]
    split <;> omega
  | bulk_add_self b _ ih =>
    obtain ⟨hwf, hd, hnn⟩ := ih
    obtain ⟨h1, h2, h3, h4, _⟩ := buffer_adder_prefix b b hwf hd hd hnn b.size (Nat.le_refl _)
    rw [add_assign_self_eq b hwf]
    refine ⟨h1, h3, forall_mem_of_getD _ fun j hj => ?_⟩
    have hv := h4 j
    unfold buffer_type.value at hv
    have h5 := getD_nonneg _ j hnn
    show 0 ≤ (buffer_adder b b).values.getD j 0
    unfold buffer_adder
    rw [hv]
    split <;> omega

/-- C29: in every storage reached from `reset(n)` by increments, by adds and sets with
non-negative integer operands and by bulk adds of storages so reached, a buffer of type
BigInt holds cells that are all greater than or equal to zero. -/
theorem C29_mp_int_cells_nonneg (b : buffer_type) (h : reachable b) (hT : b.type = .mp_int) :
    ∃ tp : List Int, b.ptr = .mp_int tp ∧ (∀ u ∈ tp, 0 ≤ u) ∧ ∀ j, 0 ≤ b.value j := by
  obtain ⟨_, _, hnn⟩ := reachable_invariant b h
  obtain ⟨a, s, p⟩ := b
  cases p with
  | mp_int tp => exact ⟨tp, rfl, hnn, fun j => getD_nonneg _ j hnn⟩
  | void => cases hT
  | uint T tp => cases hT
  | double tp => cases hT

theorem C29_mp_int_cells_nonneg_witness :
    (adder (reset (init 0) 1) 0 (.integer (.mp_int (2 ^ 64)))).type = .mp_int ∧
    ∃ tp : List Int,
      (adder (reset (init 0) 1) 0 (.integer (.mp_int (2 ^ 64)))).ptr = .mp_int tp ∧
      (∀ u ∈ tp, 0 ≤ u) ∧
      ∀ j, 0 ≤ (adder (reset (init 0) 1) 0 (.integer (.mp_int (2 ^ 64)))).value j :=
  ⟨by decide,
    C29_mp_int_cells_nonneg (adder (reset (init 0) 1) 0 (.integer (.mp_int (2 ^ 64))))
      (reachable.add _ 0 (.mp_int (2 ^ 64)) (reachable.reset (init 0) 1) (by decide) (by decide))
      (by decide)⟩

/-! ## Move assignment -/

/-- C30: move assignment between two distinct storages exchanges their buffers: the
destination has the number of cells, the type, the cells and the allocator that the source
had, and the source has those that the destination had, so that the source is Empty without
cells only if the destination was; self move assignment leaves the storage unchanged. -/
theorem C30_move_assign_swaps (dst src : buffer_type) :
    (move_assign dst src).1 = src ∧
    (move_assign dst src).2 = dst ∧
    ((move_assign dst src).1.size = src.size ∧ (move_assign dst src).1.type = src.type ∧
      (move_assign dst src).1.ptr = src.ptr ∧ (move_assign dst src).1.alloc = src.alloc) ∧
    ((move_assign dst src).2.size = dst.size ∧ (move_assign dst src).2.type = dst.type ∧
      (move_assign dst src).2.ptr = dst.ptr ∧ (move_assign dst src).2.alloc = dst.alloc) ∧
    (((move_assign dst src).2.size = 0 ∧ (move_assign dst src).2.type = .void)
      ↔ (dst.size = 0 ∧ dst.type = .void)) ∧
    move_assign_self dst = dst :=
  ⟨rfl, rfl, ⟨rfl, rfl, rfl, rfl⟩, ⟨rfl, rfl, rfl, rfl⟩, Iff.rfl, rfl⟩

end adaptive_storage

/-! ## Size mismatch in `nstore::operator+=` -/

namespace detail

/-- C25: `nstore::operator+=` with an operand whose size differs from the size of the
receiver throws `std::logic_error` before it touches any state: at the throw the receiver
has the size, the depth, the buffer and every cell value that it had before the call. -/
theorem C25_size_mismatch_throws_logic_error (w : wtype) (self o : nstore)
    (h : self.size_ ≠ o.size_) :
    self.operator_add_assign w o = .logic_error self ∧
    ∀ s, self.operator_add_assign w o = .logic_error s →
      s.size_ = self.size_ ∧ s.depth_ = self.depth_ ∧ s.buffer_ = self.buffer_ ∧
      ∀ i, s.ivalue i = self.ivalue i := by
  have h1 : self.operator_add_assign w o = .logic_error self := by
    unfold nstore.operator_add_assign
    rw [if_pos h]
  refine ⟨h1, fun s hs => ?_⟩
  rw [h1] at hs
  cases hs
  exact ⟨rfl, rfl, rfl, fun _ => rfl⟩

theorem C25_size_mismatch_throws_logic_error_witness :
    (nstore.mk 2 1 (some [200, 3])).size_ ≠ (nstore.mk 3 2 (some [100, 1, 4, 0, 0, 0])).size_ ∧
    (nstore.mk 2 1 (some [200, 3])).operator_add_assign wtype.counts
        (nstore.mk 3 2 (some [100, 1, 4, 0, 0, 0]))
      = .logic_error (nstore.mk 2 1 (some [200, 3])) :=
  ⟨by decide,
    (C25_size_mismatch_throws_logic_error wtype.counts (nstore.mk 2 1 (some [200, 3]))
      (nstore.mk 3 2 (some [100, 1, 4, 0, 0, 0])) (by decide)).1⟩

end detail

/-! ## Bytes and cells of `nstore` -/

namespace detail

open adaptive_storage (uint_t numeric_limits_max static_cast)

theorem to_bytes_length (n : Nat) : ∀ v, (to_bytes n v).length = n := by
  induction n with
  | zero => intro v; rfl
  | succ n ih => intro v; simp [to_bytes, ih]

theorem to_bytes_lt (n : Nat) : ∀ v, ∀ b ∈ to_bytes n v, b < 256 := by
  induction n with
  | zero => intro v b hb; simp [to_bytes] at hb
  | succ n ih =>
    intro v b hb
    simp only [to_bytes, List.mem_cons] at hb
    rcases hb with rfl | hb
    · exact Nat.mod_lt _ (by decide)
    · exact ih _ b hb

theorem of_bytes_lt : ∀ bs : List Nat, of_bytes bs < 256 ^ bs.length := by
  intro bs
  induction bs with
  | nil => simp [of_bytes]
  | cons b bs ih =>
    simp only [of_bytes, List.length_cons, pow_succ]
    have := Nat.mod_lt b (show 0 < 256 by decide)
    omega

theorem of_bytes_to_bytes (n : Nat) : ∀ v, v < 256 ^ n → of_bytes (to_bytes n v) = v := by
  induction n with
  | zero => intro v hv; simp at hv; simp [to_bytes, of_bytes, hv]
  | succ n ih =>
    intro v hv
    have hq : v / 256 < 256 ^ n := by
      rw [pow_succ] at hv
      exact Nat.div_lt_of_lt_mul (by omega)
    simp only [to_bytes, of_bytes, ih _ hq, Nat.mod_mod]
    omega

/-- Two lists of bytes of the same length that represent the same integer are equal. -/
theorem of_bytes_injective : ∀ (a b : List Nat), a.length = b.length →
    (∀ x ∈ a, x < 256) → (∀ x ∈ b, x < 256) → of_bytes a = of_bytes b → a = b := by
  intro a
  induction a with
  | nil => intro b hl _ _ _; cases b with
    | nil => rfl
    | cons _ _ => simp at hl
  | cons x a ih =>
    intro b hl ha hb h
    cases b with
    | nil => simp at hl
    | cons y b =>
      have hx := ha x (by simp)
      have hy := hb y (by simp)
      simp only [of_bytes, Nat.mod_eq_of_lt hx, Nat.mod_eq_of_lt hy] at h
      have h1 : x = y := by omega
      have h2 : of_bytes a = of_bytes b := by omega
      rw [h1, ih b (by simpa using hl) (fun z hz => ha z (by simp [hz]))
        (fun z hz => hb z (by simp [hz])) h2]

theorem pow_sizeof (T : uint_t) : 256 ^ sizeof T = numeric_limits_max T + 1 := by
  cases T <;> decide

/-! ### Slices -/

theorem slice_length (m : List Nat) (off n : Nat) (h : off + n ≤ m.length) :
    ((m.drop off).take n).length = n := by
  simp; omega

/-- A slice that ends before `p` is not changed by a write at `p` or beyond. -/
theorem slice_before (m c r : List Nat) (p off n : Nat) (hp : p ≤ m.length)
    (h : off + n ≤ p) :
    (((m.take p ++ c ++ r).drop off).take n) = (m.drop off).take n := by
  have h1 : off ≤ (m.take p).length := by simp; omega
  rw [List.append_assoc, List.drop_append_of_le_length h1,
    List.take_append_of_le_length (by simp; omega), List.drop_take]
  rw [List.take_take]
  congr 1
  omega

/-- The bytes from `p` on after a write of `c` at `p`. -/
theorem drop_write (m c : List Nat) (p : Nat) (hp : p ≤ m.length) (r : List Nat) :
    (m.take p ++ c ++ r).drop p = c ++ r := by
  rw [List.append_assoc]
  have h : (m.take p).length = p := by simp; omega
  rw [List.drop_append_eq_append_drop, h, Nat.sub_self, List.drop_zero,
    List.drop_eq_nil_of_le (by omega), List.nil_append]

/-- A slice that starts after a write keeps its bytes. -/
theorem slice_after (m c : List Nat) (p off n : Nat) (hp : p + c.length ≤ m.length)
    (h : p + c.length ≤ off) :
    (((m.take p ++ c ++ m.drop (p + c.length)).drop off).take n) = (m.drop off).take n := by
  have hl : (m.take p ++ c).length = p + c.length := by simp; omega
  have h1 : (m.take p ++ c ++ m.drop (p + c.length)).drop off
      = (m.drop (p + c.length)).drop (off - (p + c.length)) := by
    rw [List.drop_append_eq_append_drop, hl]
    rw [List.drop_eq_nil_of_le (by omega)]
    rfl
  rw [h1, List.drop_drop]
  congr 2
  omega

theorem succ_mul_le (i k d : Nat) (h : i < k) : i * d + d ≤ k * d := by
  have := Nat.mul_le_mul_right d (Nat.succ_le_of_lt h)
  rw [Nat.succ_mul] at this
  exact this

/-- The loop of `grow` and `wconvert`: started with `k` on a buffer that has room for `k`
wide cells, it returns, every cell below `k` holds the conversion of the narrow cell that
the buffer held at that index, and the bytes from `k * d1` on are not written. -/
theorem widen_spec (d0 d1 : Nat) (conv : Nat → List Nat) (hd : d0 ≤ d1)
    (hc : ∀ v, (conv v).length = d1) :
    ∀ (k : Nat) (m : List Nat), k * d1 ≤ m.length →
    ∃ m', widen d0 d1 conv k m = .returned m' ∧ m'.length = m.length ∧
      (∀ i, i < k →
        (m'.drop (i * d1)).take d1 = conv (of_bytes ((m.drop (i * d0)).take d0))) ∧
      m'.drop (k * d1) = m.drop (k * d1) ∧
      ((∀ b ∈ m, b < 256) → (∀ v, ∀ b ∈ conv v, b < 256) → ∀ b ∈ m', b < 256) := by
  intro k
  induction k with
  | zero =>
    intro m _
    exact ⟨m, rfl, rfl, fun i hi => absurd hi (Nat.not_lt_zero i), rfl, fun h _ => h⟩
  | succ k ih =>
    intro m hm
    have hk1 : (k + 1) * d1 = k * d1 + d1 := Nat.succ_mul k d1
    have hk0 : k * d0 ≤ k * d1 := Nat.mul_le_mul_left k hd
    have hload : k * d0 + d0 ≤ m.length := by omega
    let c := conv (of_bytes ((m.drop (k * d0)).take d0))
    have hcl : c.length = d1 := hc _
    have hstore : k * d1 + c.length ≤ m.length := by omega
    let m1 := m.take (k * d1) ++ c ++ m.drop (k * d1 + c.length)
    have hm1 : m1.length = m.length := by
      simp only [m1, List.length_append, List.length_take, List.length_drop]; omega
    obtain ⟨m', h1, h2, h3, h4, h5⟩ := ih m1 (by omega)
    refine ⟨m', ?_, by omega, ?_, ?_, ?_⟩
    · simp only [widen, load, store, if_pos hload, outcome.bind, if_pos hstore]
      exact h1
    · intro i hi
      have hdrop : m'.drop (k * d1) = c ++ m.drop (k * d1 + c.length) := by
        rw [h4]
        exact drop_write m c (k * d1) (by omega) _
      rcases Nat.lt_succ_iff_lt_or_eq.mp hi with hlt | heq
      · rw [h3 i hlt]
        have := succ_mul_le i k d0 hlt
        rw [slice_before m c _ (k * d1) (i * d0) d0 (by omega) (by omega)]
      · subst heq
        rw [hdrop, List.take_append_of_le_length (by omega), List.take_of_length_le (by omega)]
    · have hdrop : m'.drop (k * d1) = c ++ m.drop (k * d1 + c.length) := by
        rw [h4]
        exact drop_write m c (k * d1) (by omega) _
      have : m'.drop ((k + 1) * d1) = (m'.drop (k * d1)).drop d1 := by
        rw [List.drop_drop, hk1, Nat.add_comm]
      rw [this, hdrop, List.drop_append_eq_append_drop, List.drop_of_length_le (by omega),
        hcl, Nat.sub_self, List.drop_zero, List.nil_append, hk1]
    · intro hb hcb
      apply h5 _ hcb
      intro b hb1
      simp only [m1, List.mem_append] at hb1
      rcases hb1 with (hb1 | hb1) | hb1
      · exact hb b (List.mem_of_mem_take hb1)
      · exact hcb _ b hb1
      · exact hb b (List.mem_of_mem_drop hb1)

theorem integral_sizeof (self : nstore) (T : uint_t) (h : self.depth_ = sizeof T) :
    self.integral := by
  unfold nstore.integral
  cases T
  · exact Or.inl h
  · exact Or.inr (Or.inl h)
  · exact Or.inr (Or.inr (Or.inl h))
  · exact Or.inr (Or.inr (Or.inr h))

theorem integral_iff (self : nstore) : self.integral ↔ ∃ T, self.depth_ = sizeof T := by
  constructor
  · rintro (h | h | h | h)
    exacts [⟨_, h⟩, ⟨_, h⟩, ⟨_, h⟩, ⟨_, h⟩]
  · rintro ⟨T, h⟩
    exact integral_sizeof self T h

/-- A store with cells has a buffer. -/
theorem wf_buffer (self : nstore) (hwf : self.wf) (hs : 0 < self.size_) :
    ∃ m, self.buffer_ = some m ∧ m.length = self.size_ * self.depth_ ∧ ∀ b ∈ m, b < 256 := by
  unfold nstore.wf at hwf
  cases hb : self.buffer_ with
  | none => rw [hb] at hwf; simp only at hwf; omega
  | some m => rw [hb] at hwf; exact ⟨m, rfl, hwf⟩

/-- The value `ivalue(i)` of a cell of a store of integer depth: the integer that the
bytes of the cell represent. -/
theorem ivalue_eq (self : nstore) (m : List Nat) (hb : self.buffer_ = some m)
    (hl : m.length = self.size_ * self.depth_) (hint : self.integral) (i : Nat)
    (hi : i < self.size_) :
    self.ivalue i
      = .returned (of_bytes ((m.drop (i * self.depth_)).take self.depth_)) := by
  have := succ_mul_le i self.size_ self.depth_ hi
  have hint2 : self.depth_ = sizeof .uint8_t ∨ self.depth_ = sizeof .uint16_t ∨
      self.depth_ = sizeof .uint32_t ∨ self.depth_ = sizeof .uint64_t := hint
  simp only [nstore.ivalue, if_pos hint2, hb, load, if_pos (show i * self.depth_ + self.depth_
    ≤ m.length by omega), outcome.bind]

/-- The widening of a store of `d0` bytes per cell to `d1` bytes per cell, as `grow`
performs it for the integer types: the store after it has the same cells. -/
theorem grow_core (self : nstore) (hwf : self.wf) (hs : 0 < self.size_) (T U : uint_t)
    (hT : self.depth_ = sizeof T) (hTU : sizeof T ≤ sizeof U) :
    ∃ s, (widen (sizeof T) (sizeof U) (to_bytes (sizeof U)) self.size_
        ((realloc self.buffer_ (self.size_ * sizeof U)).getD [])).bind
        (fun m => .returned { self with depth_ := sizeof U, buffer_ := some m })
        = outcome.returned s ∧
      s.size_ = self.size_ ∧ s.depth_ = sizeof U ∧ s.wf ∧
      ∀ i, i < self.size_ → s.ivalue i = self.ivalue i := by
  obtain ⟨m, hb, hl, hbytes⟩ := wf_buffer self hwf hs
  rw [hT] at hl
  have hle : self.size_ * sizeof T ≤ self.size_ * sizeof U := Nat.mul_le_mul_left _ hTU
  have hre : (realloc self.buffer_ (self.size_ * sizeof U)).getD []
      = m ++ List.replicate (self.size_ * sizeof U - m.length) 0 := by
    simp only [realloc, hb, Option.getD_some]
    rw [List.take_of_length_le (by omega)]
  rw [hre]
  have hlen0 : (m ++ List.replicate (self.size_ * sizeof U - m.length) 0).length
      = self.size_ * sizeof U := by
    simp only [List.length_append, List.length_replicate]; omega
  obtain ⟨m', h1, h2, h3, -, h5⟩ := widen_spec (sizeof T) (sizeof U) (to_bytes (sizeof U)) hTU
    (fun v => to_bytes_length _ v) self.size_ _ (Nat.le_of_eq hlen0.symm)
  refine ⟨{ self with depth_ := sizeof U, buffer_ := some m' }, ?_, rfl, rfl, ?_, ?_⟩
  · rw [h1]; rfl
  · show (match (some m') with
      | none => self.size_ = 0
      | some m => m.length = self.size_ * sizeof U ∧ ∀ b ∈ m, b < 256)
    refine ⟨by rw [h2, hlen0], h5 ?_ (fun v => to_bytes_lt _ v)⟩
    intro b hb1
    rcases List.mem_append.mp hb1 with hb1 | hb1
    · exact hbytes b hb1
    · rw [List.eq_of_mem_replicate hb1]; decide
  · intro i hi
    have hsl := succ_mul_le i self.size_ (sizeof T) hi
    rw [ivalue_eq self m hb (by rw [hT]; exact hl) (integral_sizeof self T hT) i hi,
      ivalue_eq { self with depth_ := sizeof U, buffer_ := some m' } m' rfl
        (by rw [h2, hlen0]) (integral_sizeof _ U rfl) i hi]
    show outcome.returned (of_bytes ((m'.drop (i * sizeof U)).take (sizeof U))) = _
    rw [h3 i hi, hT, List.drop_append_of_le_length (by omega),
      List.take_append_of_le_length (by simp; omega)]
    rw [of_bytes_to_bytes]
    have hlt := of_bytes_lt ((m.drop (i * sizeof T)).take (sizeof T))
    rw [slice_length m _ _ (by omega)] at hlt
    exact Nat.lt_of_lt_of_le hlt (Nat.pow_le_pow_right (by decide) hTU)

/-- The function `grow` on a store of depth 1, 2 or 4: the depth doubles and the cells are
kept. -/
theorem grow_spec (w : wtype) (self : nstore) (hwf : self.wf) (hs : 0 < self.size_)
    (T U : uint_t) (hT : self.depth_ = sizeof T) (hTU : sizeof U = 2 * sizeof T) :
    ∃ s, self.grow w = .returned s ∧ s.size_ = self.size_ ∧ s.depth_ = sizeof U ∧ s.wf ∧
      ∀ i, i < self.size_ → s.ivalue i = self.ivalue i := by
  have hne : ¬ self.size_ = 0 := by omega
  cases T <;> cases U <;> simp only [sizeof] at hTU <;> try omega
  · have h := grow_core self hwf hs .uint8_t .uint16_t hT (by decide)
    simp only [nstore.grow, if_neg hne, if_pos hT]
    exact h
  · have h := grow_core self hwf hs .uint16_t .uint32_t hT (by decide)
    have h1 : ¬ self.depth_ = sizeof .uint8_t := by rw [hT]; decide
    simp only [nstore.grow, if_neg hne, if_neg h1, if_pos hT]
    exact h
  · have h := grow_core self hwf hs .uint32_t .uint64_t hT (by decide)
    have h1 : ¬ self.depth_ = sizeof .uint8_t := by rw [hT]; decide
    have h2 : ¬ self.depth_ = sizeof .uint16_t := by rw [hT]; decide
    simp only [nstore.grow, if_neg hne, if_neg h1, if_neg h2, if_pos hT]
    exact h

theorem max_lt_two_pow_64 (T : uint_t) : numeric_limits_max T < 2 ^ 64 := by
  cases T <;> decide

/-- A write of the value `v` into the cell `i` of a store of integer depth: the cell holds
`v` afterwards and the other cells are kept. -/
theorem store_cell (self : nstore) (hwf : self.wf) (T : uint_t) (hT : self.depth_ = sizeof T)
    (i : Nat) (hi : i < self.size_) (v : Nat) (hv : v ≤ numeric_limits_max T) :
    ∃ m1, store self.buffer_ (i * sizeof T) (to_bytes (sizeof T) v) = .returned m1 ∧
      ({ self with buffer_ := some m1 } : nstore).wf ∧
      ({ self with buffer_ := some m1 } : nstore).ivalue i = .returned v ∧
      ∀ j, j < self.size_ → j ≠ i →
        ({ self with buffer_ := some m1 } : nstore).ivalue j = self.ivalue j := by
  obtain ⟨m, hb, hl, hbytes⟩ := wf_buffer self hwf (by omega)
  have hint := integral_sizeof self T hT
  have hsl := succ_mul_le i self.size_ (sizeof T) hi
  rw [hT] at hl
  have hcl : (to_bytes (sizeof T) v).length = sizeof T := to_bytes_length _ _
  have hst : i * sizeof T + (to_bytes (sizeof T) v).length ≤ m.length := by omega
  let m1 := m.take (i * sizeof T) ++ to_bytes (sizeof T) v
    ++ m.drop (i * sizeof T + (to_bytes (sizeof T) v).length)
  have hm1 : m1.length = self.size_ * sizeof T := by
    simp only [m1, List.length_append, List.length_take, List.length_drop]; omega
  have hl1 : m1.length = ({ self with buffer_ := some m1 } : nstore).size_
      * ({ self with buffer_ := some m1 } : nstore).depth_ := by
    show m1.length = self.size_ * self.depth_
    rw [hT]; exact hm1
  refine ⟨m1, ?_, ?_, ?_, ?_⟩
  · simp only [store, hb, if_pos hst]
  · show (match (some m1) with
      | none => self.size_ = 0
      | some m => m.length = self.size_ * self.depth_ ∧ ∀ b ∈ m, b < 256)
    refine ⟨hl1, ?_⟩
    intro b hb1
    simp only [m1, List.mem_append] at hb1
    rcases hb1 with (hb1 | hb1) | hb1
    · exact hbytes b (List.mem_of_mem_take hb1)
    · exact to_bytes_lt _ _ b hb1
    · exact hbytes b (List.mem_of_mem_drop hb1)
  · rw [ivalue_eq _ m1 rfl hl1 hint i hi]
    show outcome.returned (of_bytes ((m1.drop (i * self.depth_)).take self.depth_)) = _
    rw [hT, drop_write m _ (i * sizeof T) (by omega) _,
      List.take_append_of_le_length (by omega), List.take_of_length_le (by omega),
      of_bytes_to_bytes _ _ (by rw [pow_sizeof]; omega)]
  · intro j hj hji
    have hslj := succ_mul_le j self.size_ (sizeof T) hj
    rw [ivalue_eq _ m1 rfl hl1 hint j hj, ivalue_eq self m hb (by rw [hT]; exact hl) hint j hj]
    show outcome.returned (of_bytes ((m1.drop (j * self.depth_)).take self.depth_)) = _
    rw [hT]
    rcases Nat.lt_or_gt_of_ne hji with hlt | hgt
    · have := succ_mul_le j i (sizeof T) hlt
      rw [slice_before m _ _ (i * sizeof T) (j * sizeof T) (sizeof T) (by omega) (by omega)]
    · have := succ_mul_le i j (sizeof T) hgt
      rw [slice_after m _ (i * sizeof T) (j * sizeof T) (sizeof T) hst (by omega)]

/-- The cell value read at the head of a `case sizeof(T)` block. -/
theorem load_cell (self : nstore) (hwf : self.wf) (T : uint_t) (hT : self.depth_ = sizeof T)
    (i : Nat) (hi : i < self.size_) (cur : Nat) (hcur : self.ivalue i = .returned cur) :
    ∃ bs, load self.buffer_ (i * sizeof T) (sizeof T) = .returned bs ∧ of_bytes bs = cur := by
  obtain ⟨m, hb, hl, -⟩ := wf_buffer self hwf (by omega)
  rw [ivalue_eq self m hb hl (integral_sizeof self T hT) i hi] at hcur
  have hsl := succ_mul_le i self.size_ (sizeof T) hi
  rw [hT] at hl hcur
  refine ⟨(m.drop (i * sizeof T)).take (sizeof T), ?_, outcome.returned.inj hcur⟩
  simp only [load, hb, if_pos (show i * sizeof T + sizeof T ≤ m.length by omega)]

theorem ivalue_le_max (self : nstore) (hwf : self.wf) (T : uint_t)
    (hT : self.depth_ = sizeof T) (i : Nat) (hi : i < self.size_) (cur : Nat)
    (hcur : self.ivalue i = .returned cur) : cur ≤ numeric_limits_max T := by
  obtain ⟨m, hb, hl, -⟩ := wf_buffer self hwf (by omega)
  rw [ivalue_eq self m hb hl (integral_sizeof self T hT) i hi] at hcur
  have hsl := succ_mul_le i self.size_ (sizeof T) hi
  rw [hT] at hl hcur
  have h := of_bytes_lt ((m.drop (i * sizeof T)).take (sizeof T))
  rw [slice_length m _ _ (by omega), pow_sizeof, outcome.returned.inj hcur] at h
  omega

/-- The block `case sizeof(T)` of `operator+=` when the sum fits the cell: the sum is
stored and the depth stays. -/
theorem add_switch_fit (w : wtype) (oi i : Nat) (T : uint_t) (labels : List uint_t)
    (self : nstore) (hwf : self.wf) (hT : self.depth_ = sizeof T) (hi : i < self.size_)
    (cur : Nat) (hcur : self.ivalue i = .returned cur)
    (hfit : cur + oi ≤ numeric_limits_max T) :
    ∃ s, self.add_switch w oi i (T :: labels) = .returned s ∧ s.size_ = self.size_ ∧
      s.depth_ = self.depth_ ∧ s.wf ∧ s.ivalue i = .returned (cur + oi) ∧
      ∀ j, j < self.size_ → j ≠ i → s.ivalue j = self.ivalue j := by
  obtain ⟨bs, hload, hbs⟩ := load_cell self hwf T hT i hi cur hcur
  obtain ⟨m1, hst, h1, h2, h3⟩ := store_cell self hwf T hT i hi (cur + oi) hfit
  have hmax := max_lt_two_pow_64 T
  have hc : static_cast T (numeric_limits_max T - cur) = numeric_limits_max T - cur :=
    adaptive_storage.static_cast_of_le T _ (Nat.sub_le _ _)
  have hv : static_cast T ((cur + oi) % 2 ^ 64) = cur + oi := by
    rw [Nat.mod_eq_of_lt (by omega), adaptive_storage.static_cast_of_le T _ hfit]
  refine ⟨{ self with buffer_ := some m1 }, ?_, rfl, rfl, h1, h2, h3⟩
  simp only [nstore.add_switch, hload, outcome.bind, hbs, hc,
    if_pos (show oi ≤ numeric_limits_max T - cur by omega), hv, hst]

/-- The block `case sizeof(T)` of `operator+=` when the sum does not fit the cell: the
store grows and control falls through to the next label. -/
theorem add_switch_grow (w : wtype) (oi i : Nat) (T : uint_t) (labels : List uint_t)
    (self : nstore) (hwf : self.wf) (hT : self.depth_ = sizeof T) (hi : i < self.size_)
    (cur : Nat) (hcur : self.ivalue i = .returned cur)
    (hfit : ¬ cur + oi ≤ numeric_limits_max T) :
    self.add_switch w oi i (T :: labels)
      = (self.grow w).bind (nstore.add_switch w oi i labels) := by
  obtain ⟨bs, hload, hbs⟩ := load_cell self hwf T hT i hi cur hcur
  have hle := ivalue_le_max self hwf T hT i hi cur hcur
  have hc : static_cast T (numeric_limits_max T - cur) = numeric_limits_max T - cur :=
    adaptive_storage.static_cast_of_le T _ (Nat.sub_le _ _)
  simp only [nstore.add_switch, hload, outcome.bind, hbs, hc,
    if_neg (show ¬ oi ≤ numeric_limits_max T - cur by omega)]

theorem sizeof_next_le (T U V : uint_t) (hTU : sizeof U = 2 * sizeof T)
    (h : sizeof T < sizeof V) : sizeof U ≤ sizeof V := by
  cases T <;> cases U <;> cases V <;> simp only [sizeof] at * <;> omega

theorem sizeof_le_of_not_fit (T V : uint_t) (x : Nat) (hT : ¬ x ≤ numeric_limits_max T)
    (hV : x < 256 ^ sizeof V) (h : sizeof T ≤ sizeof V) : sizeof T < sizeof V := by
  rcases Nat.lt_or_eq_of_le h with h | h
  · exact h
  · rw [← h, pow_sizeof] at hV; omega

/-- The blocks of the `switch` of `operator+=` from `case sizeof(T)` on, for a cell with
the value `cur` and an operand value `oi` whose sum fits 64 bits: the call returns with the
sum in the cell `i`, the other cells kept, and the depth the first one from `sizeof(T)` on
that holds the sum. -/
theorem add_switch_spec (w : wtype) (oi i : Nat) (T : uint_t) (labels : List uint_t)
    (hlabels : T :: labels = [.uint8_t, .uint16_t, .uint32_t, .uint64_t] ∨
      T :: labels = [.uint16_t, .uint32_t, .uint64_t] ∨
      T :: labels = [.uint32_t, .uint64_t] ∨ T :: labels = [.uint64_t])
    (self : nstore) (hwf : self.wf) (hT : self.depth_ = sizeof T) (hi : i < self.size_)
    (cur : Nat) (hcur : self.ivalue i = .returned cur) (hsum : cur + oi < 2 ^ 64) :
    ∃ s, self.add_switch w oi i (T :: labels) = .returned s ∧ s.size_ = self.size_ ∧
      s.wf ∧ s.integral ∧ self.depth_ ≤ s.depth_ ∧ cur + oi < 256 ^ s.depth_ ∧
      (∀ V, self.depth_ ≤ sizeof V → cur + oi < 256 ^ sizeof V → s.depth_ ≤ sizeof V) ∧
      s.ivalue i = .returned (cur + oi) ∧
      ∀ j, j < self.size_ → j ≠ i → s.ivalue j = self.ivalue j := by
  induction labels generalizing T self cur with
  | nil =>
    have hT64 : T = .uint64_t := by
      rcases hlabels with h | h | h | h <;> simp at h
      exact h
    subst hT64
    obtain ⟨s, h1, h2, h3, h4, h5, h6⟩ := add_switch_fit w oi i .uint64_t [] self hwf hT hi
      cur hcur (by have : numeric_limits_max .uint64_t = 2 ^ 64 - 1 := rfl; omega)
    refine ⟨s, h1, h2, h4, integral_sizeof s .uint64_t (h3.trans hT), Nat.le_of_eq h3.symm,
      ?_, ?_, h5, h6⟩
    · rw [h3, hT]
      exact Nat.lt_of_lt_of_le hsum (by decide)
    · intro V hV _
      rw [h3]; exact hV
  | cons U labels ih =>
    have hTU : sizeof U = 2 * sizeof T := by
      rcases hlabels with h | h | h | h <;> simp at h <;> obtain ⟨rfl, rfl, _⟩ := h <;> rfl
    have hlabels1 : U :: labels = [.uint8_t, .uint16_t, .uint32_t, .uint64_t] ∨
        U :: labels = [.uint16_t, .uint32_t, .uint64_t] ∨
        U :: labels = [.uint32_t, .uint64_t] ∨ U :: labels = [.uint64_t] := by
      rcases hlabels with h | h | h | h
      · exact Or.inr (Or.inl (List.cons.inj h).2)
      · exact Or.inr (Or.inr (Or.inl (List.cons.inj h).2))
      · exact Or.inr (Or.inr (Or.inr (List.cons.inj h).2))
      · simp at h
    by_cases hfit : cur + oi ≤ numeric_limits_max T
    · obtain ⟨s, h1, h2, h3, h4, h5, h6⟩ := add_switch_fit w oi i T (U :: labels) self hwf hT
        hi cur hcur hfit
      refine ⟨s, h1, h2, h4, integral_sizeof s T (h3.trans hT), Nat.le_of_eq h3.symm,
        ?_, ?_, h5, h6⟩
      · rw [h3, hT, pow_sizeof]; omega
      · intro V hV _
        rw [h3]; exact hV
    · rw [add_switch_grow w oi i T (U :: labels) self hwf hT hi cur hcur hfit]
      obtain ⟨s1, g1, g2, g3, g4, g5⟩ := grow_spec w self hwf (by omega) T U hT hTU
      rw [g1]
      obtain ⟨s, h1, h2, h3, h4, h5, h6, h7, h8, h9⟩ := ih U hlabels1 s1 g4 g3
        (by rw [g2]; exact hi) cur ((g5 i hi).trans hcur) hsum
      refine ⟨s, h1, h2.trans g2, h3, h4, ?_, h6, ?_, h8, ?_⟩
      · rw [g3] at h5; rw [hT]; omega
      · intro V hV hVfit
        rw [hT] at hV
        have hlt := sizeof_le_of_not_fit T V _ hfit hVfit hV
        exact h7 V (by rw [g3]; exact sizeof_next_le T U V hTU hlt) hVfit
      · intro j hj hji
        rw [h9 j (by rw [g2]; exact hj) hji, g5 j hj]

/-- One round of the loop of `operator+=` over the cells of a store of integer depth. -/
theorem add_cell_spec (w : wtype) (self o : nstore) (i : Nat) (hwf : self.wf)
    (hint : self.integral) (hi : i < self.size_)
    (cur oi : Nat) (hcur : self.ivalue i = .returned cur) (hoi : o.ivalue i = .returned oi)
    (hsum : cur + oi < 2 ^ 64) :
    ∃ s, self.add_cell w o i = .returned s ∧ s.size_ = self.size_ ∧
      s.wf ∧ s.integral ∧ self.depth_ ≤ s.depth_ ∧ cur + oi < 256 ^ s.depth_ ∧
      (∀ V, self.depth_ ≤ sizeof V → cur + oi < 256 ^ sizeof V → s.depth_ ≤ sizeof V) ∧
      s.ivalue i = .returned (cur + oi) ∧
      ∀ j, j < self.size_ → j ≠ i → s.ivalue j = self.ivalue j := by
  rcases hint with h | h | h | h
  · have := add_switch_spec w oi i .uint8_t _ (Or.inl rfl) self hwf h hi cur hcur hsum
    simpa only [nstore.add_cell, hoi, outcome.bind, if_pos h] using this
  · have := add_switch_spec w oi i .uint16_t _ (Or.inr (Or.inl rfl)) self hwf h hi cur hcur
      hsum
    have h1 : ¬ self.depth_ = sizeof .uint8_t := by rw [h]; decide
    simpa only [nstore.add_cell, hoi, outcome.bind, if_neg h1, if_pos h] using this
  · have := add_switch_spec w oi i .uint32_t _ (Or.inr (Or.inr (Or.inl rfl))) self hwf h hi
      cur hcur hsum
    have h1 : ¬ self.depth_ = sizeof .uint8_t := by rw [h]; decide
    have h2 : ¬ self.depth_ = sizeof .uint16_t := by rw [h]; decide
    simpa only [nstore.add_cell, hoi, outcome.bind, if_neg h1, if_neg h2, if_pos h] using this
  · have := add_switch_spec w oi i .uint64_t _ (Or.inr (Or.inr (Or.inr rfl))) self hwf h hi
      cur hcur hsum
    have h1 : ¬ self.depth_ = sizeof .uint8_t := by rw [h]; decide
    have h2 : ¬ self.depth_ = sizeof .uint16_t := by rw [h]; decide
    have h3 : ¬ self.depth_ = sizeof .uint32_t := by rw [h]; decide
    simpa only [nstore.add_cell, hoi, outcome.bind, if_neg h1, if_neg h2, if_neg h3,
      if_pos h] using this

theorem sizeof_next (T U : uint_t) (h : sizeof T < sizeof U) :
    ∃ T1, sizeof T1 = 2 * sizeof T ∧ sizeof T1 ≤ sizeof U := by
  cases T <;> cases U <;> simp only [sizeof] at h <;> try omega
  all_goals first
    | exact ⟨.uint16_t, rfl, by decide⟩
    | exact ⟨.uint32_t, rfl, by decide⟩
    | exact ⟨.uint64_t, rfl, by decide⟩

/-- The loop `while (depth_ < o.depth_) grow();` towards the depth of an integer type: with
enough rounds it returns a store of the larger of the two depths with the same cells. -/
theorem grow_to_spec (w : wtype) (U : uint_t) : ∀ (k : Nat) (self : nstore) (T : uint_t),
    self.wf → 0 < self.size_ → self.depth_ = sizeof T → sizeof U ≤ 2 ^ k * sizeof T →
    ∃ s, self.grow_to w (k + 1) (sizeof U) = .returned s ∧ s.size_ = self.size_ ∧ s.wf ∧
      s.integral ∧ s.depth_ = max self.depth_ (sizeof U) ∧
      ∀ i, i < self.size_ → s.ivalue i = self.ivalue i := by
  intro k
  induction k with
  | zero =>
    intro self T hwf _ hT hk
    have hnlt : ¬ self.depth_ < sizeof U := by rw [hT]; omega
    refine ⟨self, ?_, rfl, hwf, integral_sizeof self T hT, ?_, fun _ _ => rfl⟩
    · simp only [nstore.grow_to, if_neg hnlt]
    · rw [hT]; omega
  | succ k ih =>
    intro self T hwf hs hT hk
    by_cases hlt : self.depth_ < sizeof U
    · obtain ⟨T1, h1, h2⟩ := sizeof_next T U (hT ▸ hlt)
      obtain ⟨s1, g1, g2, g3, g4, g5⟩ := grow_spec w self hwf hs T T1 hT h1
      obtain ⟨s, e1, e2, e3, e4, e5, e6⟩ := ih s1 T1 g4 (by omega) g3 (by
        rw [h1]; rw [pow_succ] at hk; calc sizeof U ≤ 2 ^ k * 2 * sizeof T := hk
          _ = 2 ^ k * (2 * sizeof T) := Nat.mul_assoc _ _ _)
      refine ⟨s, ?_, e2.trans g2, e3, e4, ?_, fun i hi => ?_⟩
      · rw [nstore.grow_to, if_pos hlt, g1]
        exact e1
      · rw [e5, g3]; omega
      · rw [e6 i (by omega), g5 i hi]
    · refine ⟨self, ?_, rfl, hwf, integral_sizeof self T hT, ?_, fun _ _ => rfl⟩
      · rw [nstore.grow_to, if_neg hlt]
      · omega

theorem foldl_bind_failed {α : Type} (f : nstore → α → outcome nstore) (l : List α)
    (x : outcome nstore) (hx : ∀ s, x ≠ .returned s) :
    l.foldl (fun s i => s.bind fun self => f self i) x = x := by
  induction l with
  | nil => rfl
  | cons a l ih =>
    rw [List.foldl_cons]
    have : (x.bind fun self => f self a) = x := by
      cases x with
      | returned s => exact absurd rfl (hx s)
      | logic_error s => rfl
      | assertion_failed => rfl
      | out_of_bounds => rfl
    rw [this]
    exact ih

/-- The loop of `operator+=` over the cells of two stores of integer depth whose sums fit
64 bits: after the rounds for the cells below `k` these cells hold the sums, the cells from
`k` on hold their old values and the depth is the first one from the old depth on that
holds the sums so far. -/
theorem add_loop_spec (w : wtype) (s0 o : nstore) (A B : Nat → Nat) (hwf : s0.wf)
    (hint : s0.integral)
    (hA : ∀ i, i < s0.size_ → s0.ivalue i = .returned (A i))
    (hB : ∀ i, i < s0.size_ → o.ivalue i = .returned (B i))
    (hsum : ∀ i, i < s0.size_ → A i + B i < 2 ^ 64) :
    ∀ k, k ≤ s0.size_ →
    ∃ s : nstore, (List.range k).foldl
        (fun (s : outcome nstore) i => s.bind fun self => self.add_cell w o i)
        (.returned s0) = .returned s ∧
      s.size_ = s0.size_ ∧ s.wf ∧ s.integral ∧ s0.depth_ ≤ s.depth_ ∧
      (∀ i, i < k → s.ivalue i = .returned (A i + B i)) ∧
      (∀ i, k ≤ i → i < s0.size_ → s.ivalue i = .returned (A i)) ∧
      (∀ i, i < k → A i + B i < 256 ^ s.depth_) ∧
      ∀ V, s0.depth_ ≤ sizeof V → (∀ i, i < k → A i + B i < 256 ^ sizeof V) →
        s.depth_ ≤ sizeof V := by
  intro k
  induction k with
  | zero =>
    intro _
    exact ⟨s0, rfl, rfl, hwf, hint, Nat.le_refl _, fun i hi => absurd hi (Nat.not_lt_zero i),
      fun i _ hi => hA i hi, fun i hi => absurd hi (Nat.not_lt_zero i), fun V hV _ => hV⟩
  | succ k ih =>
    intro hk
    obtain ⟨s, h1, h2, h3, h4, h5, h6, h7, h8, h9⟩ := ih (by omega)
    have hks : k < s.size_ := by omega
    obtain ⟨t, e1, e2, e3, e4, e5, e6, e7, e8, e9⟩ := add_cell_spec w s o k h3 h4 hks
      (A k) (B k) (h7 k (Nat.le_refl _) (by omega)) (hB k (by omega)) (hsum k (by omega))
    refine ⟨t, ?_, e2.trans h2, e3, e4, by omega, ?_, ?_, ?_, ?_⟩
    · rw [List.range_succ, List.foldl_append, h1]
      exact e1
    · intro i hi
      rcases Nat.lt_succ_iff_lt_or_eq.mp hi with hlt | heq
      · rw [e9 i (by omega) (by omega)]; exact h6 i hlt
      · rw [heq]; exact e8
    · intro i hki hi
      rw [e9 i (by omega) (by omega)]
      exact h7 i (by omega) hi
    · intro i hi
      rcases Nat.lt_succ_iff_lt_or_eq.mp hi with hlt | heq
      · exact Nat.lt_of_lt_of_le (h8 i hlt) (Nat.pow_le_pow_right (by decide) e5)
      · rw [heq]; exact e6
    · intro V hV hall
      have hsV : s.depth_ ≤ sizeof V := h9 V hV (fun i hi => hall i (by omega))
      exact e7 V hsV (hall k (by omega))

theorem sizeof_pos (T : uint_t) : 1 ≤ sizeof T := by cases T <;> decide

theorem sizeof_le_eight (T : uint_t) : sizeof T ≤ 8 := by cases T <;> decide

theorem integral_ne_sizeof (w : wtype) (self : nstore) (hint : self.integral)
    (hw : w.sizeof ≠ sizeof .uint8_t ∧ w.sizeof ≠ sizeof .uint16_t ∧
      w.sizeof ≠ sizeof .uint32_t ∧ w.sizeof ≠ sizeof .uint64_t) :
    ¬ self.depth_ = w.sizeof := by
  intro h
  rcases hint with h1 | h1 | h1 | h1
  · exact hw.1 (h ▸ h1)
  · exact hw.2.1 (h ▸ h1)
  · exact hw.2.2.1 (h ▸ h1)
  · exact hw.2.2.2 (h ▸ h1)

/-- The first part of `operator+=` on two stores of integer depth: the receiver is brought
to the larger of the two depths and keeps its cells. -/
theorem align_spec (w : wtype) (a b : nstore)
    (hw : w.sizeof ≠ sizeof .uint8_t ∧ w.sizeof ≠ sizeof .uint16_t ∧
      w.sizeof ≠ sizeof .uint32_t ∧ w.sizeof ≠ sizeof .uint64_t)
    (hwa : a.wf) (hpos : 0 < a.size_) (hia : a.integral) (hib : b.integral) :
    ∃ s0 : nstore, (if a.depth_ ≠ b.depth_ then
        if b.depth_ = w.sizeof then a.wconvert w else a.grow_to w 4 b.depth_
      else .returned a) = outcome.returned s0 ∧
      s0.size_ = a.size_ ∧ s0.wf ∧ s0.integral ∧ s0.depth_ = max a.depth_ b.depth_ ∧
      ∀ i, i < a.size_ → s0.ivalue i = a.ivalue i := by
  by_cases hd : a.depth_ = b.depth_
  · refine ⟨a, ?_, rfl, hwa, hia, ?_, fun _ _ => rfl⟩
    · rw [if_neg (not_not.mpr hd)]
    · rw [← hd, Nat.max_self]
  · obtain ⟨T, hT⟩ := (integral_iff a).mp hia
    obtain ⟨U, hU⟩ := (integral_iff b).mp hib
    have h8 := sizeof_le_eight U
    have h1 := sizeof_pos T
    obtain ⟨s, e1, e2, e3, e4, e5, e6⟩ := grow_to_spec w U 3 a T hwa hpos hT (by
      have : 2 ^ 3 * sizeof T = 8 * sizeof T := by norm_num
      omega)
    refine ⟨s, ?_, e2, e3, e4, by rw [e5, hU], e6⟩
    rw [if_pos hd, if_neg (integral_ne_sizeof w b hib hw), hU]
    exact e1

/-- C31: for two stores `a` and `b` of equal size > 0 whose depths are integer widths (1, 2,
4 or 8 bytes), with the cell values `A i` and `B i` and every sum `A i + B i` below `2 ^ 64`,
`a += b` returns; afterwards `a` has its size and every cell satisfies
`a.ivalue(i) = A i + B i`, and the depth of `a` is the smallest integer width that is
at least both prior depths and holds every sum. The operand `b` is a constant of the call,
which has no write to it. -/
theorem C31_add_assign_is_cellwise (w : wtype) (a b : nstore) (A B : Nat → Nat)
    (hw : w.sizeof ≠ sizeof .uint8_t ∧ w.sizeof ≠ sizeof .uint16_t ∧
      w.sizeof ≠ sizeof .uint32_t ∧ w.sizeof ≠ sizeof .uint64_t)
    (hwa : a.wf) (hs : a.size_ = b.size_) (hpos : 0 < a.size_)
    (hia : a.integral) (hib : b.integral)
    (hA : ∀ i, i < a.size_ → a.ivalue i = .returned (A i))
    (hB : ∀ i, i < a.size_ → b.ivalue i = .returned (B i))
    (hsum : ∀ i, i < a.size_ → A i + B i < 2 ^ 64) :
    ∃ s : nstore, a.operator_add_assign w b = .returned s ∧ s.size_ = a.size_ ∧ s.wf ∧
      (∀ i, i < a.size_ → s.ivalue i = .returned (A i + B i)) ∧
      s.integral ∧ a.depth_ ≤ s.depth_ ∧ b.depth_ ≤ s.depth_ ∧
      (∀ i, i < a.size_ → A i + B i < 256 ^ s.depth_) ∧
      ∀ V, a.depth_ ≤ sizeof V → b.depth_ ≤ sizeof V →
        (∀ i, i < a.size_ → A i + B i < 256 ^ sizeof V) → s.depth_ ≤ sizeof V := by
  obtain ⟨s0, e1, e2, e3, e4, e5, e6⟩ := align_spec w a b hw hwa hpos hia hib
  obtain ⟨s, h1, h2, h3, h4, h5, h6, -, h8, h9⟩ := add_loop_spec w s0 b A B e3 e4
    (fun i hi => (e6 i (e2 ▸ hi)).trans (hA i (e2 ▸ hi))) (fun i hi => hB i (e2 ▸ hi))
    (fun i hi => hsum i (e2 ▸ hi)) s0.size_ (Nat.le_refl _)
  refine ⟨s, ?_, h2.trans e2, h3, fun i hi => h6 i (e2.symm ▸ hi), h4, by omega, by omega,
    fun i hi => h8 i (e2.symm ▸ hi), fun V hVa hVb hall => ?_⟩
  · unfold nstore.operator_add_assign
    rw [if_neg (not_not.mpr hs), e1]
    simp only [outcome.bind]
    rw [if_neg (integral_ne_sizeof w s0 e4 hw)]
    exact h1
  · exact h9 V (by omega) (fun i hi => hall i (e2 ▸ hi))

theorem C31_add_assign_is_cellwise_witness :
    ∃ s : nstore, (nstore.mk 2 1 (some [200, 3])).operator_add_assign wtype.counts
        (nstore.mk 2 2 (some [100, 1, 4, 0])) = .returned s ∧
      s.size_ = 2 ∧ s.wf ∧
      (∀ i, i < 2 → s.ivalue i = .returned ([200, 3].getD i 0 + [356, 4].getD i 0)) ∧
      s.integral ∧ 1 ≤ s.depth_ ∧ 2 ≤ s.depth_ ∧
      (∀ i, i < 2 → [200, 3].getD i 0 + [356, 4].getD i 0 < 256 ^ s.depth_) ∧
      ∀ V, 1 ≤ sizeof V → 2 ≤ sizeof V →
        (∀ i, i < 2 → [200, 3].getD i 0 + [356, 4].getD i 0 < 256 ^ sizeof V) →
        s.depth_ ≤ sizeof V :=
  C31_add_assign_is_cellwise wtype.counts (nstore.mk 2 1 (some [200, 3]))
    (nstore.mk 2 2 (some [100, 1, 4, 0])) (fun i => [200, 3].getD i 0)
    (fun i => [356, 4].getD i 0) (by decide) (by decide) rfl (by decide) (by decide)
    (by decide) (by decide) (by decide) (by decide)

/-- C32: for every store of size > 0 and depth 1, 2 or 4 bytes, `grow()` returns, doubles
the depth, keeps the size and the class invariant, and every cell below the size has the
value `ivalue(i)` that it had before. The widening runs in place from the last cell to the
first: a round of the loop handles the cell `k` and leaves the cells below `k` to the later
rounds, and its write of the wide cell `k` changes no narrow cell below `k`, so that no
narrow cell is overwritten before it has been read. -/
theorem C32_grow_doubles_depth_keeps_cells (w : wtype) (self : nstore) (hwf : self.wf)
    (hs : 0 < self.size_) (hd : self.depth_ = 1 ∨ self.depth_ = 2 ∨ self.depth_ = 4) :
    (∃ s : nstore, self.grow w = .returned s ∧ s.size_ = self.size_ ∧
      s.depth_ = 2 * self.depth_ ∧ s.wf ∧
      ∀ i, i < self.size_ → ∃ v, self.ivalue i = .returned v ∧ s.ivalue i = .returned v) ∧
    (∀ (conv : Nat → List Nat) (k : Nat) (m : List Nat),
      widen self.depth_ (2 * self.depth_) conv (k + 1) m
        = (load (some m) (k * self.depth_) self.depth_).bind fun bs =>
          (store (some m) (k * (2 * self.depth_)) (conv (of_bytes bs))).bind fun m1 =>
          widen self.depth_ (2 * self.depth_) conv k m1) ∧
    (∀ (m c : List Nat) (k j : Nat), k * (2 * self.depth_) + c.length ≤ m.length → j < k →
      ∃ m1, store (some m) (k * (2 * self.depth_)) c = .returned m1 ∧
        (m1.drop (j * self.depth_)).take self.depth_
          = (m.drop (j * self.depth_)).take self.depth_) := by
  refine ⟨?_, fun _ _ _ => rfl, fun m c k j hst hjk => ?_⟩
  swap
  · refine ⟨m.take (k * (2 * self.depth_)) ++ c ++ m.drop (k * (2 * self.depth_) + c.length),
      by simp only [store, if_pos hst], ?_⟩
    have h1 := succ_mul_le j k self.depth_ hjk
    have h2 : k * self.depth_ ≤ k * (2 * self.depth_) := Nat.mul_le_mul_left k (by omega)
    exact slice_before m c _ (k * (2 * self.depth_)) (j * self.depth_) self.depth_
      (by omega) (by omega)
  have key : ∀ T U : uint_t, self.depth_ = sizeof T → sizeof U = 2 * sizeof T →
      ∃ s : nstore, self.grow w = .returned s ∧ s.size_ = self.size_ ∧
        s.depth_ = 2 * self.depth_ ∧ s.wf ∧
        ∀ i, i < self.size_ → ∃ v, self.ivalue i = .returned v ∧ s.ivalue i = .returned v := by
    intro T U hT hTU
    obtain ⟨s, h1, h2, h3, h4, h5⟩ := grow_spec w self hwf hs T U hT hTU
    obtain ⟨m, hb, hl, -⟩ := wf_buffer self hwf hs
    refine ⟨s, h1, h2, by rw [h3, hTU, hT], h4, fun i hi =>
      ⟨of_bytes ((m.drop (i * self.depth_)).take self.depth_), ?_, ?_⟩⟩
    · exact ivalue_eq self m hb hl (integral_sizeof self T hT) i hi
    · rw [h5 i hi]
      exact ivalue_eq self m hb hl (integral_sizeof self T hT) i hi
  rcases hd with h | h | h
  · exact key .uint8_t .uint16_t h rfl
  · exact key .uint16_t .uint32_t h rfl
  · exact key .uint32_t .uint64_t h rfl

theorem C32_grow_doubles_depth_keeps_cells_witness :
    (nstore.mk 3 1 (some [7, 8, 9])).grow wtype.counts
      = .returned (nstore.mk 3 2 (some [7, 0, 8, 0, 9, 0])) ∧
    ∃ s : nstore, (nstore.mk 3 1 (some [7, 8, 9])).grow wtype.counts = .returned s ∧
      s.size_ = 3 ∧ s.depth_ = 2 * 1 ∧ s.wf ∧
      ∀ i, i < 3 → ∃ v, (nstore.mk 3 1 (some [7, 8, 9])).ivalue i = .returned v ∧
        s.ivalue i = .returned v :=
  ⟨by decide,
    (C32_grow_doubles_depth_keeps_cells wtype.counts (nstore.mk 3 1 (some [7, 8, 9]))
      (by decide) (by decide) (Or.inl rfl)).1⟩

/-! ## Equality of two stores -/

/-- A list of `n` cells of `d` bytes is determined by its cells. -/
theorem eq_of_slices (d : Nat) : ∀ (n : Nat) (m1 m2 : List Nat), m1.length = n * d →
    m2.length = n * d →
    (∀ i, i < n → (m1.drop (i * d)).take d = (m2.drop (i * d)).take d) → m1 = m2 := by
  intro n
  induction n with
  | zero =>
    intro m1 m2 h1 h2 _
    rw [Nat.zero_mul] at h1 h2
    rw [List.length_eq_zero.mp h1, List.length_eq_zero.mp h2]
  | succ n ih =>
    intro m1 m2 h1 h2 h
    rw [Nat.succ_mul] at h1 h2
    have h0 := h 0 (Nat.succ_pos n)
    simp only [Nat.zero_mul, List.drop_zero] at h0
    have hrest : m1.drop d = m2.drop d := by
      apply ih
      · simp only [List.length_drop]; omega
      · simp only [List.length_drop]; omega
      · intro i hi
        have := h (i + 1) (by omega)
        rw [Nat.succ_mul] at this
        rw [List.drop_drop, List.drop_drop, Nat.add_comm d]
        exact this
    rw [← List.take_append_drop d m1, ← List.take_append_drop d m2, h0, hrest]

/-- The whole buffer of a store is what `memcmp` reads. -/
theorem load_all (self : nstore) (hwf : self.wf) :
    load self.buffer_ 0 (self.size_ * self.depth_) = .returned (self.buffer_.getD []) := by
  unfold nstore.wf at hwf
  cases hb : self.buffer_ with
  | none =>
    rw [hb] at hwf
    simp only at hwf
    simp [load, hwf]
  | some m =>
    rw [hb] at hwf
    simp only [load, Nat.zero_add, hwf.1, Nat.le_refl, if_true, List.drop_zero,
      Option.getD_some]
    rw [← hwf.1, List.take_length]

theorem operator_eq_spec (self o : nstore) (hwf : self.wf) (hwo : o.wf) :
    self.operator_eq o = .returned (decide (self.size_ = o.size_ ∧ self.depth_ = o.depth_ ∧
      self.buffer_.getD [] = o.buffer_.getD [])) := by
  by_cases h : self.size_ ≠ o.size_ ∨ self.depth_ ≠ o.depth_
  · have hn : ¬ (self.size_ = o.size_ ∧ self.depth_ = o.depth_ ∧
        self.buffer_.getD [] = o.buffer_.getD []) := by
      rintro ⟨h1, h2, -⟩
      rcases h with h | h
      · exact h h1
      · exact h h2
    simp only [nstore.operator_eq, if_pos h, hn, decide_False]
  · have h1 : self.size_ = o.size_ := by
      by_contra hc; exact h (Or.inl hc)
    have h2 : self.depth_ = o.depth_ := by
      by_contra hc; exact h (Or.inr hc)
    have lo := load_all o hwo
    rw [← h1, ← h2] at lo
    have hd : decide (self.size_ = o.size_ ∧ self.depth_ = o.depth_ ∧
        self.buffer_.getD [] = o.buffer_.getD [])
        = decide (self.buffer_.getD [] = o.buffer_.getD []) := by
      simp only [h1, h2, true_and]
    rw [hd]
    unfold nstore.operator_eq
    rw [if_neg h, load_all self hwf, lo]
    rfl

theorem getD_nil_of_size_zero (self : nstore) (hwf : self.wf) (h : self.size_ = 0) :
    self.buffer_.getD [] = [] := by
  unfold nstore.wf at hwf
  cases hb : self.buffer_ with
  | none => rfl
  | some m =>
    rw [hb, h, Nat.zero_mul] at hwf
    simpa using hwf.1

theorem load_cell_eq (self : nstore) (m : List Nat) (hb : self.buffer_ = some m)
    (hl : m.length = self.size_ * self.depth_) (i : Nat) (hi : i < self.size_) :
    load self.buffer_ (i * self.depth_) self.depth_
      = .returned ((m.drop (i * self.depth_)).take self.depth_) := by
  have := succ_mul_le i self.size_ self.depth_ hi
  simp only [load, hb, if_pos (show i * self.depth_ + self.depth_ ≤ m.length by omega)]

/-- C33: `nstore::operator==` returns, and it returns `true` iff the two stores have the
same size, the same depth and the same bytes in every cell; for stores of integer depth
that is the same value `ivalue(i)` in every cell. Two stores of equal size and different
depths compare unequal whatever their cells hold, so the equality depends on the
representation and not only on the logical cell values. -/
theorem C33_equality_is_representational (self o : nstore) (hwf : self.wf) (hwo : o.wf) :
    (∃ r, self.operator_eq o = .returned r) ∧
    (self.operator_eq o = .returned true ↔
      self.size_ = o.size_ ∧ self.depth_ = o.depth_ ∧
      ∀ i, i < self.size_ → load self.buffer_ (i * self.depth_) self.depth_
        = load o.buffer_ (i * o.depth_) o.depth_) ∧
    (self.integral → (self.operator_eq o = .returned true ↔
      self.size_ = o.size_ ∧ self.depth_ = o.depth_ ∧
      ∀ i, i < self.size_ → self.ivalue i = o.ivalue i)) ∧
    (self.size_ = o.size_ → self.depth_ ≠ o.depth_ →
      self.operator_eq o = .returned false) := by
  have hspec := operator_eq_spec self o hwf hwo
  have hbuf : self.size_ = o.size_ → self.depth_ = o.depth_ →
      ((self.buffer_.getD [] = o.buffer_.getD [] ↔
        ∀ i, i < self.size_ → load self.buffer_ (i * self.depth_) self.depth_
          = load o.buffer_ (i * o.depth_) o.depth_) ∧
      (self.integral → (self.buffer_.getD [] = o.buffer_.getD [] ↔
        ∀ i, i < self.size_ → self.ivalue i = o.ivalue i))) := by
    intro h1 h2
    rcases Nat.eq_zero_or_pos self.size_ with h0 | hpos
    · have e1 := getD_nil_of_size_zero self hwf h0
      have e2 := getD_nil_of_size_zero o hwo (h1 ▸ h0)
      rw [e1, e2, h0]
      exact ⟨⟨fun _ i hi => absurd hi (Nat.not_lt_zero i), fun _ => rfl⟩,
        fun _ => ⟨fun _ i hi => absurd hi (Nat.not_lt_zero i), fun _ => rfl⟩⟩
    · obtain ⟨m1, hb1, hl1, hby1⟩ := wf_buffer self hwf hpos
      obtain ⟨m2, hb2, hl2, hby2⟩ := wf_buffer o hwo (h1 ▸ hpos)
      have hl2s : m2.length = self.size_ * self.depth_ := by rw [hl2, h1, h2]
      have hcells : m1 = m2 ↔ ∀ i, i < self.size_ →
          (m1.drop (i * self.depth_)).take self.depth_
            = (m2.drop (i * self.depth_)).take self.depth_ :=
        ⟨fun h _ _ => by rw [h], eq_of_slices self.depth_ self.size_ m1 m2 hl1 hl2s⟩
      constructor
      · rw [hb1, hb2, Option.getD_some, Option.getD_some, hcells]
        constructor
        · intro h i hi
          rw [← hb1, ← hb2, load_cell_eq self m1 hb1 hl1 i hi,
            load_cell_eq o m2 hb2 hl2 i (h1 ▸ hi), ← h2, h i hi]
        · intro h i hi
          have := h i hi
          rw [← hb1, ← hb2, load_cell_eq self m1 hb1 hl1 i hi,
            load_cell_eq o m2 hb2 hl2 i (h1 ▸ hi), ← h2] at this
          exact outcome.returned.inj this
      · intro hint
        have hinto : o.integral := by
          unfold nstore.integral at hint ⊢
          rw [← h2]; exact hint
        rw [hb1, hb2, Option.getD_some, Option.getD_some, hcells]
        constructor
        · intro h i hi
          rw [ivalue_eq self m1 hb1 hl1 hint i hi, ivalue_eq o m2 hb2 hl2 hinto i (h1 ▸ hi),
            ← h2, h i hi]
        · intro h i hi
          have := h i hi
          rw [ivalue_eq self m1 hb1 hl1 hint i hi, ivalue_eq o m2 hb2 hl2 hinto i (h1 ▸ hi),
            ← h2] at this
          have hsl := succ_mul_le i self.size_ self.depth_ hi
          apply of_bytes_injective
          · rw [slice_length m1 _ _ (by omega), slice_length m2 _ _ (by omega)]
          · exact fun x hx => hby1 x (List.mem_of_mem_drop (List.mem_of_mem_take hx))
          · exact fun x hx => hby2 x (List.mem_of_mem_drop (List.mem_of_mem_take hx))
          · exact outcome.returned.inj this
  refine ⟨⟨_, hspec⟩, ?_, ?_, ?_⟩
  · rw [hspec]
    constructor
    · intro h
      have h' := of_decide_eq_true (outcome.returned.inj h)
      exact ⟨h'.1, h'.2.1, (hbuf h'.1 h'.2.1).1.mp h'.2.2⟩
    · rintro ⟨h1, h2, h3⟩
      rw [decide_eq_true ⟨h1, h2, (hbuf h1 h2).1.mpr h3⟩]
  · intro hint
    rw [hspec]
    constructor
    · intro h
      have h' := of_decide_eq_true (outcome.returned.inj h)
      exact ⟨h'.1, h'.2.1, ((hbuf h'.1 h'.2.1).2 hint).mp h'.2.2⟩
    · rintro ⟨h1, h2, h3⟩
      rw [decide_eq_true ⟨h1, h2, ((hbuf h1 h2).2 hint).mpr h3⟩]
  · intro _ h2
    rw [hspec, decide_eq_false (fun h => h2 h.2.1)]

theorem C33_equality_is_representational_witness :
    (nstore.mk 2 1 (some [5, 6])).operator_eq (nstore.mk 2 2 (some [5, 0, 6, 0]))
      = .returned false ∧
    (∀ i, i < 2 → (nstore.mk 2 1 (some [5, 6])).ivalue i
      = (nstore.mk 2 2 (some [5, 0, 6, 0])).ivalue i) ∧
    (nstore.mk 2 1 (some [5, 6])).operator_eq (nstore.mk 2 1 (some [5, 6]))
      = .returned true :=
  ⟨(C33_equality_is_representational (nstore.mk 2 1 (some [5, 6]))
      (nstore.mk 2 2 (some [5, 0, 6, 0])) (by decide) (by decide)).2.2.2 rfl (by decide),
    by decide,
    ((C33_equality_is_representational (nstore.mk 2 1 (some [5, 6]))
      (nstore.mk 2 1 (some [5, 6])) (by decide) (by decide)).2.2.1 (by decide)).mpr
      ⟨rfl, rfl, fun _ _ => rfl⟩⟩

/-! ## Reads of the operand in `operator+=` -/

theorem bind_returned {α β : Type} (a : α) (f : α → outcome β) :
    (outcome.returned a).bind f = f a := rfl

theorem load_cases (buffer : Option (List Nat)) (off n : Nat) :
    (∃ bs, load buffer off n = .returned bs) ∨ load buffer off n = .out_of_bounds := by
  unfold load
  cases buffer with
  | none => by_cases h : n = 0 <;> simp [h]
  | some m => by_cases h : off + n ≤ m.length <;> simp [h]

/-- A round of the loop over weighted cells whose read of the operand is outside the
buffer of the operand ends there. -/
theorem add_wcell_out_of_bounds (w : wtype) (self o : nstore) (i : Nat)
    (h : load o.buffer_ (i * w.sizeof) w.sizeof = .out_of_bounds) :
    self.add_wcell w o i = .out_of_bounds := by
  unfold nstore.add_wcell
  rcases load_cases self.buffer_ (i * w.sizeof) w.sizeof with ⟨bs, hb⟩ | hb
  · rw [hb, h]; rfl
  · rw [hb]; rfl

theorem add_wcell_cases (w : wtype) (self o : nstore) (i : Nat) :
    (∃ s, self.add_wcell w o i = .returned s) ∨ self.add_wcell w o i = .out_of_bounds := by
  unfold nstore.add_wcell
  rcases load_cases self.buffer_ (i * w.sizeof) w.sizeof with ⟨bs, hb⟩ | hb
  · rw [hb]
    rcases load_cases o.buffer_ (i * w.sizeof) w.sizeof with ⟨ob, ho⟩ | ho
    · rw [ho]
      simp only [outcome.bind, store]
      cases self.buffer_ with
      | none => exact Or.inr rfl
      | some m =>
        by_cases hs : i * w.sizeof + (w.add_assign bs ob).length ≤ m.length
        · simp [hs]
        · simp [hs]
    · rw [ho]; exact Or.inr rfl
  · rw [hb]; exact Or.inr rfl

theorem wloop_cases (w : wtype) (o : nstore) : ∀ (k : Nat) (x : outcome nstore),
    ((∃ s, x = .returned s) ∨ x = .out_of_bounds) →
    (∃ s, (List.range k).foldl
      (fun (s : outcome nstore) i => s.bind fun self => self.add_wcell w o i) x
        = .returned s) ∨
    (List.range k).foldl
      (fun (s : outcome nstore) i => s.bind fun self => self.add_wcell w o i) x
        = .out_of_bounds := by
  intro k
  induction k with
  | zero => intro x hx; exact hx
  | succ k ih =>
    intro x hx
    rw [List.range_succ, List.foldl_append]
    rcases ih x hx with ⟨s, hs⟩ | hs
    · rw [hs]
      exact add_wcell_cases w s o k
    · rw [hs]; exact Or.inr rfl

/-- The operator `+=` on a receiver of the weighted depth `sizeof(wtype)` and an operand of
a smaller depth, both of the same size > 0: the loop reads the cells of the operand as
`wtype` objects, and the read of the last cell is outside the buffer of the operand. -/
theorem weighted_receiver_out_of_bounds (w : wtype) (self o : nstore)
    (hd : self.depth_ = w.sizeof) (ho : o.depth_ < w.sizeof) (hs : self.size_ = o.size_)
    (hpos : 0 < self.size_) (hwo : o.wf) :
    load o.buffer_ ((o.size_ - 1) * w.sizeof) w.sizeof = .out_of_bounds ∧
    self.operator_add_assign w o = .out_of_bounds := by
  obtain ⟨m, hb, hl, -⟩ := wf_buffer o hwo (hs ▸ hpos)
  have hlast : load o.buffer_ ((o.size_ - 1) * w.sizeof) w.sizeof = .out_of_bounds := by
    have h1 : (o.size_ - 1) * w.sizeof + w.sizeof = o.size_ * w.sizeof := by
      have := Nat.succ_mul (o.size_ - 1) w.sizeof
      rw [Nat.succ_eq_add_one, Nat.sub_add_cancel (by omega)] at this
      exact this.symm
    have h2 : o.size_ * o.depth_ < o.size_ * w.sizeof :=
      Nat.mul_lt_mul_of_pos_left ho (by omega)
    simp only [load, hb, if_neg (show ¬ (o.size_ - 1) * w.sizeof + w.sizeof ≤ m.length by
      omega)]
  refine ⟨hlast, ?_⟩
  have hne : self.depth_ ≠ o.depth_ := by omega
  have hnw : ¬ o.depth_ = w.sizeof := by omega
  have hnlt : ¬ self.depth_ < o.depth_ := by omega
  unfold nstore.operator_add_assign
  rw [if_neg (not_not.mpr hs), if_pos hne, if_neg hnw, nstore.grow_to, if_neg hnlt,
    bind_returned, if_pos hd]
  have hn : self.size_ = (o.size_ - 1) + 1 := by omega
  rw [hn, List.range_succ, List.foldl_append]
  rcases wloop_cases w o (o.size_ - 1) (.returned self) (Or.inl ⟨_, rfl⟩) with ⟨s, h⟩ | h
  · rw [h]
    exact add_wcell_out_of_bounds w s o _ hlast
  · rw [h]; rfl

/-- C34 (failing input): the receiver is a store of one weighted cell, as
`nstore(1, sizeof(wtype))` makes it, and the operand a store of one cell of depth 1 with
the count 1. The operator `+=` reads `sizeof(wtype)` bytes at the offset 0 of the operand,
whose buffer has one byte: the read is outside the buffer and the cell is not read at the
depth of the operand. -/
theorem C34_weighted_receiver_reads_past_operand :
    nstore.make wtype.counts 1 wtype.counts.sizeof
      = .returned (nstore.mk 1 16 (some (List.replicate 16 0))) ∧
    (nstore.mk 1 1 (some [1])).wf ∧
    (nstore.mk 1 1 (some [1])).ivalue 0 = .returned 1 ∧
    load (nstore.mk 1 1 (some [1])).buffer_ (0 * wtype.counts.sizeof) wtype.counts.sizeof
      = .out_of_bounds ∧
    (nstore.mk 1 16 (some (List.replicate 16 0))).operator_add_assign wtype.counts
      (nstore.mk 1 1 (some [1])) = .out_of_bounds :=
  ⟨by decide, by decide, by decide, by decide, by decide⟩

end detail
